import Mathlib

/-!
Shallow embedding of gnupg's `g10/key-check.c` (`sig_comparison` and
`key_check_all_keysigs`) together with proofs about the embedded code.

Modelling conventions:
* OpenPGP mpi values (`gcry_mpi_t`) are modelled as `Nat`; `gcry_mpi_cmp` is
  unsigned big-number comparison, i.e. `Nat.compare`.
* A keyblock (`kbnode_t` linked list) is a `List Node`.  Pointer identity of
  nodes is modelled by a node id; well-formed keyblocks have pairwise distinct
  ids (in C, distinct heap pointers).  Unlinking a node and re-splicing it is
  `eraseId` / `insertAfterId`.
* External collaborators (`pubkey_get_nsig`, `get_pubkey`,
  `openpgp_pk_test_algo`, `openpgp_md_test_algo`,
  `check_signature_over_key_or_uid`, allocation success) form an `Env` record.
  Following section 6 of the specification they are deterministic within an
  invocation and the verification primitive depends only on
  (issuer key, signature, candidate packet).
* `log_assert` failure (which aborts the process) is the `abort` outcome.
* The C traversal of pass 2 captures `n_next = n->next` before the node is
  processed and possibly spliced; the model does the same via `succId`
  computed before `processNode`.  The `n_prevp` bookkeeping of the C code
  exists only to implement unlinking on a singly linked list and is subsumed
  by `eraseId`.
* Diagnostic printing (`tty_printf`, `log_debug`, `keyedit_print_one_sig`,
  `pending_desc`) has no effect on the keyblock or the counters and is not
  modelled.
-/

namespace KeyCheck

/-- Primary or issuer public key; only the key id takes part in the logic of
`key-check.c` (timestamps are only printed). -/
structure PublicKey where
  keyid : Nat
  timestamp : Nat
deriving DecidableEq

/-- Signature packet (`PKT_signature`): issuer key id, algorithms, signature
class (`cls`), timestamp, mpi payload (`data`), and the externally maintained
verification-result flags `checked` / `valid`. -/
structure Sig where
  keyid : Nat
  pubkey_algo : Nat
  digest_algo : Nat
  cls : Nat
  timestamp : Nat
  data : List Nat
  checked : Bool
  valid : Bool
deriving DecidableEq

/-- Packet payload of a keyblock node (closed variant of the packet types the
function inspects; every other `pkttype` is `other`). -/
inductive Packet where
  | publicKey (pk : PublicKey)
  | publicSubkey (pk : PublicKey)
  | userId (name : Nat)
  | signature (s : Sig)
  | other (tag : Nat)
deriving DecidableEq

/-- Keyblock node: identity (`id`, modelling the heap pointer), the deleted
tombstone flag, the selection flags (`NODFLG_SELKEY` / `NODFLG_SELUID`) and
the packet. -/
structure Node where
  id : Nat
  deleted : Bool
  selkey : Bool
  seluid : Bool
  pkt : Packet
deriving DecidableEq

/-- External collaborators of the check, fixed for one invocation. -/
structure Env where
  nsig : Nat → Nat
  get_pubkey : Nat → Option PublicKey
  pk_algo_ok : Nat → Bool
  md_algo_ok : Nat → Bool
  verify : PublicKey → Sig → Packet → Bool
  alloc_ok : Bool

/-- Policy flags of the caller (`only_selected`, `only_selfsigs`). -/
structure Pol where
  only_selected : Bool
  only_selfsigs : Bool
deriving DecidableEq

/-- Discriminator for signature packets. -/
def sigNode (n : Node) : Bool :=
  match n.pkt with
  | .signature _ => true
  | _ => false

/-- Discriminator for component packets (primary key, subkey, user id). -/
def compPacket (p : Packet) : Bool :=
  match p with
  | .publicKey _ => true
  | .publicSubkey _ => true
  | .userId _ => true
  | _ => false

/-- Discriminator for primary-key packets. -/
def pkPacket (p : Packet) : Bool :=
  match p with
  | .publicKey _ => true
  | _ => false

/-- Signature carried by a node (default for non-signature nodes, which the C
code excludes by `log_assert`). -/
def sigOf (n : Node) : Sig :=
  match n.pkt with
  | .signature s => s
  | _ => ⟨0, 0, 0, 0, 0, [], false, false⟩

/-- Non-deleted signature node, the kind of node collected into the `sigs`
array of the duplicate pass. -/
def liveSig (n : Node) : Bool :=
  !n.deleted && sigNode n

/-- Loop of `sig_comparison`: compare `count` mpis starting at index `i`
(`gcry_mpi_cmp (a->data[i], b->data[i])`). -/
def cmpMpisAux (xs ys : List Nat) : Nat → Nat → Ordering
  | 0, _ => .eq
  | count + 1, i =>
    match compare (xs.getD i 0) (ys.getD i 0) with
    | .eq => cmpMpisAux xs ys count (i + 1)
    | o => o

/-- Order two signatures (C `sig_comparison`).  The actual ordering is not
important; its goal is to make identical signatures adjacent after sorting. -/
def sig_comparison (env : Env) (a b : Sig) : Ordering :=
  if a.digest_algo < b.digest_algo then .lt
  else if b.digest_algo < a.digest_algo then .gt
  else
    let ndataa := env.nsig a.pubkey_algo
    let ndatab := env.nsig b.pubkey_algo
    if ndataa ≠ ndatab then (if ndataa < ndatab then .lt else .gt)
    else cmpMpisAux a.data b.data ndataa 0

/-- Lexicographic comparison of mpi lists (reference form of the comparison
loop, used to reason about `sig_comparison`). -/
def lexCompare : List Nat → List Nat → Ordering
  | [], [] => .eq
  | [], _ :: _ => .lt
  | _ :: _, [] => .gt
  | x :: xs, y :: ys =>
    match compare x y with
    | .eq => lexCompare xs ys
    | o => o

/-- Comparison key of a signature: digest algorithm, mpi count as a function
of the public-key algorithm, and the mpi values actually compared. -/
def sigVals (env : Env) (s : Sig) : List Nat :=
  (List.range (env.nsig s.pubkey_algo)).map (fun i => s.data.getD i 0)

/-- Full comparison key of a signature. -/
def sigKey (env : Env) (s : Sig) : Nat × Nat × List Nat :=
  (s.digest_algo, env.nsig s.pubkey_algo, sigVals env s)

/-- Lexicographic comparison of signature keys (encoded as 3-element list
comparison, which matches the nested compare of `sig_comparison`). -/
def keyCmp (k1 k2 : Nat × Nat × List Nat) : Ordering :=
  lexCompare (k1.1 :: k1.2.1 :: k1.2.2) (k2.1 :: k2.2.1 :: k2.2.2)

theorem lexCompare_eq_iff : ∀ xs ys : List Nat, lexCompare xs ys = .eq ↔ xs = ys := by
  intro xs
  induction xs with
  | nil => intro ys; cases ys <;> simp [lexCompare]
  | cons x xs ih =>
    intro ys
    cases ys with
    | nil => simp [lexCompare]
    | cons y ys =>
      rcases Nat.lt_trichotomy x y with h | h | h
      · have hc : compare x y = .lt := Nat.compare_eq_lt.mpr h
        simp [lexCompare, hc, Nat.ne_of_lt h]
      · subst h
        have hc : compare x x = .eq := Nat.compare_eq_eq.mpr rfl
        simp [lexCompare, hc, ih]
      · have hc : compare x y = .gt := Nat.compare_eq_gt.mpr h
        simp [lexCompare, hc, Nat.ne_of_gt h]

theorem lexCompare_swap : ∀ xs ys : List Nat, lexCompare ys xs = (lexCompare xs ys).swap := by
  intro xs
  induction xs with
  | nil => intro ys; cases ys <;> simp [lexCompare, Ordering.swap]
  | cons x xs ih =>
    intro ys
    cases ys with
    | nil => simp [lexCompare, Ordering.swap]
    | cons y ys =>
      rcases Nat.lt_trichotomy x y with h | h | h
      · have h1 : compare x y = .lt := Nat.compare_eq_lt.mpr h
        have h2 : compare y x = .gt := Nat.compare_eq_gt.mpr h
        simp [lexCompare, h1, h2, Ordering.swap]
      · subst h
        have h1 : compare x x = .eq := Nat.compare_eq_eq.mpr rfl
        simp [lexCompare, h1, ih]
      · have h1 : compare x y = .gt := Nat.compare_eq_gt.mpr h
        have h2 : compare y x = .lt := Nat.compare_eq_lt.mpr h
        simp [lexCompare, h1, h2, Ordering.swap]

theorem lexCompare_lt_trans :
    ∀ xs ys zs : List Nat, lexCompare xs ys = .lt → lexCompare ys zs = .lt →
      lexCompare xs zs = .lt := by
  intro xs
  induction xs with
  | nil =>
    intro ys zs h1 h2
    cases ys with
    | nil => exact h2
    | cons y ys =>
      cases zs with
      | nil => simp [lexCompare] at h2
      | cons z zs => simp [lexCompare]
  | cons x xs ih =>
    intro ys zs h1 h2
    cases ys with
    | nil => simp [lexCompare] at h1
    | cons y ys =>
      cases zs with
      | nil => simp [lexCompare] at h2
      | cons z zs =>
        rcases Nat.lt_trichotomy x y with h | h | h
        · rcases Nat.lt_trichotomy y z with h' | h' | h'
          · have : x < z := Nat.lt_trans h h'
            simp [lexCompare, Nat.compare_eq_lt.mpr this]
          · subst h'
            simp [lexCompare, Nat.compare_eq_lt.mpr h]
          · simp [lexCompare, Nat.compare_eq_gt.mpr h'] at h2
        · subst h
          simp only [lexCompare, Nat.compare_eq_eq.mpr rfl] at h1
          rcases Nat.lt_trichotomy x z with h' | h' | h'
          · simp [lexCompare, Nat.compare_eq_lt.mpr h']
          · subst h'
            simp only [lexCompare, Nat.compare_eq_eq.mpr rfl] at h2 ⊢
            exact ih ys zs h1 h2
          · simp [lexCompare, Nat.compare_eq_gt.mpr h'] at h2
        · simp [lexCompare, Nat.compare_eq_gt.mpr h] at h1

theorem keyCmp_eq_iff (k1 k2 : Nat × Nat × List Nat) : keyCmp k1 k2 = .eq ↔ k1 = k2 := by
  obtain ⟨d1, n1, v1⟩ := k1
  obtain ⟨d2, n2, v2⟩ := k2
  rw [keyCmp, lexCompare_eq_iff]
  simp

theorem keyCmp_swap (k1 k2 : Nat × Nat × List Nat) : keyCmp k2 k1 = (keyCmp k1 k2).swap := by
  rw [keyCmp, keyCmp, lexCompare_swap]

theorem keyCmp_lt_trans {k1 k2 k3 : Nat × Nat × List Nat}
    (h1 : keyCmp k1 k2 = .lt) (h2 : keyCmp k2 k3 = .lt) : keyCmp k1 k3 = .lt :=
  lexCompare_lt_trans _ _ _ h1 h2

theorem cmpMpisAux_eq_lex (xs ys : List Nat) :
    ∀ count i, cmpMpisAux xs ys count i =
      lexCompare ((List.range count).map (fun j => xs.getD (i + j) 0))
        ((List.range count).map (fun j => ys.getD (i + j) 0)) := by
  intro count
  induction count with
  | zero => intro i; simp [cmpMpisAux, lexCompare]
  | succ k ih =>
    intro i
    rw [List.range_succ_eq_map]
    simp only [List.map_cons, List.map_map, cmpMpisAux, lexCompare, Nat.add_zero]
    have hf : ∀ zs : List Nat,
        (List.range k).map ((fun j => zs.getD (i + j) 0) ∘ Nat.succ) =
        (List.range k).map (fun j => zs.getD (i + 1 + j) 0) := by
      intro zs
      apply List.map_congr_left
      intro a _
      simp only [Function.comp]
      congr 1
      omega
    rw [hf xs, hf ys, ← ih (i + 1)]

theorem keyCmp_def (d1 n1 d2 n2 : Nat) (v1 v2 : List Nat) :
    keyCmp (d1, n1, v1) (d2, n2, v2) =
      match compare d1 d2 with
      | .eq =>
        match compare n1 n2 with
        | .eq => lexCompare v1 v2
        | o => o
      | o => o := rfl

theorem sig_comparison_eq_keyCmp (env : Env) (a b : Sig) :
    sig_comparison env a b = keyCmp (sigKey env a) (sigKey env b) := by
  simp only [sigKey]
  rw [keyCmp_def]
  rcases Nat.lt_trichotomy a.digest_algo b.digest_algo with h | h | h
  · rw [Nat.compare_eq_lt.mpr h]
    show sig_comparison env a b = .lt
    simp only [sig_comparison]
    rw [if_pos h]
  · rw [Nat.compare_eq_eq.mpr h]
    rcases Nat.lt_trichotomy (env.nsig a.pubkey_algo) (env.nsig b.pubkey_algo) with h' | h' | h'
    · rw [Nat.compare_eq_lt.mpr h']
      show sig_comparison env a b = .lt
      simp only [sig_comparison]
      rw [if_neg (by omega), if_neg (by omega), if_pos (by omega), if_pos h']
    · rw [Nat.compare_eq_eq.mpr h']
      show sig_comparison env a b = lexCompare (sigVals env a) (sigVals env b)
      simp only [sig_comparison]
      rw [if_neg (by omega), if_neg (by omega), if_neg (by simp [h'])]
      rw [cmpMpisAux_eq_lex]
      simp only [sigVals, Nat.zero_add, h']
    · rw [Nat.compare_eq_gt.mpr h']
      show sig_comparison env a b = .gt
      simp only [sig_comparison]
      rw [if_neg (by omega), if_neg (by omega), if_pos (by omega), if_neg (by omega)]
  · rw [Nat.compare_eq_gt.mpr h]
    show sig_comparison env a b = .gt
    simp only [sig_comparison]
    rw [if_neg (by omega), if_pos h]

theorem sig_comparison_eq_iff (env : Env) (a b : Sig) :
    sig_comparison env a b = .eq ↔
      (a.digest_algo = b.digest_algo ∧
       env.nsig a.pubkey_algo = env.nsig b.pubkey_algo ∧
       ∀ i < env.nsig a.pubkey_algo, a.data.getD i 0 = b.data.getD i 0) := by
  rw [sig_comparison_eq_keyCmp, keyCmp_eq_iff]
  simp only [sigKey, Prod.mk.injEq]
  constructor
  · rintro ⟨h1, h2, h3⟩
    refine ⟨h1, h2, ?_⟩
    intro i hi
    have hmap := congrArg (fun l : List Nat => l[i]?) h3
    simp only [sigVals, List.getElem?_map, List.getElem?_range hi,
      List.getElem?_range (h2 ▸ hi), Option.map_some] at hmap
    exact Option.some_injective _ hmap
  · rintro ⟨h1, h2, h3⟩
    refine ⟨h1, h2, ?_⟩
    simp only [sigVals, h2]
    apply List.map_congr_left
    intro i hi
    exact h3 i (by rw [h2]; exact List.mem_range.mp hi)

theorem sig_comparison_swap (env : Env) (a b : Sig) :
    sig_comparison env b a = (sig_comparison env a b).swap := by
  rw [sig_comparison_eq_keyCmp, sig_comparison_eq_keyCmp]
  exact keyCmp_swap _ _

/-- Preorder used for sorting the `sigs` array (`qsort` with
`sig_comparison`): the comparator does not report "greater". -/
def sigLe (env : Env) (a b : Node) : Prop :=
  sig_comparison env (sigOf a) (sigOf b) ≠ .gt

instance sigLeDecidable (env : Env) : DecidableRel (sigLe env) := by
  intro a b
  unfold sigLe
  infer_instance

theorem sigLe_total (env : Env) : ∀ a b : Node, sigLe env a b ∨ sigLe env b a := by
  intro a b
  rcases h : sig_comparison env (sigOf a) (sigOf b) with h1 | h1 | h1
  · left; simp [sigLe, h]
  · left; simp [sigLe, h]
  · right
    unfold sigLe
    rw [sig_comparison_swap, h]
    decide

theorem sigLe_trans (env : Env) :
    ∀ a b c : Node, sigLe env a b → sigLe env b c → sigLe env a c := by
  intro a b c h1 h2
  unfold sigLe at h1 h2 ⊢
  rw [sig_comparison_eq_keyCmp] at h1 h2 ⊢
  rcases hab : keyCmp (sigKey env (sigOf a)) (sigKey env (sigOf b)) with h | h | h
  · rcases hbc : keyCmp (sigKey env (sigOf b)) (sigKey env (sigOf c)) with h' | h' | h'
    · simp [keyCmp_lt_trans hab hbc]
    · have := (keyCmp_eq_iff _ _).mp hbc
      rw [← this, hab]; simp
    · rw [hbc] at h2; simp at h2
  · have := (keyCmp_eq_iff _ _).mp hab
    rw [this]; exact h2
  · rw [hab] at h1; simp at h1


instance sigLeTotal (env : Env) : IsTotal Node (sigLe env) :=
  ⟨sigLe_total env⟩

instance sigLeTransInst (env : Env) : IsTrans Node (sigLe env) :=
  ⟨fun a b c => sigLe_trans env a b c⟩

/-- Kill scan over the sorted `sigs` array: whenever two adjacent entries
compare equal, the earlier one (`sigs[last_i]`) is recorded for removal and
scanning continues from the later occurrence (`last_i = i`).  Returns the ids
of the nodes removed from the keyblock. -/
def scanKill (env : Env) : Node → List Node → List Nat
  | _, [] => []
  | last, x :: xs =>
    if sig_comparison env (sigOf last) (sigOf x) = .eq then last.id :: scanKill env x xs
    else scanKill env x xs

/-- Entries of the sorted array surviving the kill scan. -/
def scanKeep (env : Env) : Node → List Node → List Node
  | last, [] => [last]
  | last, x :: xs =>
    if sig_comparison env (sigOf last) (sigOf x) = .eq then scanKeep env x xs
    else last :: scanKeep env x xs

/-- The `sigs` array after `qsort (sigs, nsigs, sizeof (sigs[0]), sig_comparison)`:
all non-deleted signature nodes of the keyblock, sorted by the comparator.
`qsort` leaves the relative order of comparator-equal entries unspecified; the
model fixes a stable insertion sort, one of the orders `qsort` may produce. -/
def sortedSigs (env : Env) (kb : List Node) : List Node :=
  List.insertionSort (sigLe env) (kb.filter liveSig)

/-- Ids of the duplicate signature nodes removed by the first pass. -/
def killIds (env : Env) (kb : List Node) : List Nat :=
  match sortedSigs env kb with
  | [] => []
  | s :: ss => scanKill env s ss

/-- Duplicate pass of `key_check_all_keysigs` (lines 113-207): collect the
non-deleted signature nodes, sort them, kill the earlier entry of every
comparator-equal adjacent pair by unlinking it from the keyblock.  The C code
unlinks each duplicate as soon as the scan finds it; since the scan reads only
the `sigs` array and never the keyblock links, performing all unlinks at the
end yields the same keyblock, which is what the batch `filter` does. -/
def dupPass (env : Env) (kb : List Node) : List Node × List Nat :=
  let killed := killIds env kb
  (kb.filter (fun n => !(killed.contains n.id)), killed)

theorem scanKill_subset (env : Env) :
    ∀ (s0 : Node) (rest : List Node) (i : Nat), i ∈ scanKill env s0 rest →
      i ∈ (s0 :: rest).map Node.id := by
  intro s0 rest
  induction rest generalizing s0 with
  | nil => intro i hi; simp [scanKill] at hi
  | cons x xs ih =>
    intro i hi
    simp only [scanKill] at hi
    split at hi
    · rcases List.mem_cons.mp hi with h | h
      · subst h; simp
      · have := ih x i h
        simp only [List.map_cons, List.mem_cons] at this ⊢
        tauto
    · have := ih x i hi
      simp only [List.map_cons, List.mem_cons] at this ⊢
      tauto

theorem scanKill_pair (env : Env) :
    ∀ (s0 : Node) (rest : List Node) (i : Nat),
      ((s0 :: rest).map Node.id).Nodup → i ∈ scanKill env s0 rest →
      ∃ a b, a ∈ s0 :: rest ∧ b ∈ s0 :: rest ∧ a.id = i ∧ a.id ≠ b.id ∧
        sig_comparison env (sigOf a) (sigOf b) = .eq := by
  intro s0 rest
  induction rest generalizing s0 with
  | nil => intro i _ hi; simp [scanKill] at hi
  | cons x xs ih =>
    intro i hnd hi
    simp only [scanKill] at hi
    split at hi
    · rcases List.mem_cons.mp hi with h | h
      · subst h
        refine ⟨s0, x, by simp, by simp, rfl, ?_, by assumption⟩
        simp only [List.map_cons, List.nodup_cons, List.mem_cons, List.mem_map] at hnd
        intro he
        exact hnd.1 (by left; exact he.symm ▸ rfl)
      · obtain ⟨a, b, ha, hb, hid, hne, hcmp⟩ := ih x i (by
          simp only [List.map_cons, List.nodup_cons] at hnd ⊢
          exact hnd.2) h
        exact ⟨a, b, List.mem_cons_of_mem _ ha, List.mem_cons_of_mem _ hb, hid, hne, hcmp⟩
    · obtain ⟨a, b, ha, hb, hid, hne, hcmp⟩ := ih x i (by
        simp only [List.map_cons, List.nodup_cons] at hnd ⊢
        exact hnd.2) hi
      exact ⟨a, b, List.mem_cons_of_mem _ ha, List.mem_cons_of_mem _ hb, hid, hne, hcmp⟩

theorem scanKeep_subset (env : Env) :
    ∀ (s0 : Node) (rest : List Node) (a : Node), a ∈ scanKeep env s0 rest →
      a ∈ s0 :: rest := by
  intro s0 rest
  induction rest generalizing s0 with
  | nil => intro a ha; simpa [scanKeep] using ha
  | cons x xs ih =>
    intro a ha
    simp only [scanKeep] at ha
    split at ha
    · have := ih x a ha
      simp only [List.mem_cons] at this ⊢
      tauto
    · rcases List.mem_cons.mp ha with h | h
      · subst h; simp
      · have := ih x a h
        simp only [List.mem_cons] at this ⊢
        tauto

theorem filter_scanKill_eq_scanKeep (env : Env) :
    ∀ (s0 : Node) (rest : List Node), ((s0 :: rest).map Node.id).Nodup →
      (s0 :: rest).filter (fun n => !((scanKill env s0 rest).contains n.id)) =
        scanKeep env s0 rest := by
  intro s0 rest
  induction rest generalizing s0 with
  | nil => intro _; simp [scanKill, scanKeep]
  | cons x xs ih =>
    intro hnd
    have hnd' : ((x :: xs).map Node.id).Nodup := by
      simp only [List.map_cons, List.nodup_cons] at hnd ⊢
      exact hnd.2
    have hs0 : s0.id ∉ (x :: xs).map Node.id := by
      simp only [List.map_cons, List.nodup_cons] at hnd
      exact hnd.1
    simp only [scanKill, scanKeep]
    split
    · -- s0 is killed
      rw [List.filter_cons_of_neg (by simp)]
      rw [← ih x hnd']
      apply List.filter_congr
      intro n hn
      have hne : n.id ≠ s0.id := by
        intro he
        exact hs0 (he ▸ List.mem_map_of_mem Node.id hn)
      simp [List.contains_cons, hne]
    · -- s0 survives
      have hs0notin : s0.id ∉ scanKill env x xs := by
        intro hmem
        exact hs0 (scanKill_subset env x xs s0.id hmem)
      rw [List.filter_cons_of_pos (by simp [hs0notin])]
      rw [← ih x hnd']

theorem scanKeep_pairwise (env : Env) :
    ∀ (s0 : Node) (rest : List Node), List.Sorted (sigLe env) (s0 :: rest) →
      (scanKeep env s0 rest).Pairwise
        (fun a b => sig_comparison env (sigOf a) (sigOf b) ≠ .eq) := by
  intro s0 rest
  induction rest generalizing s0 with
  | nil => intro _; simp [scanKeep]
  | cons x xs ih =>
    intro hsorted
    have hsorted' : List.Sorted (sigLe env) (x :: xs) := hsorted.of_cons
    simp only [scanKeep]
    split
    · exact ih x hsorted'
    · refine List.pairwise_cons.mpr ⟨?_, ih x hsorted'⟩
      intro b hb
      have hble : sigLe env s0 b := by
        have := List.rel_of_sorted_cons hsorted
        exact this b (scanKeep_subset env x xs b hb)
      have hxble : sigLe env x b ∨ x = b := by
        rcases List.mem_cons.mp (scanKeep_subset env x xs b hb) with h | h
        · right; exact h.symm
        · left; exact List.rel_of_sorted_cons hsorted' b h
      -- if s0 and b compared equal, then s0 and x would compare equal too
      intro heq
      have hkey : sigKey env (sigOf s0) = sigKey env (sigOf b) :=
        (keyCmp_eq_iff _ _).mp (by rw [← sig_comparison_eq_keyCmp]; exact heq)
      have hxb : sigLe env x b := by
        rcases hxble with h | h
        · exact h
        · subst h
          unfold sigLe
          rw [sig_comparison_eq_keyCmp, (keyCmp_eq_iff _ _).mpr rfl]
          decide
      have hxs0 : sigLe env x s0 := by
        unfold sigLe at hxb ⊢
        rw [sig_comparison_eq_keyCmp, hkey]
        rw [sig_comparison_eq_keyCmp] at hxb
        exact hxb
      have hs0x : sigLe env s0 x := List.rel_of_sorted_cons hsorted x (by simp)
      -- s0 ≤ x and x ≤ s0 force comparator equality, contradicting the branch
      have hfin : sig_comparison env (sigOf s0) (sigOf x) = .eq := by
        have h1 : sig_comparison env (sigOf s0) (sigOf x) ≠ .gt := hs0x
        have h2 : sig_comparison env (sigOf x) (sigOf s0) ≠ .gt := hxs0
        rw [sig_comparison_swap] at h2
        rcases hv : sig_comparison env (sigOf s0) (sigOf x) with hh | hh | hh
        · rw [hv] at h2; simp [Ordering.swap] at h2
        · rfl
        · exact absurd hv h1
      exact absurd hfin (by assumption)

theorem scanKill_nil_of_pairwise (env : Env) :
    ∀ (s0 : Node) (rest : List Node),
      (s0 :: rest).Pairwise (fun a b => sig_comparison env (sigOf a) (sigOf b) ≠ .eq) →
      scanKill env s0 rest = [] := by
  intro s0 rest
  induction rest generalizing s0 with
  | nil => intro _; rfl
  | cons x xs ih =>
    intro hpw
    have h1 : sig_comparison env (sigOf s0) (sigOf x) ≠ .eq :=
      (List.pairwise_cons.mp hpw).1 x (by simp)
    simp only [scanKill, if_neg h1]
    exact ih x (List.pairwise_cons.mp hpw).2


theorem killIds_eq_nil (env : Env) (kb : List Node)
    (hs : sortedSigs env kb = []) : killIds env kb = [] := by
  simp [killIds, hs]

theorem cmpNe_symmetric (env : Env) :
    Symmetric (fun a b : Node => sig_comparison env (sigOf a) (sigOf b) ≠ .eq) := by
  intro a b h hc
  apply h
  rw [sig_comparison_swap] at hc
  have h2 := congrArg Ordering.swap hc
  rw [Ordering.swap_swap] at h2
  exact h2

theorem sortedSigs_perm (env : Env) (kb : List Node) :
    (sortedSigs env kb).Perm (kb.filter liveSig) :=
  List.perm_insertionSort _ _

theorem sortedSigs_sorted (env : Env) (kb : List Node) :
    List.Sorted (sigLe env) (sortedSigs env kb) :=
  List.sorted_insertionSort _ _

theorem sortedSigs_nodup_ids (env : Env) (kb : List Node)
    (hnd : (kb.map Node.id).Nodup) : ((sortedSigs env kb).map Node.id).Nodup := by
  have hsub : (kb.filter liveSig).Sublist kb := List.filter_sublist kb
  have h1 : ((kb.filter liveSig).map Node.id).Nodup := hnd.sublist (hsub.map Node.id)
  exact (((sortedSigs_perm env kb).map Node.id).nodup_iff).mpr h1

theorem killIds_eq (env : Env) (kb : List Node) (s0 : Node) (ss : List Node)
    (hs : sortedSigs env kb = s0 :: ss) : killIds env kb = scanKill env s0 ss := by
  simp [killIds, hs]

theorem killIds_live (env : Env) (kb : List Node) (i : Nat) (hi : i ∈ killIds env kb) :
    ∃ n, n ∈ kb ∧ liveSig n = true ∧ n.id = i := by
  cases hs : sortedSigs env kb with
  | nil => rw [killIds_eq_nil env kb hs] at hi; cases hi
  | cons s0 ss =>
    rw [killIds_eq env kb s0 ss hs] at hi
    have := scanKill_subset env s0 ss i hi
    rw [← hs] at this
    obtain ⟨n, hn, hid⟩ := List.mem_map.mp this
    have hn2 : n ∈ kb.filter liveSig := (sortedSigs_perm env kb).mem_iff.mp hn
    have := List.mem_filter.mp hn2
    exact ⟨n, this.1, this.2, hid⟩

theorem killIds_pair (env : Env) (kb : List Node) (hnd : (kb.map Node.id).Nodup)
    (i : Nat) (hi : i ∈ killIds env kb) :
    ∃ a b, a ∈ kb ∧ b ∈ kb ∧ liveSig a = true ∧ liveSig b = true ∧ a.id = i ∧
      a.id ≠ b.id ∧ sig_comparison env (sigOf a) (sigOf b) = .eq := by
  cases hs : sortedSigs env kb with
  | nil => rw [killIds_eq_nil env kb hs] at hi; cases hi
  | cons s0 ss =>
    rw [killIds_eq env kb s0 ss hs] at hi
    have hnds : ((s0 :: ss).map Node.id).Nodup := by
      rw [← hs]; exact sortedSigs_nodup_ids env kb hnd
    obtain ⟨a, b, ha, hb, hid, hne, hcmp⟩ := scanKill_pair env s0 ss i hnds hi
    rw [← hs] at ha hb
    have ha2 := List.mem_filter.mp ((sortedSigs_perm env kb).mem_iff.mp ha)
    have hb2 := List.mem_filter.mp ((sortedSigs_perm env kb).mem_iff.mp hb)
    exact ⟨a, b, ha2.1, hb2.1, ha2.2, hb2.2, hid, hne, hcmp⟩

theorem dup_survivors_eq (env : Env) (kb : List Node) :
    (dupPass env kb).1.filter liveSig =
      (kb.filter liveSig).filter (fun n => !((killIds env kb).contains n.id)) := by
  simp only [dupPass]
  rw [List.filter_filter, List.filter_filter]
  apply List.filter_congr
  intro a _
  rw [Bool.and_comm]

theorem dup_survivors_pairwise (env : Env) (kb : List Node)
    (hnd : (kb.map Node.id).Nodup) :
    ((dupPass env kb).1.filter liveSig).Pairwise
      (fun a b => sig_comparison env (sigOf a) (sigOf b) ≠ .eq) := by
  rw [dup_survivors_eq]
  have hperm : ((kb.filter liveSig).filter (fun n => !((killIds env kb).contains n.id))).Perm
      ((sortedSigs env kb).filter (fun n => !((killIds env kb).contains n.id))) :=
    ((sortedSigs_perm env kb).symm).filter _
  rw [hperm.pairwise_iff (fun hxy => cmpNe_symmetric env hxy)]
  cases hs : sortedSigs env kb with
  | nil => simp
  | cons s0 ss =>
    have hnds : ((s0 :: ss).map Node.id).Nodup := by
      rw [← hs]; exact sortedSigs_nodup_ids env kb hnd
    rw [killIds_eq env kb s0 ss hs]
    rw [filter_scanKill_eq_scanKeep env s0 ss hnds]
    apply scanKeep_pairwise
    rw [← hs]
    exact sortedSigs_sorted env kb

theorem killIds_nil_of_pairwise (env : Env) (kb : List Node)
    (hpw : (kb.filter liveSig).Pairwise
      (fun a b => sig_comparison env (sigOf a) (sigOf b) ≠ .eq)) :
    killIds env kb = [] := by
  cases hs : sortedSigs env kb with
  | nil => exact killIds_eq_nil env kb hs
  | cons s0 ss =>
    rw [killIds_eq env kb s0 ss hs]
    apply scanKill_nil_of_pairwise
    rw [← hs]
    exact ((sortedSigs_perm env kb).pairwise_iff (fun hxy => cmpNe_symmetric env hxy)).mpr hpw

theorem nodes_eq_of_id (kb : List Node) (hnd : (kb.map Node.id).Nodup)
    {a b : Node} (ha : a ∈ kb) (hb : b ∈ kb) (hid : a.id = b.id) : a = b :=
  List.inj_on_of_nodup_map hnd ha hb hid

theorem not_killed_of_not_liveSig (env : Env) (kb : List Node)
    (hnd : (kb.map Node.id).Nodup) {n : Node} (hn : n ∈ kb)
    (h : liveSig n = false) : n.id ∉ killIds env kb := by
  intro hmem
  obtain ⟨m, hm, hlive, hid⟩ := killIds_live env kb n.id hmem
  have : m = n := nodes_eq_of_id kb hnd hm hn hid
  rw [this] at hlive
  rw [hlive] at h
  cases h

theorem killed_one_of_pair (env : Env) (kb : List Node) (hnd : (kb.map Node.id).Nodup)
    {a b : Node} (ha : a ∈ kb) (hb : b ∈ kb) (hla : liveSig a = true)
    (hlb : liveSig b = true) (hne : a.id ≠ b.id)
    (hcmp : sig_comparison env (sigOf a) (sigOf b) = .eq) :
    a.id ∈ killIds env kb ∨ b.id ∈ killIds env kb := by
  by_contra hcon
  push_neg at hcon
  have hasur : a ∈ (dupPass env kb).1.filter liveSig := by
    simp only [dupPass, List.mem_filter]
    exact ⟨⟨ha, by simp [hcon.1]⟩, hla⟩
  have hbsur : b ∈ (dupPass env kb).1.filter liveSig := by
    simp only [dupPass, List.mem_filter]
    exact ⟨⟨hb, by simp [hcon.2]⟩, hlb⟩
  have hpw := dup_survivors_pairwise env kb hnd
  have hane : a ≠ b := fun he => hne (he ▸ rfl)
  exact (hpw.forall (cmpNe_symmetric env) hasur hbsur hane) hcmp

theorem scanKeep_ne_nil (env : Env) :
    ∀ (s0 : Node) (rest : List Node), scanKeep env s0 rest ≠ [] := by
  intro s0 rest
  induction rest generalizing s0 with
  | nil => simp [scanKeep]
  | cons x xs ih =>
    simp only [scanKeep]
    split
    · exact ih x
    · simp

theorem dup_survivors_ne_nil (env : Env) (kb : List Node)
    (hnd : (kb.map Node.id).Nodup) (h : kb.filter liveSig ≠ []) :
    (dupPass env kb).1.filter liveSig ≠ [] := by
  rw [dup_survivors_eq]
  intro hc
  cases hs : sortedSigs env kb with
  | nil =>
    have hp := sortedSigs_perm env kb
    rw [hs] at hp
    exact h (List.Perm.eq_nil hp.symm)
  | cons s0 ss =>
    have hperm : ((kb.filter liveSig).filter
        (fun n => !((killIds env kb).contains n.id))).Perm
        ((sortedSigs env kb).filter (fun n => !((killIds env kb).contains n.id))) :=
      ((sortedSigs_perm env kb).symm).filter _
    rw [hc] at hperm
    have hnil := (List.Perm.eq_nil hperm.symm)
    rw [hs, killIds_eq env kb s0 ss hs] at hnil
    rw [filter_scanKill_eq_scanKeep env s0 ss (by
      rw [← hs]; exact sortedSigs_nodup_ids env kb hnd)] at hnil
    exact scanKeep_ne_nil env s0 ss hnil


/-- Remove the first node with the given id (C unlink `*prevp = node->next`). -/
def eraseId : List Node → Nat → List Node
  | [], _ => []
  | x :: xs, i => if x.id = i then xs else x :: eraseId xs i

/-- Insert node `t` immediately after the node with id `i` (C splice
`t->next = n2->next; n2->next = t`).  The fallback for an absent id keeps the
node multiset intact; it is unreachable because splice targets come from the
keyblock. -/
def insertAfterId : List Node → Nat → Node → List Node
  | [], _, t => [t]
  | x :: xs, i, t => if x.id = i then x :: t :: xs else x :: insertAfterId xs i t

/-- Node of the keyblock with the given id. -/
def findId (kb : List Node) (i : Nat) : Option Node :=
  kb.find? (fun n => n.id == i)

/-- Id of the successor of the node with id `i` (the `n_next = n->next`
captured at the start of a traversal step). -/
def succId : List Node → Nat → Option Nat
  | [], _ => none
  | x :: xs, i =>
    if x.id = i then
      match xs with
      | [] => none
      | y :: _ => some y.id
    else succId xs i

/-- State threaded through the placement pass: the keyblock, the
`current_component` pointer, and the event lists whose lengths are the C
counters `missing_issuer`, `bad_signature` and `reordered`, plus the
`modified` flag. -/
structure PState where
  kb : List Node
  cur : Option Node
  missingIssuerIds : List Nat
  badIds : List Nat
  reorderedIds : List Nat
  modified : Bool
deriving DecidableEq

/-- Outcome of processing one node: a new state or a `log_assert` failure. -/
inductive StepRes where
  | ok (st : PState)
  | abort
deriving DecidableEq

/-- Search for the component a signature verifies against (lines 347-367 of
`key-check.c`): try `current_component` first, then scan the whole keyblock in
order, skipping deleted nodes and `current_component` itself, stopping at the
first node (of any packet type) the external primitive accepts. -/
def findTarget (env : Env) (issuer : PublicKey) (s : Sig) (kb : List Node)
    (cur : Node) : Option Node :=
  if env.verify issuer s cur.pkt then some cur
  else kb.find? (fun m => !m.deleted && m.id != cur.id && env.verify issuer s m.pkt)

/-- Continuation of the `PKT_SIGNATURE` case once the issuer is resolved
(lines 328-531): test both algorithms, search for the target, and classify the
signature as correctly placed, misplaced (splice it right after the target,
asserting the target is a component) or bad. -/
def processSigWith (env : Env) (st : PState) (n : Node) (s : Sig)
    (issuer : PublicKey) (c : Node) : StepRes :=
  if env.pk_algo_ok s.pubkey_algo = false then .ok st
  else if env.md_algo_ok s.digest_algo = false then .ok st
  else
    match findTarget env issuer s st.kb c with
    | some n2 =>
      if n2.id = c.id then .ok st
      else if compPacket n2.pkt then
        .ok { st with
              kb := insertAfterId (eraseId st.kb n.id) n2.id n,
              reorderedIds := st.reorderedIds ++ [n.id],
              modified := true }
      else .abort
    | none => .ok { st with badIds := st.badIds ++ [n.id] }

/-- The `PKT_SIGNATURE` case (lines 285-531): skip when no current component;
resolve the issuer (the primary key itself, or — unless self-signatures-only
is requested — a key fetched through `get_pubkey`, counting a missing
issuer). -/
def processSig (env : Env) (pol : Pol) (pk : PublicKey) (st : PState)
    (n : Node) (s : Sig) : StepRes :=
  match st.cur with
  | none => .ok st
  | some c =>
    if pk.keyid = s.keyid then processSigWith env st n s pk c
    else if pol.only_selfsigs then .ok st
    else
      match env.get_pubkey s.keyid with
      | none => .ok { st with missingIssuerIds := st.missingIssuerIds ++ [n.id] }
      | some issuer => processSigWith env st n s issuer c

/-- Process one non-deleted node (the `switch (p->pkttype)`, lines 240-536).
`hid` is the id of the keyblock head; the `PKT_PUBLIC_KEY` case asserts
`p->pkt.public_key == pk`, i.e. that the node is the head node. -/
def processNode (env : Env) (pol : Pol) (pk : PublicKey) (hid : Nat)
    (st : PState) (n : Node) : StepRes :=
  match n.pkt with
  | .publicKey _ =>
    if n.id ≠ hid then .abort
    else .ok { st with cur := if pol.only_selected && !n.selkey then none else some n }
  | .publicSubkey _ =>
    .ok { st with cur := if pol.only_selected && !n.selkey then none else some n }
  | .userId _ =>
    .ok { st with cur := if pol.only_selected && !n.seluid then none else some n }
  | .signature s => processSig env pol pk st n s
  | .other _ => .ok st

/-- Result of the placement loop. -/
inductive LoopRes where
  | ok (st : PState)
  | abort
  | fuelOut
deriving DecidableEq

/-- Placement traversal (lines 209-537): visit the node under the cursor,
record its successor id first (`n_next = n->next`), skip it if deleted,
otherwise process it, and continue at the recorded successor id.  `fuel`
bounds the number of visits; `2 * kb.length + 1` visits always suffice (see
the termination theorem below). -/
def placeLoop (env : Env) (pol : Pol) (pk : PublicKey) (hid : Nat) :
    Nat → PState → Option Nat → LoopRes
  | 0, _, _ => .fuelOut
  | _ + 1, st, none => .ok st
  | fuel + 1, st, some cid =>
    match findId st.kb cid with
    | none => .abort
    | some n =>
      let nxt := succId st.kb cid
      if n.deleted then placeLoop env pol pk hid fuel st nxt
      else
        match processNode env pol pk hid st n with
        | .abort => .abort
        | .ok st2 => placeLoop env pol pk hid fuel st2 nxt

/-- Signature class appropriate for a self-signature over the given component
(lines 449-469 and 584-604): direct-key or key-revocation class for the
primary key, binding or revocation class for a subkey, certification or
certification-revocation class for a user id. -/
def selfsigClassOk (p : Packet) (s : Sig) : Bool :=
  match p with
  | .publicKey _ => s.cls == 0x1f || s.cls == 0x20
  | .publicSubkey _ => s.cls == 0x18 || s.cls == 0x28
  | .userId _ =>
    s.cls == 0x10 || s.cls == 0x11 || s.cls == 0x12 || s.cls == 0x13 || s.cls == 0x30
  | _ => false

/-- Self-signature audit (lines 546-614): walk the final keyblock with a
`current_component` / `has_selfsig` pair; a component node or an unhandled
node reached while the current component still lacks a self-signature
increments the counter.  The loop never flushes the pending component when
the list ends. -/
def auditLoop (pk : PublicKey) : List Node → Option Node → Bool → Nat → Nat
  | [], _, _, acc => acc
  | n :: rest, cur, has, acc =>
    if n.deleted then auditLoop pk rest cur has acc
    else
      match n.pkt with
      | .publicKey _ =>
        auditLoop pk rest (some n) false (acc + (if cur.isSome && !has then 1 else 0))
      | .publicSubkey _ =>
        auditLoop pk rest (some n) false (acc + (if cur.isSome && !has then 1 else 0))
      | .userId _ =>
        auditLoop pk rest (some n) false (acc + (if cur.isSome && !has then 1 else 0))
      | .signature s =>
        match cur with
        | none => auditLoop pk rest cur has acc
        | some c =>
          if has then auditLoop pk rest cur has acc
          else if !(s.checked && s.valid) then auditLoop pk rest cur has acc
          else if pk.keyid ≠ s.keyid then auditLoop pk rest cur has acc
          else auditLoop pk rest cur (selfsigClassOk c.pkt s) acc
      | .other _ =>
        auditLoop pk rest none has (acc + (if cur.isSome && !has then 1 else 0))

/-- Result of a completed check: the return value (`1` iff the keyblock was
modified), the final keyblock and the event lists whose lengths are the
printed counters. -/
structure Result where
  ret : Nat
  kb : List Node
  killed : List Nat
  missingIssuerIds : List Nat
  badIds : List Nat
  reorderedIds : List Nat
  missing_selfsig : Nat
  modified : Bool
deriving DecidableEq

/-- The `dups` counter. -/
def Result.dups (r : Result) : Nat := r.killed.length

/-- The `missing_issuer` counter. -/
def Result.missing_issuer (r : Result) : Nat := r.missingIssuerIds.length

/-- The `bad_signature` counter. -/
def Result.bad_signature (r : Result) : Nat := r.badIds.length

/-- The `reordered` counter. -/
def Result.reordered (r : Result) : Nat := r.reorderedIds.length

/-- Outcome of `key_check_all_keysigs`: a completed check, a `log_assert`
abort, or (never, as proved below) exhaustion of the traversal fuel. -/
inductive Outcome where
  | ok (r : Result)
  | abort
  | fuelOut
deriving DecidableEq

/-- `key_check_all_keysigs` (lines 92-639).  The entry assertion requires the
head of the keyblock to be the primary key.  With no signature at all the
function returns 0 immediately; with a failed allocation of the `sigs` array
it logs an error and returns 0 without touching the keyblock.  Otherwise it
runs the duplicate pass, the placement pass and the self-signature audit, and
returns `modified`. -/
def keyCheckAllKeysigs (env : Env) (pol : Pol) (kb : List Node) : Outcome :=
  match kb with
  | [] => .abort
  | hk :: _ =>
    match hk.pkt with
    | .publicKey pk =>
      if (kb.filter liveSig).length = 0 then
        .ok ⟨0, kb, [], [], [], [], 0, false⟩
      else if env.alloc_ok = false then
        .ok ⟨0, kb, [], [], [], [], 0, false⟩
      else
        let dp := dupPass env kb
        let st0 : PState := ⟨dp.1, none, [], [], [], !dp.2.isEmpty⟩
        match placeLoop env pol pk hk.id (2 * dp.1.length + 1) st0 (some hk.id) with
        | .fuelOut => .fuelOut
        | .abort => .abort
        | .ok st =>
          .ok ⟨(if st.modified then 1 else 0), st.kb, dp.2, st.missingIssuerIds,
               st.badIds, st.reorderedIds, auditLoop pk st.kb none false 0, st.modified⟩
    | _ => .abort


theorem exists_split (kb : List Node) (i : Nat) (h : i ∈ kb.map Node.id) :
    ∃ P n Q, kb = P ++ n :: Q ∧ n.id = i ∧ ∀ m ∈ P, m.id ≠ i := by
  induction kb with
  | nil => cases h
  | cons x xs ih =>
    by_cases hx : x.id = i
    · exact ⟨[], x, xs, rfl, hx, by simp⟩
    · have hmem : i ∈ xs.map Node.id := by
        rcases List.mem_map.mp h with ⟨m, hm, hmi⟩
        rcases List.mem_cons.mp hm with h1 | h1
        · subst h1; exact absurd hmi hx
        · exact hmi ▸ List.mem_map_of_mem Node.id h1
      obtain ⟨P, n, Q, heq, hn, hP⟩ := ih hmem
      exact ⟨x :: P, n, Q, by rw [heq]; rfl, hn, by
        intro m hm
        rcases List.mem_cons.mp hm with h1 | h1
        · subst h1; exact hx
        · exact hP m h1⟩

theorem takeWhile_split (P Q : List Node) (n : Node) (i : Nat)
    (hn : n.id = i) (hP : ∀ m ∈ P, m.id ≠ i) :
    (P ++ n :: Q).takeWhile (fun m => m.id != i) = P := by
  induction P with
  | nil => simp [List.takeWhile, hn]
  | cons x xs ih =>
    have hx : (x.id != i) = true := by
      simp [bne_iff_ne]
      exact hP x (by simp)
    simp only [List.cons_append, List.takeWhile, hx, List.append_eq]
    rw [ih (fun m hm => hP m (List.mem_cons_of_mem x hm))]

theorem dropWhile_split (P Q : List Node) (n : Node) (i : Nat)
    (hn : n.id = i) (hP : ∀ m ∈ P, m.id ≠ i) :
    (P ++ n :: Q).dropWhile (fun m => m.id != i) = n :: Q := by
  induction P with
  | nil => simp [List.dropWhile, hn]
  | cons x xs ih =>
    have hx : (x.id != i) = true := by
      simp [bne_iff_ne]
      exact hP x (by simp)
    simp only [List.cons_append, List.dropWhile, hx, List.append_eq]
    exact ih (fun m hm => hP m (List.mem_cons_of_mem x hm))

theorem findId_split (P Q : List Node) (n : Node) (i : Nat)
    (hn : n.id = i) (hP : ∀ m ∈ P, m.id ≠ i) :
    findId (P ++ n :: Q) i = some n := by
  induction P with
  | nil => simp [findId, List.find?, hn]
  | cons x xs ih =>
    have hx : (x.id == i) = false := by
      simp
      exact hP x (by simp)
    simp only [findId, List.cons_append, List.find?, hx, List.append_eq]
    exact ih (fun m hm => hP m (List.mem_cons_of_mem x hm))

theorem succId_split (P Q : List Node) (n : Node) (i : Nat)
    (hn : n.id = i) (hP : ∀ m ∈ P, m.id ≠ i) :
    succId (P ++ n :: Q) i = Q.head?.map Node.id := by
  induction P with
  | nil =>
    simp only [List.nil_append, succId, if_pos hn]
    cases Q <;> rfl
  | cons x xs ih =>
    simp only [List.cons_append, succId, if_neg (hP x (by simp)), List.append_eq]
    exact ih (fun m hm => hP m (List.mem_cons_of_mem x hm))

theorem eraseId_split (P Q : List Node) (n : Node) (i : Nat)
    (hn : n.id = i) (hP : ∀ m ∈ P, m.id ≠ i) :
    eraseId (P ++ n :: Q) i = P ++ Q := by
  induction P with
  | nil => simp [eraseId, hn]
  | cons x xs ih =>
    simp only [List.cons_append, eraseId, if_neg (hP x (by simp)), List.append_eq]
    rw [ih (fun m hm => hP m (List.mem_cons_of_mem x hm))]

theorem insertAfterId_split (P Q : List Node) (n : Node) (j : Nat) (t : Node)
    (hn : n.id = j) (hP : ∀ m ∈ P, m.id ≠ j) :
    insertAfterId (P ++ n :: Q) j t = P ++ n :: t :: Q := by
  induction P with
  | nil => simp [insertAfterId, hn]
  | cons x xs ih =>
    simp only [List.cons_append, insertAfterId, if_neg (hP x (by simp)), List.append_eq]
    rw [ih (fun m hm => hP m (List.mem_cons_of_mem x hm))]

theorem insertAfterId_not_mem (l : List Node) (j : Nat) (t : Node)
    (h : ∀ m ∈ l, m.id ≠ j) : insertAfterId l j t = l ++ [t] := by
  induction l with
  | nil => rfl
  | cons x xs ih =>
    simp only [insertAfterId, if_neg (h x (by simp))]
    rw [ih (fun m hm => h m (List.mem_cons_of_mem x hm))]
    rfl

theorem insertAfterId_perm (l : List Node) (j : Nat) (t : Node) :
    (insertAfterId l j t).Perm (t :: l) := by
  induction l with
  | nil => simp [insertAfterId]
  | cons x xs ih =>
    simp only [insertAfterId]
    split
    · exact List.Perm.swap t x xs
    · exact (ih.cons x).trans (List.Perm.swap t x xs)

theorem mem_insertAfterId (l : List Node) (j : Nat) (t : Node) (a : Node) :
    a ∈ insertAfterId l j t ↔ a = t ∨ a ∈ l := by
  rw [(insertAfterId_perm l j t).mem_iff]
  simp

theorem findId_some (kb : List Node) (i : Nat) (n : Node)
    (h : findId kb i = some n) : n ∈ kb ∧ n.id = i := by
  refine ⟨List.mem_of_find?_eq_some h, ?_⟩
  have := List.find?_some h
  simpa using this

theorem findId_of_mem_ids (kb : List Node) (i : Nat) (h : i ∈ kb.map Node.id) :
    ∃ n, findId kb i = some n ∧ n ∈ kb ∧ n.id = i := by
  obtain ⟨P, n, Q, heq, hn, hP⟩ := exists_split kb i h
  subst heq
  exact ⟨n, findId_split P Q n i hn hP, by simp, hn⟩

theorem splice_node_eq (kb : List Node) (hnd : (kb.map Node.id).Nodup)
    {t n : Node} (ht : t ∈ kb) (hn : n ∈ kb) (h : n.id = t.id) : n = t :=
  nodes_eq_of_id kb hnd hn ht h

theorem splice_perm (kb : List Node) (hnd : (kb.map Node.id).Nodup)
    {t : Node} (ht : t ∈ kb) (j : Nat) :
    (insertAfterId (eraseId kb t.id) j t).Perm kb := by
  obtain ⟨P, n, Q, heq, hn, hP⟩ := exists_split kb t.id (List.mem_map_of_mem Node.id ht)
  have hnt : n = t := splice_node_eq kb hnd ht (by rw [heq]; simp) hn
  rw [← hnt]
  rw [heq, eraseId_split P Q n n.id rfl (by rw [hn]; exact hP)]
  exact (insertAfterId_perm (P ++ Q) j n).trans
    (List.perm_middle.symm)

theorem splice_nodup (kb : List Node) (hnd : (kb.map Node.id).Nodup)
    {t : Node} (ht : t ∈ kb) (j : Nat) :
    ((insertAfterId (eraseId kb t.id) j t).map Node.id).Nodup :=
  (((splice_perm kb hnd ht j).map Node.id).nodup_iff).mpr hnd

theorem mem_splice_iff (kb : List Node) (hnd : (kb.map Node.id).Nodup)
    {t : Node} (ht : t ∈ kb) (j : Nat) (a : Node) :
    a ∈ insertAfterId (eraseId kb t.id) j t ↔ a ∈ kb :=
  (splice_perm kb hnd ht j).mem_iff


/-- Nodes that reset `current_component` during a traversal: non-deleted
component nodes. -/
def relevantB (m : Node) : Bool :=
  !m.deleted && compPacket m.pkt

/-- Value `current_component` takes right after visiting the non-deleted
component node `m` (the selection filter of lines 244-283). -/
def selRes (pol : Pol) (m : Node) : Option Node :=
  match m.pkt with
  | .publicKey _ => if pol.only_selected && !m.selkey then none else some m
  | .publicSubkey _ => if pol.only_selected && !m.selkey then none else some m
  | .userId _ => if pol.only_selected && !m.seluid then none else some m
  | _ => none

/-- Effect of one visited node on the `current_component` tracking. -/
def curStep (pol : Pol) (acc : Option Node) (m : Node) : Option Node :=
  if relevantB m then selRes pol m else acc

/-- `current_component` the traversal holds when it reaches the node with id
`i`: fold of `curStep` over the nodes before that node. -/
def curOf (pol : Pol) (kb : List Node) (i : Nat) : Option Node :=
  (kb.takeWhile (fun m => m.id != i)).foldl (curStep pol) none

/-- Non-deleted component nodes before the node with id `i`; they determine
`curOf`. -/
def prefixComps (kb : List Node) (i : Nat) : List Node :=
  (kb.takeWhile (fun m => m.id != i)).filter relevantB

/-- Suffix of the keyblock from the cursor on (the nodes the traversal has
still to visit). -/
def sufFrom (kb : List Node) : Option Nat → List Node
  | none => []
  | some i => kb.dropWhile (fun m => m.id != i)

theorem selRes_some (pol : Pol) (m c : Node) (h : selRes pol m = some c) : c = m := by
  unfold selRes at h
  cases hm : m.pkt with
  | publicKey pk =>
    rw [hm] at h
    simp only [] at h
    split at h
    · cases h
    · exact (Option.some_injective _ h).symm
  | publicSubkey pk =>
    rw [hm] at h
    simp only [] at h
    split at h
    · cases h
    · exact (Option.some_injective _ h).symm
  | userId name =>
    rw [hm] at h
    simp only [] at h
    split at h
    · cases h
    · exact (Option.some_injective _ h).symm
  | signature s =>
    rw [hm] at h
    exact Option.noConfusion h
  | other tag =>
    rw [hm] at h
    exact Option.noConfusion h

theorem foldl_curStep_filter (pol : Pol) :
    ∀ (l : List Node) (acc : Option Node),
      l.foldl (curStep pol) acc = (l.filter relevantB).foldl (curStep pol) acc := by
  intro l
  induction l with
  | nil => intro acc; rfl
  | cons x xs ih =>
    intro acc
    by_cases hx : relevantB x = true
    · rw [List.filter_cons_of_pos hx]
      simp only [List.foldl_cons]
      exact ih _
    · rw [List.filter_cons_of_neg (by simpa using hx)]
      simp only [List.foldl_cons, curStep, if_neg hx]
      exact ih acc

theorem foldl_curStep_mem (pol : Pol) :
    ∀ (l : List Node) (acc : Option Node) (c : Node),
      l.foldl (curStep pol) acc = some c →
      acc = some c ∨ (c ∈ l ∧ relevantB c = true) := by
  intro l
  induction l with
  | nil => intro acc c h; exact Or.inl h
  | cons x xs ih =>
    intro acc c h
    simp only [List.foldl_cons] at h
    rcases ih _ c h with h1 | h1
    · unfold curStep at h1
      split at h1
      · have := selRes_some pol x c h1
        subst this
        exact Or.inr ⟨by simp, by assumption⟩
      · exact Or.inl h1
    · exact Or.inr ⟨List.mem_cons_of_mem x h1.1, h1.2⟩

theorem curOf_mem (pol : Pol) (kb : List Node) (i : Nat) (c : Node)
    (h : curOf pol kb i = some c) :
    c ∈ kb ∧ c.deleted = false ∧ compPacket c.pkt = true := by
  rcases foldl_curStep_mem pol _ none c h with h1 | h1
  · cases h1
  · have hmem : c ∈ kb := (List.takeWhile_sublist _).subset h1.1
    have := h1.2
    unfold relevantB at this
    simp only [Bool.and_eq_true, Bool.not_eq_true'] at this
    exact ⟨hmem, this.1, this.2⟩

theorem curOf_eq_of_prefixComps (pol : Pol) (kb1 kb2 : List Node) (i1 i2 : Nat)
    (h : prefixComps kb1 i1 = prefixComps kb2 i2) :
    curOf pol kb1 i1 = curOf pol kb2 i2 := by
  unfold curOf
  rw [foldl_curStep_filter pol (kb1.takeWhile (fun m => m.id != i1)) none]
  unfold prefixComps at h
  rw [h, ← foldl_curStep_filter]

theorem prefixComps_of_split (kb A Q : List Node) (S : Node) (i : Nat)
    (heq : kb = A ++ S :: Q) (hS : S.id = i) (hA : ∀ m ∈ A, m.id ≠ i) :
    prefixComps kb i = A.filter relevantB := by
  unfold prefixComps
  rw [heq, takeWhile_split A Q S i hS hA]

theorem insertAfterId_append_left (A l : List Node) (j : Nat) (t : Node)
    (h : ∀ m ∈ A, m.id ≠ j) :
    insertAfterId (A ++ l) j t = A ++ insertAfterId l j t := by
  induction A with
  | nil => rfl
  | cons x xs ih =>
    simp only [List.cons_append, insertAfterId, if_neg (h x (by simp)), List.append_eq]
    rw [ih (fun m hm => h m (List.mem_cons_of_mem x hm))]

theorem nodup_middle_notin (kb X Y : List Node) (t : Node)
    (hnd : (kb.map Node.id).Nodup) (heq : kb = X ++ t :: Y) :
    t.id ∉ X.map Node.id ∧ t.id ∉ Y.map Node.id := by
  subst heq
  rw [List.map_append, List.map_cons] at hnd
  rw [List.nodup_middle] at hnd
  have := (List.nodup_cons.mp hnd).1
  constructor
  · intro hc; exact this (List.mem_append.mpr (Or.inl hc))
  · intro hc; exact this (List.mem_append.mpr (Or.inr hc))


theorem filter_middle_irrelevant (A B : List Node) (t : Node)
    (h : relevantB t = false) :
    (A ++ t :: B).filter relevantB = (A ++ B).filter relevantB := by
  rw [List.filter_append, List.filter_append, List.filter_cons_of_neg (by simp [h])]

/-- Splicing an irrelevant (signature) node somewhere else does not change the
component prefix of any other node: the fold deciding `current_component` at
that node is unchanged. -/
theorem prefixComps_splice (kb : List Node) (hnd : (kb.map Node.id).Nodup)
    {t : Node} (ht : t ∈ kb) (hrel : relevantB t = false)
    {i : Nat} (hi : i ∈ kb.map Node.id) (hti : t.id ≠ i) (j : Nat) :
    prefixComps (insertAfterId (eraseId kb t.id) j t) i = prefixComps kb i := by
  obtain ⟨P, S, Q, heq, hSi, hP⟩ := exists_split kb i hi
  have hRHS : prefixComps kb i = P.filter relevantB :=
    prefixComps_of_split kb P Q S i heq hSi hP
  have hconc : ∀ (X rest : List Node),
      insertAfterId (eraseId kb t.id) j t = X ++ S :: rest →
      (∀ m ∈ X, m.id ≠ i) → X.filter relevantB = P.filter relevantB →
      prefixComps (insertAfterId (eraseId kb t.id) j t) i = prefixComps kb i := by
    intro X rest h1 h2 h3
    rw [prefixComps_of_split _ X rest S i h1 hSi h2, h3, ← hRHS]
  have htPQ : t ∈ P ∨ t ∈ Q := by
    rw [heq] at ht
    rcases List.mem_append.mp ht with h1 | h1
    · exact Or.inl h1
    · rcases List.mem_cons.mp h1 with h2 | h2
      · exact absurd (h2 ▸ hti) (by rw [hSi]; simp)
      · exact Or.inr h2
  rcases htPQ with htP | htQ
  · -- the spliced node sat before the node with id i
    obtain ⟨P1, t1, P2, heqP, ht1, hP1⟩ :=
      exists_split P t.id (List.mem_map_of_mem Node.id htP)
    have ht1t : t1 = t := nodes_eq_of_id kb hnd
      (by rw [heq, heqP]; simp) ht ht1
    subst ht1t
    have heq2 : kb = P1 ++ t1 :: (P2 ++ S :: Q) := by
      rw [heq, heqP]; simp
    have herase : eraseId kb t1.id = (P1 ++ P2) ++ S :: Q := by
      rw [heq2, eraseId_split P1 (P2 ++ S :: Q) t1 t1.id rfl (by
        intro m hm; exact ht1 ▸ hP1 m hm)]
      simp
    by_cases hj : j ∈ (P1 ++ P2).map Node.id
    · obtain ⟨A1, nj, A2, heqA, hnj, hA1⟩ := exists_split (P1 ++ P2) j hj
      have hins : insertAfterId (eraseId kb t1.id) j t1 =
          (A1 ++ nj :: t1 :: A2) ++ S :: Q := by
        rw [herase, heqA]
        rw [List.append_assoc A1 (nj :: A2) (S :: Q), List.cons_append]
        rw [insertAfterId_split A1 (A2 ++ S :: Q) nj j t1 hnj hA1]
        simp
      have hsubP : ∀ m ∈ A1 ++ nj :: A2, m ∈ P := by
        intro m hm
        have : m ∈ P1 ++ P2 := by rw [heqA]; exact hm
        rw [heqP]
        rcases List.mem_append.mp this with h1 | h1
        · exact List.mem_append.mpr (Or.inl h1)
        · exact List.mem_append.mpr (Or.inr (List.mem_cons_of_mem t1 h1))
      apply hconc _ _ hins
      · intro m hm
        rcases List.mem_append.mp hm with h1 | h1
        · exact hP m (hsubP m (List.mem_append.mpr (Or.inl h1)))
        · rcases List.mem_cons.mp h1 with h2 | h2
          · exact h2 ▸ hP nj (hsubP nj (by simp))
          · rcases List.mem_cons.mp h2 with h3 | h3
            · exact h3 ▸ hti
            · exact hP m (hsubP m (by simp [h3]))
      · have e1 : (A1 ++ nj :: t1 :: A2).filter relevantB =
            (A1 ++ nj :: A2).filter relevantB := by
          have := filter_middle_irrelevant (A1 ++ [nj]) A2 t1 hrel
          simpa using this
        rw [e1, ← heqA]
        have e2 : P.filter relevantB = (P1 ++ P2).filter relevantB := by
          rw [heqP]
          exact filter_middle_irrelevant P1 P2 t1 hrel
        rw [e2]
    · have hnomem : ∀ m ∈ P1 ++ P2, m.id ≠ j := by
        intro m hm hc
        exact hj (hc ▸ List.mem_map_of_mem Node.id hm)
      obtain ⟨R, hR⟩ : ∃ R, insertAfterId (S :: Q) j t1 = S :: R := by
        unfold insertAfterId
        split
        · exact ⟨t1 :: Q, rfl⟩
        · exact ⟨insertAfterId Q j t1, rfl⟩
      have hins : insertAfterId (eraseId kb t1.id) j t1 = (P1 ++ P2) ++ S :: R := by
        rw [herase, insertAfterId_append_left _ _ j t1 hnomem, hR]
      apply hconc _ _ hins
      · intro m hm
        apply hP
        rw [heqP]
        rcases List.mem_append.mp hm with h1 | h1
        · exact List.mem_append.mpr (Or.inl h1)
        · exact List.mem_append.mpr (Or.inr (List.mem_cons_of_mem t1 h1))
      · rw [heqP]
        exact (filter_middle_irrelevant P1 P2 t1 hrel).symm
  · -- the spliced node sat after the node with id i
    obtain ⟨Q1, t1, Q2, heqQ, ht1, hQ1⟩ :=
      exists_split Q t.id (List.mem_map_of_mem Node.id htQ)
    have ht1t : t1 = t := nodes_eq_of_id kb hnd
      (by rw [heq, heqQ]; simp) ht ht1
    subst ht1t
    have heq2 : kb = (P ++ S :: Q1) ++ t1 :: Q2 := by
      rw [heq, heqQ]; simp
    have hnotin := nodup_middle_notin kb (P ++ S :: Q1) Q2 t1 hnd heq2
    have herase : eraseId kb t1.id = P ++ S :: (Q1 ++ Q2) := by
      rw [heq2, eraseId_split (P ++ S :: Q1) Q2 t1 t1.id rfl (by
        intro m hm hc
        exact hnotin.1 (hc ▸ List.mem_map_of_mem Node.id hm))]
      simp
    by_cases hj : j ∈ P.map Node.id
    · obtain ⟨A1, nj, A2, heqA, hnj, hA1⟩ := exists_split P j hj
      have hins : insertAfterId (eraseId kb t1.id) j t1 =
          (A1 ++ nj :: t1 :: A2) ++ S :: (Q1 ++ Q2) := by
        rw [herase, heqA]
        rw [List.append_assoc A1 (nj :: A2) (S :: (Q1 ++ Q2)), List.cons_append]
        rw [insertAfterId_split A1 (A2 ++ S :: (Q1 ++ Q2)) nj j t1 hnj hA1]
        simp
      have hsubP : ∀ m ∈ A1 ++ nj :: A2, m ∈ P := by
        intro m hm
        rw [heqA]
        exact hm
      apply hconc _ _ hins
      · intro m hm
        rcases List.mem_append.mp hm with h1 | h1
        · exact hP m (hsubP m (List.mem_append.mpr (Or.inl h1)))
        · rcases List.mem_cons.mp h1 with h2 | h2
          · exact h2 ▸ hP nj (hsubP nj (by simp))
          · rcases List.mem_cons.mp h2 with h3 | h3
            · exact h3 ▸ hti
            · exact hP m (hsubP m (by simp [h3]))
      · have e1 : (A1 ++ nj :: t1 :: A2).filter relevantB =
            (A1 ++ nj :: A2).filter relevantB := by
          have := filter_middle_irrelevant (A1 ++ [nj]) A2 t1 hrel
          simpa using this
        rw [e1, ← heqA]
    · have hnomem : ∀ m ∈ P, m.id ≠ j := by
        intro m hm hc
        exact hj (hc ▸ List.mem_map_of_mem Node.id hm)
      obtain ⟨R, hR⟩ : ∃ R, insertAfterId (S :: (Q1 ++ Q2)) j t1 = S :: R := by
        unfold insertAfterId
        split
        · exact ⟨t1 :: (Q1 ++ Q2), rfl⟩
        · exact ⟨insertAfterId (Q1 ++ Q2) j t1, rfl⟩
      have hins : insertAfterId (eraseId kb t1.id) j t1 = P ++ S :: R := by
        rw [herase, insertAfterId_append_left _ _ j t1 hnomem, hR]
      exact hconc _ _ hins hP rfl


/-- Issuer of a signature as resolved by lines 302-326: the primary key when
the key ids match, otherwise whatever `get_pubkey` returns. -/
def issuerOf (env : Env) (pk : PublicKey) (s : Sig) : Option PublicKey :=
  if pk.keyid = s.keyid then some pk else env.get_pubkey s.keyid

/-- A signature node is settled in a keyblock when processing it with the
`current_component` implied by its position cannot relocate it: it is either
skipped (no current component, self-signature restriction, missing issuer,
unsupported algorithm), correctly placed (the first verification attempt at
the current component succeeds), or bad (no non-deleted node verifies).
Non-signature nodes are trivially settled. -/
def settledB (env : Env) (pol : Pol) (pk : PublicKey) (kb : List Node)
    (n : Node) : Bool :=
  match n.pkt with
  | .signature s =>
    match curOf pol kb n.id with
    | none => true
    | some c =>
      (decide (pk.keyid ≠ s.keyid) && pol.only_selfsigs) ||
      (match issuerOf env pk s with
       | none => true
       | some u =>
         !env.pk_algo_ok s.pubkey_algo ||
         !env.md_algo_ok s.digest_algo ||
         env.verify u s c.pkt ||
         kb.all (fun m => m.deleted || !env.verify u s m.pkt))
  | _ => true

theorem sig_not_relevant (t : Node) (h : sigNode t = true) : relevantB t = false := by
  unfold sigNode at h
  unfold relevantB compPacket
  cases hp : t.pkt <;> rw [hp] at h <;> simp at h ⊢

theorem settledB_not_sig (env : Env) (pol : Pol) (pk : PublicKey) (kb : List Node)
    (n : Node) (h : sigNode n = false) : settledB env pol pk kb n = true := by
  unfold sigNode at h
  unfold settledB
  cases hp : n.pkt <;> rw [hp] at h <;> simp at h ⊢

theorem perm_all (l1 l2 : List Node) (p : Node → Bool) (h : l1.Perm l2) :
    l1.all p = l2.all p := by
  have hiff : (l1.all p = true) ↔ (l2.all p = true) := by
    rw [List.all_eq_true, List.all_eq_true]
    constructor
    · intro hh x hx; exact hh x (h.mem_iff.mpr hx)
    · intro hh x hx; exact hh x (h.mem_iff.mp hx)
  cases h1 : l1.all p
  · cases h2 : l2.all p
    · rfl
    · have := hiff.mpr h2; rw [h1] at this; cases this
  · cases h2 : l2.all p
    · have := hiff.mp h1; rw [h2] at this; cases this
    · rfl

theorem nodup_append_ids_ne (X Y : List Node) (h : ((X ++ Y).map Node.id).Nodup) :
    ∀ a ∈ X, ∀ b ∈ Y, a.id ≠ b.id := by
  intro a ha b hb
  rw [List.map_append, List.nodup_append] at h
  exact fun hc => h.2.2 (List.mem_map_of_mem Node.id ha)
    (hc ▸ List.mem_map_of_mem Node.id hb)

theorem curOf_after_splice (pol : Pol) (kb : List Node)
    (hnd : (kb.map Node.id).Nodup) {t nj : Node} (ht : t ∈ kb) (hnj : nj ∈ kb)
    (hne : nj.id ≠ t.id) (hreln : relevantB nj = true) :
    curOf pol (insertAfterId (eraseId kb t.id) nj.id t) t.id = selRes pol nj := by
  obtain ⟨P, t1, Q, heq, ht1, hP⟩ := exists_split kb t.id (List.mem_map_of_mem Node.id ht)
  have ht1t : t1 = t := nodes_eq_of_id kb hnd (by rw [heq]; simp) ht ht1
  subst ht1t
  have hnotin := nodup_middle_notin kb P Q t1 hnd heq
  have herase : eraseId kb t1.id = P ++ Q := by
    rw [heq, eraseId_split P Q t1 t1.id rfl (by
      intro m hm hc
      exact hnotin.1 (hc ▸ List.mem_map_of_mem Node.id hm))]
  have hndPQ : ((P ++ Q).map Node.id).Nodup := by
    have : (kb.map Node.id).Nodup := hnd
    rw [heq, List.map_append, List.map_cons, List.nodup_middle] at this
    rw [List.map_append]
    exact ((List.nodup_cons.mp this).2)
  have hnjPQ : nj ∈ P ++ Q := by
    rw [heq] at hnj
    rcases List.mem_append.mp hnj with h1 | h1
    · exact List.mem_append.mpr (Or.inl h1)
    · rcases List.mem_cons.mp h1 with h2 | h2
      · exact absurd (h2 ▸ rfl) hne
      · exact List.mem_append.mpr (Or.inr h2)
  obtain ⟨A, n2, B, heqA, hn2, hA⟩ :=
    exists_split (P ++ Q) nj.id (List.mem_map_of_mem Node.id hnjPQ)
  have hn2nj : n2 = nj := by
    apply List.inj_on_of_nodup_map hndPQ (by rw [heqA]; simp) hnjPQ
    exact hn2
  subst hn2nj
  have hins : insertAfterId (eraseId kb t1.id) n2.id t1 = (A ++ [n2]) ++ t1 :: B := by
    rw [herase, heqA, insertAfterId_split A B n2 n2.id t1 (hn2 ▸ rfl) (hn2 ▸ hA)]
    simp
  rw [hins]
  unfold curOf
  rw [takeWhile_split (A ++ [n2]) B t1 t1.id rfl (by
    intro m hm hc
    have hmPQ : m ∈ P ++ Q := by
      rw [heqA]
      rcases List.mem_append.mp hm with h1 | h1
      · exact List.mem_append.mpr (Or.inl h1)
      · rcases List.mem_cons.mp h1 with h2 | h2
        · exact h2 ▸ (by simp)
        · cases h2
    have : t1.id ∉ (P ++ Q).map Node.id := by
      rw [List.map_append]
      intro hcc
      rcases List.mem_append.mp hcc with h3 | h3
      · exact hnotin.1 h3
      · exact hnotin.2 h3
    exact this (hc ▸ List.mem_map_of_mem Node.id hmPQ))]
  rw [List.foldl_append]
  simp only [List.foldl_cons, List.foldl_nil]
  unfold curStep
  rw [if_pos hreln]

/-- Unfolding equation of `settledB` at a signature node. -/
theorem settledB_sig (env : Env) (pol : Pol) (pk : PublicKey) (kb : List Node)
    (n : Node) (s : Sig) (h : n.pkt = .signature s) :
    settledB env pol pk kb n =
      (match curOf pol kb n.id with
       | none => true
       | some c =>
         (decide (pk.keyid ≠ s.keyid) && pol.only_selfsigs) ||
         (match issuerOf env pk s with
          | none => true
          | some u =>
            !env.pk_algo_ok s.pubkey_algo ||
            !env.md_algo_ok s.digest_algo ||
            env.verify u s c.pkt ||
            kb.all (fun m => m.deleted || !env.verify u s m.pkt))) := by
  unfold settledB
  rw [h]

/-- Settledness of any other signature is preserved when a signature node is
spliced elsewhere: its current component and the set of verification
candidates do not change. -/
theorem settledB_splice (env : Env) (pol : Pol) (pk : PublicKey) (kb : List Node)
    (hnd : (kb.map Node.id).Nodup) {t : Node} (ht : t ∈ kb)
    (hsig : sigNode t = true) {S : Node} (hS : S ∈ kb) (hSt : S.id ≠ t.id)
    (j : Nat) :
    settledB env pol pk (insertAfterId (eraseId kb t.id) j t) S =
      settledB env pol pk kb S := by
  have hrel : relevantB t = false := sig_not_relevant t hsig
  have hcur : curOf pol (insertAfterId (eraseId kb t.id) j t) S.id =
      curOf pol kb S.id :=
    curOf_eq_of_prefixComps pol _ kb S.id S.id
      (prefixComps_splice kb hnd ht hrel (List.mem_map_of_mem Node.id hS)
        (fun hc => hSt hc.symm) j)
  have hperm := splice_perm kb hnd ht j
  cases hp : S.pkt with
  | signature s =>
    rw [settledB_sig env pol pk _ S s hp, settledB_sig env pol pk kb S s hp, hcur]
    cases hc : curOf pol kb S.id with
    | none => simp only [hc]
    | some c =>
      cases hu : issuerOf env pk s with
      | none => simp only [hc, hu]
      | some u =>
        simp only [hc, hu]
        rw [perm_all _ _ (fun m => m.deleted || !env.verify u s m.pkt) hperm]
  | publicKey pk2 =>
    rw [settledB_not_sig _ _ _ _ _ (by unfold sigNode; rw [hp]),
      settledB_not_sig _ _ _ _ _ (by unfold sigNode; rw [hp])]
  | publicSubkey pk2 =>
    rw [settledB_not_sig _ _ _ _ _ (by unfold sigNode; rw [hp]),
      settledB_not_sig _ _ _ _ _ (by unfold sigNode; rw [hp])]
  | userId name =>
    rw [settledB_not_sig _ _ _ _ _ (by unfold sigNode; rw [hp]),
      settledB_not_sig _ _ _ _ _ (by unfold sigNode; rw [hp])]
  | other tag =>
    rw [settledB_not_sig _ _ _ _ _ (by unfold sigNode; rw [hp]),
      settledB_not_sig _ _ _ _ _ (by unfold sigNode; rw [hp])]

/-- A signature spliced right after the component it verifies against is
settled in the resulting keyblock. -/
theorem settledB_after_splice (env : Env) (pol : Pol) (pk : PublicKey)
    (kb : List Node) (hnd : (kb.map Node.id).Nodup) {t nj : Node} (ht : t ∈ kb)
    (hnj : nj ∈ kb) (hne : nj.id ≠ t.id) (hreln : relevantB nj = true)
    {s : Sig} (hts : t.pkt = .signature s) {u : PublicKey}
    (hu : issuerOf env pk s = some u) (hv : env.verify u s nj.pkt = true) :
    settledB env pol pk (insertAfterId (eraseId kb t.id) nj.id t) t = true := by
  rw [settledB_sig env pol pk _ t s hts]
  rw [curOf_after_splice pol kb hnd ht hnj hne hreln]
  cases hsel : selRes pol nj with
  | none => simp only []
  | some c =>
    have hcnj : c = nj := selRes_some pol nj c hsel
    subst hcnj
    simp only [hu, hv]
    simp


/-- Unfolding equation of `processSig` with no current component. -/
theorem processSig_none (env : Env) (pol : Pol) (pk : PublicKey) (st : PState)
    (n : Node) (s : Sig) (h : st.cur = none) :
    processSig env pol pk st n s = .ok st := by
  unfold processSig
  rw [h]

/-- Unfolding equation of `processSig` with a current component. -/
theorem processSig_some (env : Env) (pol : Pol) (pk : PublicKey) (st : PState)
    (n : Node) (s : Sig) (c : Node) (h : st.cur = some c) :
    processSig env pol pk st n s =
      (if pk.keyid = s.keyid then processSigWith env st n s pk c
       else if pol.only_selfsigs = true then .ok st
       else
         match env.get_pubkey s.keyid with
         | none => .ok { st with missingIssuerIds := st.missingIssuerIds ++ [n.id] }
         | some issuer => processSigWith env st n s issuer c) := by
  unfold processSig
  rw [h]

theorem processSigWith_no_splice (env : Env) (st : PState) (n : Node) (s : Sig)
    (u : PublicKey) (c : Node) (hcmem : c ∈ st.kb) (hcdel : c.deleted = false)
    (hset : (!env.pk_algo_ok s.pubkey_algo ||
             !env.md_algo_ok s.digest_algo ||
             env.verify u s c.pkt ||
             st.kb.all (fun m => m.deleted || !env.verify u s m.pkt)) = true) :
    ∃ st2, processSigWith env st n s u c = .ok st2 ∧ st2.kb = st.kb ∧
      st2.cur = st.cur ∧ st2.reorderedIds = st.reorderedIds ∧
      st2.modified = st.modified := by
  by_cases h1 : env.pk_algo_ok s.pubkey_algo = false
  · refine ⟨st, ?_, rfl, rfl, rfl, rfl⟩
    unfold processSigWith
    rw [if_pos h1]
  · by_cases h2 : env.md_algo_ok s.digest_algo = false
    · refine ⟨st, ?_, rfl, rfl, rfl, rfl⟩
      unfold processSigWith
      rw [if_neg h1, if_pos h2]
    · have h1t : env.pk_algo_ok s.pubkey_algo = true := by
        cases hb : env.pk_algo_ok s.pubkey_algo
        · exact absurd hb h1
        · rfl
      have h2t : env.md_algo_ok s.digest_algo = true := by
        cases hb : env.md_algo_ok s.digest_algo
        · exact absurd hb h2
        · rfl
      by_cases hv : env.verify u s c.pkt = true
      · have hft : findTarget env u s st.kb c = some c := by
          unfold findTarget
          rw [if_pos hv]
        refine ⟨st, ?_, rfl, rfl, rfl, rfl⟩
        unfold processSigWith
        rw [if_neg h1, if_neg h2, hft]
        simp
      · have hall : st.kb.all (fun m => m.deleted || !env.verify u s m.pkt) = true := by
          rw [h1t, h2t] at hset
          simp only [Bool.not_true, Bool.false_or] at hset
          rcases Bool.or_eq_true_iff.mp hset with h3 | h3
          · exact absurd h3 hv
          · exact h3
        have hft : findTarget env u s st.kb c = none := by
          unfold findTarget
          rw [if_neg hv]
          apply List.find?_eq_none.mpr
          intro m hm
          have := List.all_eq_true.mp hall m hm
          rcases Bool.or_eq_true_iff.mp this with h3 | h3
          · simp [h3]
          · simp only [Bool.not_eq_true'] at h3
            simp [h3]
        refine ⟨{ st with badIds := st.badIds ++ [n.id] }, ?_, rfl, rfl, rfl, rfl⟩
        unfold processSigWith
        rw [if_neg h1, if_neg h2, hft]

/-- A settled signature node is not relocated when processed: the keyblock,
the current component, the reorder list and the modified flag are unchanged
(only the missing-issuer or bad-signature lists may grow). -/
theorem settled_no_splice (env : Env) (pol : Pol) (pk : PublicKey) (st : PState)
    (n : Node) (s : Sig) (hpkt : n.pkt = .signature s)
    (hcur : st.cur = curOf pol st.kb n.id)
    (hset : settledB env pol pk st.kb n = true) :
    ∃ st2, processSig env pol pk st n s = .ok st2 ∧ st2.kb = st.kb ∧
      st2.cur = st.cur ∧ st2.reorderedIds = st.reorderedIds ∧
      st2.modified = st.modified := by
  rw [settledB_sig env pol pk st.kb n s hpkt] at hset
  cases hc : curOf pol st.kb n.id with
  | none =>
    refine ⟨st, ?_, rfl, rfl, rfl, rfl⟩
    exact processSig_none env pol pk st n s (by rw [hcur, hc])
  | some c =>
    have hscur : st.cur = some c := by rw [hcur, hc]
    have hpsome := processSig_some env pol pk st n s c hscur
    rw [hc] at hset
    simp only [] at hset
    obtain ⟨hcm, hcd, _⟩ := curOf_mem pol st.kb n.id c hc
    by_cases hk : pk.keyid = s.keyid
    · have hps : processSig env pol pk st n s = processSigWith env st n s pk c := by
        rw [hpsome, if_pos hk]
      rw [hps]
      have hu : issuerOf env pk s = some pk := by
        unfold issuerOf
        rw [if_pos hk]
      rw [hu] at hset
      have hdk : decide (pk.keyid ≠ s.keyid) = false := by simp [hk]
      rw [hdk] at hset
      simp only [Bool.false_and, Bool.false_or] at hset
      exact processSigWith_no_splice env st n s pk c hcm hcd hset
    · by_cases hos : pol.only_selfsigs = true
      · refine ⟨st, ?_, rfl, rfl, rfl, rfl⟩
        rw [hpsome, if_neg hk, hos]
        simp
      · have hosf : pol.only_selfsigs = false := by
          cases hb : pol.only_selfsigs
          · rfl
          · exact absurd hb hos
        have hu : issuerOf env pk s = env.get_pubkey s.keyid := by
          unfold issuerOf
          rw [if_neg hk]
        cases hg : env.get_pubkey s.keyid with
        | none =>
          refine ⟨{ st with missingIssuerIds := st.missingIssuerIds ++ [n.id] },
            ?_, rfl, rfl, rfl, rfl⟩
          rw [hpsome, if_neg hk, if_neg (by rw [hosf]; simp), hg]
        | some u =>
          have hps : processSig env pol pk st n s = processSigWith env st n s u c := by
            rw [hpsome, if_neg hk, if_neg (by rw [hosf]; simp), hg]
          rw [hps]
          rw [hu, hg] at hset
          rw [hosf] at hset
          simp only [Bool.and_false, Bool.false_or] at hset
          exact processSigWith_no_splice env st n s u c hcm hcd hset

/-- An unsettled signature node is either relocated right after a non-deleted
component its issuer verifies, or the `log_assert` on the found target
fails. -/
theorem processSig_unsettled (env : Env) (pol : Pol) (pk : PublicKey)
    (st : PState) (n : Node) (s : Sig) (hpkt : n.pkt = .signature s)
    (hn : n ∈ st.kb) (hnd : (st.kb.map Node.id).Nodup)
    (hcur : st.cur = curOf pol st.kb n.id)
    (hset : settledB env pol pk st.kb n = false) :
    processSig env pol pk st n s = .abort ∨
    ∃ u n2, issuerOf env pk s = some u ∧ n2 ∈ st.kb ∧ n2.deleted = false ∧
      n2.id ≠ n.id ∧ relevantB n2 = true ∧ env.verify u s n2.pkt = true ∧
      processSig env pol pk st n s = .ok { st with
        kb := insertAfterId (eraseId st.kb n.id) n2.id n,
        reorderedIds := st.reorderedIds ++ [n.id],
        modified := true } := by
  rw [settledB_sig env pol pk st.kb n s hpkt] at hset
  cases hc : curOf pol st.kb n.id with
  | none => rw [hc] at hset; cases hset
  | some c =>
    have hscur : st.cur = some c := by rw [hcur, hc]
    have hpsome := processSig_some env pol pk st n s c hscur
    rw [hc] at hset
    simp only [Bool.or_eq_false_iff] at hset
    obtain ⟨hskip, hinner⟩ := hset
    have hresolved : ∃ u, issuerOf env pk s = some u ∧
        (!env.pk_algo_ok s.pubkey_algo ||
         !env.md_algo_ok s.digest_algo ||
         env.verify u s c.pkt ||
         st.kb.all (fun m => m.deleted || !env.verify u s m.pkt)) = false := by
      cases hu : issuerOf env pk s with
      | none => rw [hu] at hinner; cases hinner
      | some u =>
        rw [hu] at hinner
        exact ⟨u, rfl, hinner⟩
    obtain ⟨u, hu, hflags⟩ := hresolved
    simp only [Bool.or_eq_false_iff, Bool.not_eq_false'] at hflags
    obtain ⟨⟨⟨hpkok, hmdok⟩, hvc⟩, hall⟩ := hflags
    have hps : processSig env pol pk st n s = processSigWith env st n s u c := by
      rw [hpsome]
      by_cases hk : pk.keyid = s.keyid
      · rw [if_pos hk]
        have hu2 := hu
        unfold issuerOf at hu2
        rw [if_pos hk] at hu2
        rw [Option.some_injective _ hu2]
      · rw [if_neg hk]
        have hosf : pol.only_selfsigs = false := by
          cases hb : pol.only_selfsigs
          · rfl
          · rw [hb] at hskip
            simp only [Bool.and_true, decide_eq_false_iff_not, Decidable.not_not] at hskip
            exact absurd hskip hk
        rw [if_neg (by rw [hosf]; simp)]
        have hu2 := hu
        unfold issuerOf at hu2
        rw [if_neg hk] at hu2
        rw [hu2]
    have hnotall := hall
    rw [List.all_eq_false] at hnotall
    obtain ⟨m, hm, hmfail⟩ := hnotall
    have hmdel : m.deleted = false := by
      cases hd : m.deleted
      · rfl
      · rw [hd] at hmfail; simp at hmfail
    have hmv : env.verify u s m.pkt = true := by
      rw [hmdel] at hmfail
      simp at hmfail
      exact hmfail
    have hmc : m.id ≠ c.id := by
      intro he
      obtain ⟨hcm, hcd, _⟩ := curOf_mem pol st.kb n.id c hc
      have hmceq : m = c := nodes_eq_of_id st.kb hnd hm hcm he
      rw [hmceq] at hmv
      exact absurd hmv (by rw [hvc]; simp)
    have hfind : ∃ n2, st.kb.find?
        (fun m2 => !m2.deleted && m2.id != c.id && env.verify u s m2.pkt) = some n2 := by
      have hsome : (st.kb.find?
          (fun m2 => !m2.deleted && m2.id != c.id && env.verify u s m2.pkt)).isSome := by
        rw [List.find?_isSome]
        exact ⟨m, hm, by simp [hmdel, hmv, bne_iff_ne, hmc]⟩
      exact Option.isSome_iff_exists.mp hsome
    obtain ⟨n2, hn2find⟩ := hfind
    have hn2mem := List.mem_of_find?_eq_some hn2find
    have hn2pred := List.find?_some hn2find
    simp only [Bool.and_eq_true, Bool.not_eq_true', bne_iff_ne, ne_eq] at hn2pred
    obtain ⟨⟨hn2del, hn2c⟩, hn2v⟩ := hn2pred
    have hft : findTarget env u s st.kb c = some n2 := by
      unfold findTarget
      rw [if_neg (by rw [hvc]; simp)]
      exact hn2find
    by_cases hcomp : compPacket n2.pkt = true
    · right
      have hn2sig : sigNode n2 = false := by
        unfold sigNode compPacket at *
        cases hq : n2.pkt <;> rw [hq] at hcomp <;> simp at hcomp ⊢
      have hn2n : n2.id ≠ n.id := by
        intro he
        have hn2eq : n2 = n := nodes_eq_of_id st.kb hnd hn2mem hn he
        rw [hn2eq] at hn2sig
        unfold sigNode at hn2sig
        rw [hpkt] at hn2sig
        cases hn2sig
      refine ⟨u, n2, hu, hn2mem, hn2del, hn2n, ?_, hn2v, ?_⟩
      · unfold relevantB
        rw [hn2del, hcomp]
        rfl
      · rw [hps]
        unfold processSigWith
        rw [if_neg (by rw [hpkok]; simp), if_neg (by rw [hmdok]; simp), hft]
        simp only []
        rw [if_neg hn2c, if_pos hcomp]
    · left
      rw [hps]
      unfold processSigWith
      rw [if_neg (by rw [hpkok]; simp), if_neg (by rw [hmdok]; simp), hft]
      simp only []
      rw [if_neg hn2c, if_neg hcomp]


theorem placeLoop_zero (env : Env) (pol : Pol) (pk : PublicKey) (hid : Nat)
    (st : PState) (cur : Option Nat) :
    placeLoop env pol pk hid 0 st cur = .fuelOut := rfl

theorem placeLoop_none (env : Env) (pol : Pol) (pk : PublicKey) (hid : Nat)
    (fuel : Nat) (st : PState) :
    placeLoop env pol pk hid (fuel + 1) st none = .ok st := rfl

theorem placeLoop_found (env : Env) (pol : Pol) (pk : PublicKey) (hid : Nat)
    (fuel : Nat) (st : PState) (cid : Nat) (n : Node)
    (h : findId st.kb cid = some n) :
    placeLoop env pol pk hid (fuel + 1) st (some cid) =
      (if n.deleted then placeLoop env pol pk hid fuel st (succId st.kb cid)
       else
         match processNode env pol pk hid st n with
         | .abort => .abort
         | .ok st2 => placeLoop env pol pk hid fuel st2 (succId st.kb cid)) := by
  have heq : placeLoop env pol pk hid (fuel + 1) st (some cid) =
      (match findId st.kb cid with
       | none => .abort
       | some n =>
         if n.deleted then placeLoop env pol pk hid fuel st (succId st.kb cid)
         else
           match processNode env pol pk hid st n with
           | .abort => .abort
           | .ok st2 => placeLoop env pol pk hid fuel st2 (succId st.kb cid)) := rfl
  rw [heq, h]

theorem placeLoop_notfound (env : Env) (pol : Pol) (pk : PublicKey) (hid : Nat)
    (fuel : Nat) (st : PState) (cid : Nat)
    (h : findId st.kb cid = none) :
    placeLoop env pol pk hid (fuel + 1) st (some cid) = .abort := by
  have heq : placeLoop env pol pk hid (fuel + 1) st (some cid) =
      (match findId st.kb cid with
       | none => .abort
       | some n =>
         if n.deleted then placeLoop env pol pk hid fuel st (succId st.kb cid)
         else
           match processNode env pol pk hid st n with
           | .abort => .abort
           | .ok st2 => placeLoop env pol pk hid fuel st2 (succId st.kb cid)) := rfl
  rw [heq, h]

theorem processNode_publicKey (env : Env) (pol : Pol) (pk : PublicKey) (hid : Nat)
    (st : PState) (n : Node) (q : PublicKey) (h : n.pkt = .publicKey q) :
    processNode env pol pk hid st n =
      (if n.id ≠ hid then .abort
       else .ok { st with cur := if pol.only_selected && !n.selkey then none else some n }) := by
  unfold processNode
  rw [h]

theorem processNode_publicSubkey (env : Env) (pol : Pol) (pk : PublicKey) (hid : Nat)
    (st : PState) (n : Node) (q : PublicKey) (h : n.pkt = .publicSubkey q) :
    processNode env pol pk hid st n =
      .ok { st with cur := if pol.only_selected && !n.selkey then none else some n } := by
  unfold processNode
  rw [h]

theorem processNode_userId (env : Env) (pol : Pol) (pk : PublicKey) (hid : Nat)
    (st : PState) (n : Node) (q : Nat) (h : n.pkt = .userId q) :
    processNode env pol pk hid st n =
      .ok { st with cur := if pol.only_selected && !n.seluid then none else some n } := by
  unfold processNode
  rw [h]

theorem processNode_signature (env : Env) (pol : Pol) (pk : PublicKey) (hid : Nat)
    (st : PState) (n : Node) (s : Sig) (h : n.pkt = .signature s) :
    processNode env pol pk hid st n = processSig env pol pk st n s := by
  unfold processNode
  rw [h]

theorem processNode_other (env : Env) (pol : Pol) (pk : PublicKey) (hid : Nat)
    (st : PState) (n : Node) (q : Nat) (h : n.pkt = .other q) :
    processNode env pol pk hid st n = .ok st := by
  unfold processNode
  rw [h]

theorem curOf_succ (pol : Pol) (kb P Q2 : List Node) (n q : Node)
    (heq : kb = P ++ n :: q :: Q2) (hnd : (kb.map Node.id).Nodup)
    (hP : ∀ m ∈ P, m.id ≠ n.id) :
    curOf pol kb q.id = curStep pol (curOf pol kb n.id) n := by
  have hq0 : q.id ∉ (P ++ [n]).map Node.id := by
    have := nodup_middle_notin kb (P ++ [n]) Q2 q hnd (by rw [heq]; simp)
    exact this.1
  have hq : ∀ m ∈ P ++ [n], m.id ≠ q.id := by
    intro m hm hc
    exact hq0 (hc ▸ List.mem_map_of_mem Node.id hm)
  unfold curOf
  rw [heq]
  have hshape : P ++ n :: q :: Q2 = (P ++ [n]) ++ q :: Q2 := by simp
  rw [takeWhile_split P (q :: Q2) n n.id rfl hP]
  rw [hshape, takeWhile_split (P ++ [n]) Q2 q q.id rfl hq]
  rw [List.foldl_append]
  rfl

theorem filter_sub_length (l : List Node) (p q : Node → Bool)
    (h : ∀ x ∈ l, q x = true → p x = true) :
    (l.filter q).length ≤ (l.filter p).length := by
  induction l with
  | nil => simp
  | cons x xs ih =>
    have ih2 := ih (fun y hy => h y (List.mem_cons_of_mem x hy))
    by_cases hq : q x = true
    · rw [List.filter_cons_of_pos hq, List.filter_cons_of_pos (h x (by simp) hq)]
      simpa using ih2
    · rw [List.filter_cons_of_neg (by simpa using hq)]
      calc (xs.filter q).length ≤ (xs.filter p).length := ih2
        _ ≤ ((x :: xs).filter p).length := by
            by_cases hp : p x = true
            · rw [List.filter_cons_of_pos hp]; simp
            · rw [List.filter_cons_of_neg (by simpa using hp)]

theorem filter_perm_length (l1 l2 : List Node) (p : Node → Bool) (h : l1.Perm l2) :
    (l1.filter p).length = (l2.filter p).length :=
  (h.filter p).length_eq

/-- Unsettled live signatures among a batch of nodes, measured against a
keyblock. -/
def unsettledCount (env : Env) (pol : Pol) (pk : PublicKey) (kb : List Node)
    (batch : List Node) : Nat :=
  (batch.filter (fun m => liveSig m && !settledB env pol pk kb m)).length

/-- Termination measure of the placement traversal: length of the suffix the
cursor still has to visit plus the number of unsettled signatures in it.
Every traversal step decreases it. -/
def pMeasure (env : Env) (pol : Pol) (pk : PublicKey) (kb : List Node)
    (cur : Option Nat) : Nat :=
  (sufFrom kb cur).length + unsettledCount env pol pk kb (sufFrom kb cur)

/-- Invariant of the placement traversal. -/
structure LoopInv (env : Env) (pol : Pol) (pk : PublicKey) (hid : Nat)
    (st : PState) (cur : Option Nat) : Prop where
  nodup : (st.kb.map Node.id).Nodup
  curmem : ∀ cid, cur = some cid → cid ∈ st.kb.map Node.id
  curok : ∀ cid, cur = some cid → st.cur = curOf pol st.kb cid
  settled : ∀ n ∈ st.kb, liveSig n = true →
    n.id ∉ (sufFrom st.kb cur).map Node.id → settledB env pol pk st.kb n = true
  reordNodup : st.reorderedIds.Nodup
  reordSettled : ∀ n ∈ st.kb, n.id ∈ st.reorderedIds →
    liveSig n = true ∧ settledB env pol pk st.kb n = true
  pkhead : ∀ n ∈ st.kb, n.deleted = false → pkPacket n.pkt = true →
    n.id ∉ (sufFrom st.kb cur).map Node.id → n.id = hid

/-- Facts delivered by a completed placement pass. -/
def PlaceFinal (env : Env) (pol : Pol) (pk : PublicKey) (hid : Nat)
    (r : PState) : Prop :=
  (r.kb.map Node.id).Nodup ∧
  (∀ n ∈ r.kb, liveSig n = true → settledB env pol pk r.kb n = true) ∧
  r.reorderedIds.Nodup ∧
  (∀ n ∈ r.kb, n.deleted = false → pkPacket n.pkt = true → n.id = hid)


theorem findId_split_eq (kb : List Node) (hnd : (kb.map Node.id).Nodup)
    (cid : Nat) (n : Node) (hfind : findId kb cid = some n) :
    ∃ P Q, kb = P ++ n :: Q ∧ n.id = cid ∧ (∀ m ∈ P, m.id ≠ cid) := by
  obtain ⟨hnmem, hnid⟩ := findId_some kb cid n hfind
  obtain ⟨P, n2, Q, heq, hn2, hP⟩ := exists_split kb cid (hnid ▸ List.mem_map_of_mem Node.id hnmem)
  have : n2 = n := nodes_eq_of_id kb hnd (by rw [heq]; simp) hnmem (by rw [hn2, hnid])
  subst this
  exact ⟨P, Q, heq, hn2, hP⟩

theorem sufFrom_cons_of_split (kb P Q : List Node) (n : Node) (cid : Nat)
    (heq : kb = P ++ n :: Q) (hn : n.id = cid) (hP : ∀ m ∈ P, m.id ≠ cid) :
    sufFrom kb (some cid) = n :: Q := by
  unfold sufFrom
  rw [heq]
  exact dropWhile_split P Q n cid hn hP

/-- Re-establish the invariant after a step that leaves the keyblock and the
reorder list unchanged. -/
theorem inv_step_keep (env : Env) (pol : Pol) (pk : PublicKey) (hid : Nat)
    (st st2 : PState) (cid : Nat) (n : Node)
    (hinv : LoopInv env pol pk hid st (some cid))
    (hfind : findId st.kb cid = some n)
    (hkb : st2.kb = st.kb) (hreord : st2.reorderedIds = st.reorderedIds)
    (hcur2 : st2.cur = curStep pol (curOf pol st.kb cid) n)
    (hsettled_n : liveSig n = true → settledB env pol pk st.kb n = true)
    (hpk_n : n.deleted = false → pkPacket n.pkt = true → n.id = hid) :
    LoopInv env pol pk hid st2 (succId st.kb cid) ∧
    pMeasure env pol pk st2.kb (succId st.kb cid) <
      pMeasure env pol pk st.kb (some cid) := by
  obtain ⟨P, Q, heq, hnid, hP⟩ := findId_split_eq st.kb hinv.nodup cid n hfind
  have hsuf : sufFrom st.kb (some cid) = n :: Q := sufFrom_cons_of_split _ P Q n cid heq hnid hP
  have hsucc : succId st.kb cid = Q.head?.map Node.id := by
    rw [heq]; exact succId_split P Q n cid hnid hP
  have hmemn : n ∈ st.kb := (findId_some _ _ _ hfind).1
  have hsame : ∀ m ∈ st.kb, m.id = n.id → m = n :=
    fun m hm hms => nodes_eq_of_id st.kb hinv.nodup hm hmemn hms
  cases hQ : Q with
  | nil =>
    subst hQ
    have hnone : succId st.kb cid = none := by rw [hsucc]; rfl
    rw [hnone]
    constructor
    · refine ⟨hkb ▸ hinv.nodup, (by intro c hc; cases hc), (by intro c hc; cases hc),
        ?_, hreord ▸ hinv.reordNodup, ?_, ?_⟩
      · intro m hm hlive _
        rw [hkb] at hm ⊢
        by_cases hmn : m.id = n.id
        · rw [hsame m hm hmn]
          exact hsettled_n (hsame m hm hmn ▸ hlive)
        · apply hinv.settled m hm hlive
          rw [hsuf]
          simp [hmn]
      · intro m hm hmr
        rw [hkb] at hm ⊢
        rw [hreord] at hmr
        exact hinv.reordSettled m hm hmr
      · intro m hm hdel hpkp _
        rw [hkb] at hm
        by_cases hmn : m.id = n.id
        · rw [hsame m hm hmn] at hdel hpkp ⊢
          exact hpk_n hdel hpkp
        · apply hinv.pkhead m hm hdel hpkp
          rw [hsuf]
          simp [hmn]
    · unfold pMeasure
      rw [hsuf]
      simp only [sufFrom, unsettledCount, List.filter_nil, List.length_nil,
        List.length_cons]
      omega
  | cons q Q2 =>
    subst hQ
    have hsome : succId st.kb cid = some q.id := by rw [hsucc]; rfl
    rw [hsome]
    have hqnotin : q.id ∉ (P ++ [n]).map Node.id :=
      (nodup_middle_notin st.kb (P ++ [n]) Q2 q hinv.nodup (by rw [heq]; simp)).1
    have hsuf2 : sufFrom st.kb (some q.id) = q :: Q2 := by
      unfold sufFrom
      rw [heq, show P ++ n :: q :: Q2 = (P ++ [n]) ++ q :: Q2 by simp]
      exact dropWhile_split (P ++ [n]) Q2 q q.id rfl
        (fun m hm hc => hqnotin (hc ▸ List.mem_map_of_mem Node.id hm))
    have hcurq : curOf pol st.kb q.id = curStep pol (curOf pol st.kb cid) n := by
      rw [← hnid]
      exact curOf_succ pol st.kb P Q2 n q heq hinv.nodup (hnid ▸ hP)
    constructor
    · refine ⟨hkb ▸ hinv.nodup, ?_, ?_, ?_, hreord ▸ hinv.reordNodup, ?_, ?_⟩
      · intro c hc
        injection hc with hc
        rw [hkb, ← hc, heq]
        simp
      · intro c hc
        injection hc with hc
        rw [hkb, ← hc, hcur2, hcurq]
      · intro m hm hlive hnot
        rw [hkb] at hm hnot ⊢
        rw [hsuf2] at hnot
        by_cases hmn : m.id = n.id
        · rw [hsame m hm hmn]
          exact hsettled_n (hsame m hm hmn ▸ hlive)
        · apply hinv.settled m hm hlive
          rw [hsuf]
          simp only [List.map_cons, List.mem_cons]
          intro hc
          rcases hc with hc | hc
          · exact hmn hc
          · exact hnot (by simpa using hc)
      · intro m hm hmr
        rw [hkb] at hm ⊢
        rw [hreord] at hmr
        exact hinv.reordSettled m hm hmr
      · intro m hm hdel hpkp hnot
        rw [hkb] at hm hnot
        rw [hsuf2] at hnot
        by_cases hmn : m.id = n.id
        · rw [hsame m hm hmn] at hdel hpkp ⊢
          exact hpk_n hdel hpkp
        · apply hinv.pkhead m hm hdel hpkp
          rw [hsuf]
          simp only [List.map_cons, List.mem_cons]
          intro hc
          rcases hc with hc | hc
          · exact hmn hc
          · exact hnot (by simpa using hc)
    · unfold pMeasure unsettledCount
      rw [hkb, hsuf, hsuf2]
      have hsub : ((q :: Q2).filter
          (fun m => liveSig m && !settledB env pol pk st.kb m)).length ≤
          ((n :: q :: Q2).filter
            (fun m => liveSig m && !settledB env pol pk st.kb m)).length := by
        apply List.Sublist.length_le
        apply List.Sublist.filter
        exact List.sublist_cons_self n (q :: Q2)
      simp only [List.length_cons]
      omega


/-- Re-establish the invariant after a splice step: the unsettled signature
`n` is moved right after the component `n2` its issuer verifies, which
settles it; every other signature keeps its settledness, so the measure
drops. -/
theorem inv_step_splice (env : Env) (pol : Pol) (pk : PublicKey) (hid : Nat)
    (st st2 : PState) (cid : Nat) (n n2 : Node) (s : Sig) (u : PublicKey)
    (hinv : LoopInv env pol pk hid st (some cid))
    (hfind : findId st.kb cid = some n)
    (hndel : n.deleted = false)
    (hpkt : n.pkt = .signature s)
    (hunset : settledB env pol pk st.kb n = false)
    (hu : issuerOf env pk s = some u)
    (hn2mem : n2 ∈ st.kb) (hn2del : n2.deleted = false)
    (hn2n : n2.id ≠ n.id) (hrel : relevantB n2 = true)
    (hv : env.verify u s n2.pkt = true)
    (hkb2 : st2.kb = insertAfterId (eraseId st.kb n.id) n2.id n)
    (hreord2 : st2.reorderedIds = st.reorderedIds ++ [n.id])
    (hcur2 : st2.cur = st.cur) :
    LoopInv env pol pk hid st2 (succId st.kb cid) ∧
    pMeasure env pol pk st2.kb (succId st.kb cid) <
      pMeasure env pol pk st.kb (some cid) := by
  obtain ⟨P, Q, heq, hnid, hP⟩ := findId_split_eq st.kb hinv.nodup cid n hfind
  have hmemn : n ∈ st.kb := (findId_some _ _ _ hfind).1
  have hsuf : sufFrom st.kb (some cid) = n :: Q := sufFrom_cons_of_split _ P Q n cid heq hnid hP
  have hsucc : succId st.kb cid = Q.head?.map Node.id := by
    rw [heq]; exact succId_split P Q n cid hnid hP
  have hPn : ∀ m ∈ P, m.id ≠ n.id := fun m hm => hnid ▸ hP m hm
  have herase : eraseId st.kb n.id = P ++ Q := by
    rw [heq]; exact eraseId_split P Q n n.id rfl hPn
  have hperm : st2.kb.Perm st.kb := by
    rw [hkb2]; exact splice_perm st.kb hinv.nodup hmemn n2.id
  have hnd2 : (st2.kb.map Node.id).Nodup := by
    rw [hkb2]; exact splice_nodup st.kb hinv.nodup hmemn n2.id
  have hsame : ∀ m ∈ st.kb, m.id = n.id → m = n :=
    fun m hm hms => nodes_eq_of_id st.kb hinv.nodup hm hmemn hms
  have hsign : sigNode n = true := by unfold sigNode; rw [hpkt]
  have hrelnf : relevantB n = false := sig_not_relevant n hsign
  have hlive_n : liveSig n = true := by
    unfold liveSig
    rw [hndel, hsign]
    rfl
  have hsetn2 : settledB env pol pk st2.kb n = true := by
    rw [hkb2]
    exact settledB_after_splice env pol pk st.kb hinv.nodup hmemn hn2mem hn2n hrel
      hpkt hu hv
  have hpres : ∀ S ∈ st.kb, S.id ≠ n.id →
      settledB env pol pk st2.kb S = settledB env pol pk st.kb S := by
    intro S hS hSne
    rw [hkb2]
    exact settledB_splice env pol pk st.kb hinv.nodup hmemn hsign hS hSne n2.id
  have hnreord : n.id ∉ st.reorderedIds := by
    intro hc
    have := (hinv.reordSettled n hmemn hc).2
    rw [hunset] at this
    cases this
  have hQsub : ∀ m ∈ Q, m ∈ st.kb := by intro m hm; rw [heq]; simp [hm]
  have hQne : ∀ m ∈ Q, m.id ≠ n.id := by
    intro m hm hc
    exact (nodup_middle_notin st.kb P Q n hinv.nodup heq).2
      (hc ▸ List.mem_map_of_mem Node.id hm)
  have hcountn : unsettledCount env pol pk st.kb (n :: Q) =
      unsettledCount env pol pk st.kb Q + 1 := by
    unfold unsettledCount
    rw [List.filter_cons_of_pos (by
      show (liveSig n && !settledB env pol pk st.kb n) = true
      rw [hlive_n, hunset]
      rfl)]
    simp [List.length_cons]
  have hcount2 : ∀ W : List Node, (∀ m ∈ W, m ∈ st.kb) → (∀ m ∈ W, m.id ≠ n.id) →
      unsettledCount env pol pk st2.kb W = unsettledCount env pol pk st.kb W := by
    intro W hWm hWn
    unfold unsettledCount
    congr 1
    apply List.filter_congr
    intro m hm
    rw [hpres m (hWm m hm) (hWn m hm)]
  have hreordN : st2.reorderedIds.Nodup := by
    rw [hreord2, List.nodup_append]
    refine ⟨hinv.reordNodup, List.nodup_singleton _, ?_⟩
    intro a ha hb
    exact hnreord ((List.mem_singleton.mp hb) ▸ ha)
  have hreordS : ∀ m ∈ st2.kb, m.id ∈ st2.reorderedIds →
      liveSig m = true ∧ settledB env pol pk st2.kb m = true := by
    intro m hm hmr
    have hmst := hperm.mem_iff.mp hm
    rw [hreord2] at hmr
    rcases List.mem_append.mp hmr with h1 | h1
    · have hmn : m.id ≠ n.id := fun hc => hnreord (hc ▸ h1)
      obtain ⟨hl, hs⟩ := hinv.reordSettled m hmst h1
      exact ⟨hl, by rw [hpres m hmst hmn]; exact hs⟩
    · have hmn := List.mem_singleton.mp h1
      have hmeq : m = n := hsame m hmst hmn
      subst hmeq
      exact ⟨hlive_n, hsetn2⟩
  have hset2 : ∀ m ∈ st2.kb, liveSig m = true → m.id ∉ Q.map Node.id →
      settledB env pol pk st2.kb m = true := by
    intro m hm hliv hnot
    have hmst := hperm.mem_iff.mp hm
    by_cases hmn : m.id = n.id
    · rw [hsame m hmst hmn]
      exact hsetn2
    · rw [hpres m hmst hmn]
      apply hinv.settled m hmst hliv
      rw [hsuf]
      simp only [List.map_cons, List.mem_cons]
      rintro (hc | hc)
      · exact hmn hc
      · exact hnot hc
  have hpk2 : ∀ m ∈ st2.kb, m.deleted = false → pkPacket m.pkt = true →
      m.id ∉ Q.map Node.id → m.id = hid := by
    intro m hm hdel hpkp hnot
    have hmst := hperm.mem_iff.mp hm
    have hmn : m.id ≠ n.id := by
      intro hc
      have hpkp2 := hpkp
      rw [hsame m hmst hc] at hpkp2
      unfold pkPacket at hpkp2
      rw [hpkt] at hpkp2
      cases hpkp2
    apply hinv.pkhead m hmst hdel hpkp
    rw [hsuf]
    simp only [List.map_cons, List.mem_cons]
    rintro (hc | hc)
    · exact hmn hc
    · exact hnot hc
  cases hQc : Q with
  | nil =>
    subst hQc
    have hnone : succId st.kb cid = none := by rw [hsucc]; rfl
    rw [hnone]
    constructor
    · exact ⟨hnd2, (by intro c hc; cases hc), (by intro c hc; cases hc),
        (fun m hm hliv _ => hset2 m hm hliv (by simp)),
        hreordN, hreordS,
        (fun m hm hdel hpkp _ => hpk2 m hm hdel hpkp (by simp))⟩
    · unfold pMeasure
      rw [hsuf]
      simp only [sufFrom, unsettledCount, List.filter_nil, List.length_nil,
        List.length_cons]
      omega
  | cons q Qr =>
    subst hQc
    have hsome : succId st.kb cid = some q.id := by rw [hsucc]; rfl
    rw [hsome]
    have hqmem : q ∈ st.kb := hQsub q (by simp)
    have hqnotin : q.id ∉ (P ++ [n]).map Node.id :=
      (nodup_middle_notin st.kb (P ++ [n]) Qr q hinv.nodup (by rw [heq]; simp)).1
    have hPq : ∀ m ∈ P, m.id ≠ q.id := by
      intro m hm hc
      exact hqnotin (hc ▸ List.mem_map_of_mem Node.id (by simp [hm] : m ∈ P ++ [n]))
    have hnq : n.id ≠ q.id := fun hc =>
      hqnotin (hc ▸ List.mem_map_of_mem Node.id (by simp : n ∈ P ++ [n]))
    have hcurq : curOf pol st.kb q.id = curOf pol st.kb cid := by
      have h1 : curOf pol st.kb q.id = curStep pol (curOf pol st.kb n.id) n :=
        curOf_succ pol st.kb P Qr n q heq hinv.nodup hPn
      rw [h1, hnid]
      unfold curStep
      rw [if_neg (by rw [hrelnf]; simp)]
    have hcur2q : curOf pol st2.kb q.id = curOf pol st.kb q.id := by
      rw [hkb2]
      exact curOf_eq_of_prefixComps pol _ st.kb q.id q.id
        (prefixComps_splice st.kb hinv.nodup hmemn hrelnf
          (List.mem_map_of_mem Node.id hqmem) hnq n2.id)
    have hn2mem2 : n2 ∈ P ++ n :: q :: Qr := by rw [← heq]; exact hn2mem
    have hmain : ∃ SUF, sufFrom st2.kb (some q.id) = SUF ∧
        (∀ i, i ∈ (q :: Qr).map Node.id → i ∈ SUF.map Node.id) ∧
        SUF.length + unsettledCount env pol pk st2.kb SUF <
          (n :: q :: Qr).length + unsettledCount env pol pk st.kb (n :: q :: Qr) := by
      rcases List.mem_append.mp hn2mem2 with hn2P | hn2nQ
      · obtain ⟨P1, n2x, P2, heqP, hn2xid, hP1⟩ :=
          exists_split P n2.id (List.mem_map_of_mem Node.id hn2P)
        have hn2xeq : n2x = n2 := nodes_eq_of_id st.kb hinv.nodup
          (by rw [heq, heqP]; simp) hn2mem hn2xid
        rw [hn2xeq] at heqP
        have hkb2eq : st2.kb = P1 ++ n2 :: n :: (P2 ++ q :: Qr) := by
          rw [hkb2, herase, heqP,
            show (P1 ++ n2 :: P2) ++ q :: Qr = P1 ++ n2 :: (P2 ++ q :: Qr) by simp]
          exact insertAfterId_split P1 (P2 ++ q :: Qr) n2 n2.id n rfl hP1
        have hpreq : ∀ m ∈ P1 ++ n2 :: n :: P2, m.id ≠ q.id := by
          intro m hm hc
          apply hqnotin
          rw [← hc]
          apply List.mem_map_of_mem Node.id
          rw [heqP]
          simp only [List.mem_append, List.mem_cons, List.mem_singleton] at hm ⊢
          tauto
        refine ⟨q :: Qr, ?_, fun i hi => hi, ?_⟩
        · unfold sufFrom
          rw [hkb2eq,
            show P1 ++ n2 :: n :: (P2 ++ q :: Qr) = (P1 ++ n2 :: n :: P2) ++ q :: Qr
              by simp]
          exact dropWhile_split (P1 ++ n2 :: n :: P2) Qr q q.id rfl hpreq
        · have e4 := hcount2 (q :: Qr) hQsub hQne
          rw [e4, hcountn]
          simp only [List.length_cons]
          omega
      · rcases List.mem_cons.mp hn2nQ with hEq | hn2Q
        · exact absurd (congrArg Node.id hEq) hn2n
        · obtain ⟨Q1, n2x, Q2q, heqQ, hn2xid, hQ1⟩ :=
            exists_split (q :: Qr) n2.id (List.mem_map_of_mem Node.id hn2Q)
          have hn2xeq : n2x = n2 := nodes_eq_of_id st.kb hinv.nodup
            (by rw [heq, heqQ]; simp) hn2mem hn2xid
          rw [hn2xeq] at heqQ
          have hn2notPn : ∀ m ∈ P ++ n :: Q1, m.id ≠ n2.id := by
            intro m hm hc
            apply (nodup_middle_notin st.kb (P ++ n :: Q1) Q2q n2 hinv.nodup
              (by rw [heq, heqQ]; simp)).1
            rw [← hc]
            exact List.mem_map_of_mem Node.id hm
          have hkb2eq : st2.kb = (P ++ Q1) ++ n2 :: n :: Q2q := by
            rw [hkb2, herase, heqQ,
              show P ++ (Q1 ++ n2 :: Q2q) = (P ++ Q1) ++ n2 :: Q2q by simp]
            refine insertAfterId_split (P ++ Q1) Q2q n2 n2.id n rfl ?_
            intro m hm
            apply hn2notPn
            simp only [List.mem_append, List.mem_cons] at hm ⊢
            tauto
          have hQQ : Q1 ++ n2 :: Q2q = q :: Qr := heqQ.symm
          have hW : ∃ W2, Q1 ++ n2 :: n :: Q2q = q :: W2 := by
            cases Q1 with
            | nil =>
              simp only [List.nil_append] at hQQ ⊢
              injection hQQ with h1 h2
              exact ⟨n :: Q2q, by rw [h1]⟩
            | cons q1 Q1t =>
              simp only [List.cons_append] at hQQ ⊢
              injection hQQ with h1 h2
              exact ⟨Q1t ++ n2 :: n :: Q2q, by rw [h1]⟩
          obtain ⟨W2, hWeq⟩ := hW
          have hsuf2 : sufFrom st2.kb (some q.id) = q :: W2 := by
            unfold sufFrom
            rw [hkb2eq,
              show (P ++ Q1) ++ n2 :: n :: Q2q = P ++ (Q1 ++ n2 :: n :: Q2q) by simp,
              hWeq]
            exact dropWhile_split P W2 q q.id rfl hPq
          have hsufperm : (q :: W2).Perm (n :: q :: Qr) := by
            rw [← hWeq, ← hQQ]
            have h2 : ((Q1 ++ [n2]) ++ n :: Q2q).Perm (n :: ((Q1 ++ [n2]) ++ Q2q)) :=
              List.perm_middle
            simpa using h2
          refine ⟨q :: W2, hsuf2, ?_, ?_⟩
          · intro i hi
            apply ((hsufperm.map Node.id).mem_iff).mpr
            simp only [List.map_cons, List.mem_cons] at hi ⊢
            tauto
          · have e1 : (q :: W2).length = (n :: q :: Qr).length := hsufperm.length_eq
            have e2 : unsettledCount env pol pk st2.kb (q :: W2) =
                unsettledCount env pol pk st2.kb (n :: q :: Qr) := by
              unfold unsettledCount
              exact filter_perm_length _ _ _ hsufperm
            have e3 : unsettledCount env pol pk st2.kb (n :: q :: Qr) =
                unsettledCount env pol pk st2.kb (q :: Qr) := by
              unfold unsettledCount
              rw [List.filter_cons_of_neg (by
                show ¬ ((liveSig n && !settledB env pol pk st2.kb n) = true)
                rw [hlive_n, hsetn2]
                simp)]
            have e4 := hcount2 (q :: Qr) hQsub hQne
            rw [e1, e2, e3, e4, hcountn]
            simp only [List.length_cons]
            omega
    obtain ⟨SUF, hsuf2, hsub, hlt⟩ := hmain
    constructor
    · refine ⟨hnd2, ?_, ?_, ?_, hreordN, hreordS, ?_⟩
      · intro c hc
        injection hc with hc
        rw [← hc]
        exact List.mem_map_of_mem Node.id (hperm.mem_iff.mpr hqmem)
      · intro c hc
        injection hc with hc
        rw [hcur2, ← hc, hcur2q, hcurq]
        exact hinv.curok cid rfl
      · intro m hm hliv hnot
        rw [hsuf2] at hnot
        apply hset2 m hm hliv
        intro hc
        exact hnot (hsub m.id hc)
      · intro m hm hdel hpkp hnot
        rw [hsuf2] at hnot
        exact hpk2 m hm hdel hpkp (fun hc => hnot (hsub m.id hc))
    · unfold pMeasure
      rw [hsuf, hsuf2]
      exact hlt


theorem relevantB_deleted (m : Node) (h : m.deleted = true) : relevantB m = false := by
  unfold relevantB
  rw [h]
  rfl

theorem relevantB_true_of (m : Node) (hdel : m.deleted = false)
    (hc : compPacket m.pkt = true) : relevantB m = true := by
  unfold relevantB
  rw [hdel, hc]
  rfl

theorem curStep_irrelevant (pol : Pol) (acc : Option Node) (m : Node)
    (h : relevantB m = false) : curStep pol acc m = acc := by
  unfold curStep
  rw [if_neg (by rw [h]; simp)]

theorem curStep_relevant (pol : Pol) (acc : Option Node) (m : Node)
    (h : relevantB m = true) : curStep pol acc m = selRes pol m := by
  unfold curStep
  rw [if_pos h]

theorem placeLoop_step_del (env : Env) (pol : Pol) (pk : PublicKey) (hid : Nat)
    (fuel : Nat) (st : PState) (cid : Nat) (n : Node)
    (hfind : findId st.kb cid = some n) (hdel : n.deleted = true) :
    placeLoop env pol pk hid (fuel + 1) st (some cid) =
      placeLoop env pol pk hid fuel st (succId st.kb cid) := by
  rw [placeLoop_found env pol pk hid fuel st cid n hfind, if_pos hdel]

theorem placeLoop_step_ok (env : Env) (pol : Pol) (pk : PublicKey) (hid : Nat)
    (fuel : Nat) (st : PState) (cid : Nat) (n : Node) (st2 : PState)
    (hfind : findId st.kb cid = some n) (hdel : n.deleted = false)
    (hproc : processNode env pol pk hid st n = .ok st2) :
    placeLoop env pol pk hid (fuel + 1) st (some cid) =
      placeLoop env pol pk hid fuel st2 (succId st.kb cid) := by
  rw [placeLoop_found env pol pk hid fuel st cid n hfind,
    if_neg (by rw [hdel]; simp), hproc]

theorem placeLoop_step_abort (env : Env) (pol : Pol) (pk : PublicKey) (hid : Nat)
    (fuel : Nat) (st : PState) (cid : Nat) (n : Node)
    (hfind : findId st.kb cid = some n) (hdel : n.deleted = false)
    (hproc : processNode env pol pk hid st n = .abort) :
    placeLoop env pol pk hid (fuel + 1) st (some cid) = .abort := by
  rw [placeLoop_found env pol pk hid fuel st cid n hfind,
    if_neg (by rw [hdel]; simp), hproc]

/-- Master lemma of the placement traversal: under the loop invariant, with
fuel exceeding the measure, the loop never runs out of fuel, and a normal
completion delivers the final-state facts. -/
theorem placeLoop_master (env : Env) (pol : Pol) (pk : PublicKey) (hid : Nat) :
    ∀ (fuel : Nat) (st : PState) (cur : Option Nat),
      LoopInv env pol pk hid st cur →
      pMeasure env pol pk st.kb cur < fuel →
      placeLoop env pol pk hid fuel st cur ≠ LoopRes.fuelOut ∧
      (∀ r, placeLoop env pol pk hid fuel st cur = LoopRes.ok r →
        PlaceFinal env pol pk hid r) := by
  intro fuel
  induction fuel with
  | zero =>
    intro st cur hinv hm
    exact absurd hm (Nat.not_lt_zero _)
  | succ fuel ih =>
    intro st cur hinv hm
    cases cur with
    | none =>
      rw [placeLoop_none]
      refine ⟨(by intro hc; cases hc), ?_⟩
      intro r hr
      injection hr with hr
      subst hr
      refine ⟨hinv.nodup, ?_, hinv.reordNodup, ?_⟩
      · intro m hmem hlive
        exact hinv.settled m hmem hlive (by simp [sufFrom])
      · intro m hmem hdel hpkp
        exact hinv.pkhead m hmem hdel hpkp (by simp [sufFrom])
    | some cid =>
      obtain ⟨n, hfind, hnmem, hnid⟩ := findId_of_mem_ids st.kb cid (hinv.curmem cid rfl)
      have hcurok := hinv.curok cid rfl
      by_cases hdel : n.deleted = true
      · rw [placeLoop_step_del env pol pk hid fuel st cid n hfind hdel]
        have hstep := inv_step_keep env pol pk hid st st cid n hinv hfind rfl rfl
          (by
            rw [curStep_irrelevant pol _ n (relevantB_deleted n hdel)]
            exact hcurok)
          (by intro hl; simp [liveSig, hdel] at hl)
          (by intro hd _; rw [hdel] at hd; cases hd)
        exact ih st _ hstep.1 (by have h2 := hstep.2; omega)
      · have hdelf : n.deleted = false := by
          cases hb : n.deleted
          · rfl
          · exact absurd hb hdel
        cases hp : n.pkt with
        | publicKey q =>
          by_cases hhid : n.id = hid
          · have hproc : processNode env pol pk hid st n = .ok { st with
                cur := if pol.only_selected && !n.selkey then none else some n } := by
              rw [processNode_publicKey env pol pk hid st n q hp,
                if_neg (by simp [hhid])]
            rw [placeLoop_step_ok env pol pk hid fuel st cid n _ hfind hdelf hproc]
            have hstep := inv_step_keep env pol pk hid st { st with
                cur := if pol.only_selected && !n.selkey then none else some n }
              cid n hinv hfind rfl rfl
              (by
                rw [curStep_relevant pol _ n (relevantB_true_of n hdelf
                  (by unfold compPacket; rw [hp]))]
                show (if pol.only_selected && !n.selkey then none else some n :
                  Option Node) = selRes pol n
                unfold selRes
                rw [hp])
              (by intro hl; simp [liveSig, sigNode, hp] at hl)
              (fun _ _ => hhid)
            exact ih _ _ hstep.1 (by have h2 := hstep.2; omega)
          · have hproc : processNode env pol pk hid st n = .abort := by
              rw [processNode_publicKey env pol pk hid st n q hp, if_pos hhid]
            rw [placeLoop_step_abort env pol pk hid fuel st cid n hfind hdelf hproc]
            exact ⟨(by intro hc; cases hc), (by intro r hr; cases hr)⟩
        | publicSubkey q =>
          have hproc : processNode env pol pk hid st n = .ok { st with
              cur := if pol.only_selected && !n.selkey then none else some n } :=
            processNode_publicSubkey env pol pk hid st n q hp
          rw [placeLoop_step_ok env pol pk hid fuel st cid n _ hfind hdelf hproc]
          have hstep := inv_step_keep env pol pk hid st { st with
              cur := if pol.only_selected && !n.selkey then none else some n }
            cid n hinv hfind rfl rfl
            (by
              rw [curStep_relevant pol _ n (relevantB_true_of n hdelf
                (by unfold compPacket; rw [hp]))]
              show (if pol.only_selected && !n.selkey then none else some n :
                Option Node) = selRes pol n
              unfold selRes
              rw [hp])
            (by intro hl; simp [liveSig, sigNode, hp] at hl)
            (by intro _ hpkp; unfold pkPacket at hpkp; rw [hp] at hpkp; cases hpkp)
          exact ih _ _ hstep.1 (by have h2 := hstep.2; omega)
        | userId name =>
          have hproc : processNode env pol pk hid st n = .ok { st with
              cur := if pol.only_selected && !n.seluid then none else some n } :=
            processNode_userId env pol pk hid st n name hp
          rw [placeLoop_step_ok env pol pk hid fuel st cid n _ hfind hdelf hproc]
          have hstep := inv_step_keep env pol pk hid st { st with
              cur := if pol.only_selected && !n.seluid then none else some n }
            cid n hinv hfind rfl rfl
            (by
              rw [curStep_relevant pol _ n (relevantB_true_of n hdelf
                (by unfold compPacket; rw [hp]))]
              show (if pol.only_selected && !n.seluid then none else some n :
                Option Node) = selRes pol n
              unfold selRes
              rw [hp])
            (by intro hl; simp [liveSig, sigNode, hp] at hl)
            (by intro _ hpkp; unfold pkPacket at hpkp; rw [hp] at hpkp; cases hpkp)
          exact ih _ _ hstep.1 (by have h2 := hstep.2; omega)
        | other tag =>
          have hproc : processNode env pol pk hid st n = .ok st :=
            processNode_other env pol pk hid st n tag hp
          rw [placeLoop_step_ok env pol pk hid fuel st cid n st hfind hdelf hproc]
          have hrelf : relevantB n = false := by
            unfold relevantB compPacket
            rw [hp]
            simp
          have hstep := inv_step_keep env pol pk hid st st cid n hinv hfind rfl rfl
            (by rw [curStep_irrelevant pol _ n hrelf]; exact hcurok)
            (by intro hl; simp [liveSig, sigNode, hp] at hl)
            (by intro _ hpkp; unfold pkPacket at hpkp; rw [hp] at hpkp; cases hpkp)
          exact ih st _ hstep.1 (by have h2 := hstep.2; omega)
        | signature s =>
          have hcurn : st.cur = curOf pol st.kb n.id := by rw [hnid]; exact hcurok
          have hsignn : sigNode n = true := by unfold sigNode; rw [hp]
          by_cases hset : settledB env pol pk st.kb n = true
          · obtain ⟨st2, hps, hk, hc, hr, hmod⟩ :=
              settled_no_splice env pol pk st n s hp hcurn hset
            have hproc : processNode env pol pk hid st n = .ok st2 := by
              rw [processNode_signature env pol pk hid st n s hp]
              exact hps
            rw [placeLoop_step_ok env pol pk hid fuel st cid n st2 hfind hdelf hproc]
            have hstep := inv_step_keep env pol pk hid st st2 cid n hinv hfind hk hr
              (by
                rw [hc, curStep_irrelevant pol _ n (sig_not_relevant n hsignn)]
                exact hcurok)
              (fun _ => hset)
              (by intro _ hpkp; unfold pkPacket at hpkp; rw [hp] at hpkp; cases hpkp)
            exact ih st2 _ hstep.1 (by have h2 := hstep.2; omega)
          · have hsetf : settledB env pol pk st.kb n = false := by
              cases hb : settledB env pol pk st.kb n
              · rfl
              · exact absurd hb hset
            rcases processSig_unsettled env pol pk st n s hp hnmem hinv.nodup hcurn hsetf
              with habort | ⟨u, n2, hu, hn2mem, hn2del, hn2n, hrel, hv, hps⟩
            · have hproc : processNode env pol pk hid st n = .abort := by
                rw [processNode_signature env pol pk hid st n s hp]
                exact habort
              rw [placeLoop_step_abort env pol pk hid fuel st cid n hfind hdelf hproc]
              exact ⟨(by intro hc; cases hc), (by intro r hr; cases hr)⟩
            · have hproc : processNode env pol pk hid st n = .ok { st with
                  kb := insertAfterId (eraseId st.kb n.id) n2.id n,
                  reorderedIds := st.reorderedIds ++ [n.id],
                  modified := true } := by
                rw [processNode_signature env pol pk hid st n s hp]
                exact hps
              rw [placeLoop_step_ok env pol pk hid fuel st cid n _ hfind hdelf hproc]
              have hstep := inv_step_splice env pol pk hid st { st with
                  kb := insertAfterId (eraseId st.kb n.id) n2.id n,
                  reorderedIds := st.reorderedIds ++ [n.id],
                  modified := true } cid n n2 s u hinv hfind
                hdelf hp hsetf hu hn2mem hn2del hn2n hrel hv rfl rfl rfl
              exact ih _ _ hstep.1 (by have h2 := hstep.2; omega)


theorem dupPass_sublist (env : Env) (kb : List Node) : (dupPass env kb).1.Sublist kb := by
  simp only [dupPass]
  exact List.filter_sublist kb

theorem dupPass_nodup (env : Env) (kb : List Node) (hnd : (kb.map Node.id).Nodup) :
    ((dupPass env kb).1.map Node.id).Nodup :=
  hnd.sublist ((dupPass_sublist env kb).map Node.id)

/-- The (non-signature) head of the keyblock survives the duplicate pass as
head of the filtered keyblock. -/
theorem dupPass_head (env : Env) (hk : Node) (K : List Node)
    (hnd : (((hk :: K)).map Node.id).Nodup) (hlive : liveSig hk = false) :
    ∃ T, (dupPass env (hk :: K)).1 = hk :: T := by
  simp only [dupPass]
  rw [List.filter_cons_of_pos (by
    have h := not_killed_of_not_liveSig env (hk :: K) hnd (by simp) hlive
    simp [h])]
  exact ⟨_, rfl⟩

theorem sufFrom_head (kb : List Node) (hk : Node) (T : List Node)
    (h : kb = hk :: T) : sufFrom kb (some hk.id) = kb := by
  subst h
  show List.dropWhile (fun m => m.id != hk.id) (hk :: T) = hk :: T
  rw [List.dropWhile_cons, if_neg (by simp)]

theorem curOf_head (pol : Pol) (kb : List Node) (hk : Node) (T : List Node)
    (h : kb = hk :: T) : curOf pol kb hk.id = none := by
  subst h
  unfold curOf
  rw [List.takeWhile_cons, if_neg (by simp)]
  rfl

/-- The loop invariant holds at entry of the placement pass. -/
theorem inv_entry (env : Env) (pol : Pol) (pk : PublicKey) (hk : Node)
    (T : List Node) (b : Bool)
    (hnd : (((hk :: T)).map Node.id).Nodup) :
    LoopInv env pol pk hk.id ⟨hk :: T, none, [], [], [], b⟩ (some hk.id) := by
  refine ⟨hnd, ?_, ?_, ?_, List.nodup_nil, ?_, ?_⟩
  · intro c hc
    injection hc with hc
    rw [← hc]
    simp
  · intro c hc
    injection hc with hc
    rw [← hc]
    show (none : Option Node) = curOf pol (hk :: T) hk.id
    rw [curOf_head pol (hk :: T) hk T rfl]
  · intro m hm hlive hnot
    exfalso
    apply hnot
    rw [sufFrom_head (hk :: T) hk T rfl]
    exact List.mem_map_of_mem Node.id hm
  · intro m hm hmr
    cases hmr
  · intro m hm hdel hpkp hnot
    exfalso
    apply hnot
    rw [sufFrom_head (hk :: T) hk T rfl]
    exact List.mem_map_of_mem Node.id hm

/-- The measure never exceeds twice the keyblock length, so the fuel
`2 * length + 1` always suffices. -/
theorem pMeasure_le (env : Env) (pol : Pol) (pk : PublicKey) (kb : List Node)
    (cur : Option Nat) : pMeasure env pol pk kb cur ≤ 2 * kb.length := by
  unfold pMeasure unsettledCount
  have h1 : (sufFrom kb cur).length ≤ kb.length := by
    cases cur with
    | none => simp [sufFrom]
    | some i =>
      unfold sufFrom
      exact (List.dropWhile_sublist _).length_le
  have h2 : ((sufFrom kb cur).filter
      (fun m => liveSig m && !settledB env pol pk kb m)).length ≤
      (sufFrom kb cur).length :=
    (List.filter_sublist _).length_le
  omega

/-- Unfolding of `keyCheckAllKeysigs` in the main (signatures present,
allocation succeeded) branch. -/
theorem keyCheck_split (env : Env) (pol : Pol) (hk : Node) (K : List Node)
    (pkk : PublicKey) (hpk : hk.pkt = .publicKey pkk)
    (hns : ((hk :: K).filter liveSig).length = 0 → False)
    (hal : env.alloc_ok = true) :
    keyCheckAllKeysigs env pol (hk :: K) =
      (match placeLoop env pol pkk hk.id (2 * (dupPass env (hk :: K)).1.length + 1)
          ⟨(dupPass env (hk :: K)).1, none, [], [], [], !(dupPass env (hk :: K)).2.isEmpty⟩
          (some hk.id) with
       | .fuelOut => .fuelOut
       | .abort => .abort
       | .ok st => .ok ⟨(if st.modified then 1 else 0), st.kb, (dupPass env (hk :: K)).2,
            st.missingIssuerIds, st.badIds, st.reorderedIds,
            auditLoop pkk st.kb none false 0, st.modified⟩) := by
  have h1 : keyCheckAllKeysigs env pol (hk :: K) =
      (if ((hk :: K).filter liveSig).length = 0 then
        .ok ⟨0, hk :: K, [], [], [], [], 0, false⟩
      else if env.alloc_ok = false then
        .ok ⟨0, hk :: K, [], [], [], [], 0, false⟩
      else
        match placeLoop env pol pkk hk.id (2 * (dupPass env (hk :: K)).1.length + 1)
            ⟨(dupPass env (hk :: K)).1, none, [], [], [], !(dupPass env (hk :: K)).2.isEmpty⟩
            (some hk.id) with
        | .fuelOut => .fuelOut
        | .abort => .abort
        | .ok st => .ok ⟨(if st.modified then 1 else 0), st.kb, (dupPass env (hk :: K)).2,
             st.missingIssuerIds, st.badIds, st.reorderedIds,
             auditLoop pkk st.kb none false 0, st.modified⟩) := by
    have h0 : keyCheckAllKeysigs env pol (hk :: K) =
        (match hk.pkt with
         | Packet.publicKey pkx =>
           if ((hk :: K).filter liveSig).length = 0 then
             .ok ⟨0, hk :: K, [], [], [], [], 0, false⟩
           else if env.alloc_ok = false then
             .ok ⟨0, hk :: K, [], [], [], [], 0, false⟩
           else
             match placeLoop env pol pkx hk.id (2 * (dupPass env (hk :: K)).1.length + 1)
                 ⟨(dupPass env (hk :: K)).1, none, [], [], [],
                   !(dupPass env (hk :: K)).2.isEmpty⟩
                 (some hk.id) with
             | .fuelOut => .fuelOut
             | .abort => .abort
             | .ok st => .ok ⟨(if st.modified then 1 else 0), st.kb,
                  (dupPass env (hk :: K)).2,
                  st.missingIssuerIds, st.badIds, st.reorderedIds,
                  auditLoop pkx st.kb none false 0, st.modified⟩
         | _ => .abort) := rfl
    rw [h0, hpk]
  rw [h1, if_neg hns, if_neg (by rw [hal]; simp)]


theorem findTarget_mem (env : Env) (u : PublicKey) (s : Sig) (kb : List Node)
    (cur : Node) (n2 : Node) (h : findTarget env u s kb cur = some n2) :
    n2 = cur ∨ n2 ∈ kb := by
  unfold findTarget at h
  split at h
  · left
    injection h with h
    exact h.symm
  · right
    exact List.mem_of_find?_eq_some h

/-- Classification of the outcomes of `processSigWith`. -/
theorem processSigWith_cases (env : Env) (st : PState) (n : Node) (s : Sig)
    (u : PublicKey) (c : Node) (st2 : PState)
    (h : processSigWith env st n s u c = .ok st2) :
    st2 = st ∨
    st2 = { st with badIds := st.badIds ++ [n.id] } ∨
    (∃ n2, n2 ∈ st.kb ∧ st2 = { st with
        kb := insertAfterId (eraseId st.kb n.id) n2.id n,
        reorderedIds := st.reorderedIds ++ [n.id],
        modified := true }) := by
  unfold processSigWith at h
  by_cases h1 : env.pk_algo_ok s.pubkey_algo = false
  · rw [if_pos h1] at h
    left
    injection h with h
    exact h.symm
  · rw [if_neg h1] at h
    by_cases h2 : env.md_algo_ok s.digest_algo = false
    · rw [if_pos h2] at h
      left
      injection h with h
      exact h.symm
    · rw [if_neg h2] at h
      cases hft : findTarget env u s st.kb c with
      | none =>
        rw [hft] at h
        simp only [] at h
        right; left
        injection h with h
        exact h.symm
      | some n2 =>
        rw [hft] at h
        simp only [] at h
        by_cases h3 : n2.id = c.id
        · rw [if_pos h3] at h
          left
          injection h with h
          exact h.symm
        · rw [if_neg h3] at h
          by_cases h4 : compPacket n2.pkt = true
          · rw [if_pos h4] at h
            right; right
            refine ⟨n2, ?_, by injection h with h; exact h.symm⟩
            have hft2 := hft
            unfold findTarget at hft2
            by_cases h5 : env.verify u s c.pkt = true
            · rw [if_pos h5] at hft2
              injection hft2 with hft2
              exact absurd (hft2 ▸ rfl : n2.id = c.id) h3
            · rw [if_neg h5] at hft2
              exact List.mem_of_find?_eq_some hft2
          · rw [if_neg h4] at h
            cases h

/-- Classification of the outcomes of `processNode`: a step that touches no
counter, a missing-issuer step, a bad-signature step, or a splice. -/
theorem processNode_cases (env : Env) (pol : Pol) (pk : PublicKey) (hid : Nat)
    (st : PState) (n : Node) (st2 : PState)
    (h : processNode env pol pk hid st n = .ok st2) :
    (st2.kb = st.kb ∧ st2.missingIssuerIds = st.missingIssuerIds ∧
     st2.badIds = st.badIds ∧ st2.reorderedIds = st.reorderedIds ∧
     st2.modified = st.modified) ∨
    (∃ s, n.pkt = .signature s ∧ pk.keyid ≠ s.keyid ∧ pol.only_selfsigs = false ∧
      st2 = { st with missingIssuerIds := st.missingIssuerIds ++ [n.id] }) ∨
    (∃ s, n.pkt = .signature s ∧ (pol.only_selfsigs = true → pk.keyid = s.keyid) ∧
      st2 = { st with badIds := st.badIds ++ [n.id] }) ∨
    (∃ s n2, n.pkt = .signature s ∧ (pol.only_selfsigs = true → pk.keyid = s.keyid) ∧
      n2 ∈ st.kb ∧ st2 = { st with
        kb := insertAfterId (eraseId st.kb n.id) n2.id n,
        reorderedIds := st.reorderedIds ++ [n.id],
        modified := true }) := by
  cases hp : n.pkt with
  | publicKey q =>
    rw [processNode_publicKey env pol pk hid st n q hp] at h
    by_cases hh : n.id ≠ hid
    · rw [if_pos hh] at h
      cases h
    · rw [if_neg hh] at h
      injection h with h
      subst h
      exact Or.inl ⟨rfl, rfl, rfl, rfl, rfl⟩
  | publicSubkey q =>
    rw [processNode_publicSubkey env pol pk hid st n q hp] at h
    injection h with h
    subst h
    exact Or.inl ⟨rfl, rfl, rfl, rfl, rfl⟩
  | userId name =>
    rw [processNode_userId env pol pk hid st n name hp] at h
    injection h with h
    subst h
    exact Or.inl ⟨rfl, rfl, rfl, rfl, rfl⟩
  | other tag =>
    rw [processNode_other env pol pk hid st n tag hp] at h
    injection h with h
    subst h
    exact Or.inl ⟨rfl, rfl, rfl, rfl, rfl⟩
  | signature s =>
    rw [processNode_signature env pol pk hid st n s hp] at h
    cases hc : st.cur with
    | none =>
      rw [processSig_none env pol pk st n s hc] at h
      injection h with h
      subst h
      exact Or.inl ⟨rfl, rfl, rfl, rfl, rfl⟩
    | some c =>
      rw [processSig_some env pol pk st n s c hc] at h
      rw [← hc]
      by_cases hk : pk.keyid = s.keyid
      · rw [if_pos hk] at h
        rcases processSigWith_cases env st n s pk c st2 h with h1 | h1 | ⟨n2, hmm2, h1⟩
        · subst h1
          exact Or.inl ⟨rfl, rfl, rfl, rfl, rfl⟩
        · right; right; left
          exact ⟨s, rfl, fun _ => hk, h1⟩
        · right; right; right
          exact ⟨s, n2, rfl, fun _ => hk, hmm2, h1⟩
      · rw [if_neg hk] at h
        by_cases hos : pol.only_selfsigs = true
        · rw [if_pos hos] at h
          injection h with h
          subst h
          exact Or.inl ⟨rfl, rfl, rfl, rfl, rfl⟩
        · have hosf : pol.only_selfsigs = false := by
            cases hb : pol.only_selfsigs
            · rfl
            · exact absurd hb hos
          rw [if_neg hos] at h
          cases hg : env.get_pubkey s.keyid with
          | none =>
            rw [hg] at h
            simp only [] at h
            injection h with h
            subst h
            right; left
            exact ⟨s, rfl, hk, hosf, rfl⟩
          | some u =>
            rw [hg] at h
            simp only [] at h
            rcases processSigWith_cases env st n s u c st2 h with h1 | h1 | ⟨n2, hmm2, h1⟩
            · subst h1
              exact Or.inl ⟨rfl, rfl, rfl, rfl, rfl⟩
            · right; right; left
              exact ⟨s, rfl, (fun hx => absurd hx (by rw [hosf]; simp)), h1⟩
            · right; right; right
              exact ⟨s, n2, rfl, (fun hx => absurd hx (by rw [hosf]; simp)), hmm2, h1⟩

/-- A property of the traversal state preserved by every processed node is
preserved by the whole placement loop. -/
theorem placeLoop_pres (env : Env) (pol : Pol) (pk : PublicKey) (hid : Nat)
    (Pr : PState → Prop)
    (hstep : ∀ st cid n st2, findId st.kb cid = some n → n.deleted = false →
      processNode env pol pk hid st n = .ok st2 → Pr st → Pr st2) :
    ∀ (fuel : Nat) (st : PState) (cur : Option Nat) (st' : PState),
      placeLoop env pol pk hid fuel st cur = .ok st' → Pr st → Pr st' := by
  intro fuel
  induction fuel with
  | zero =>
    intro st cur st' h
    rw [placeLoop_zero] at h
    cases h
  | succ fuel ih =>
    intro st cur st' h hP
    cases cur with
    | none =>
      rw [placeLoop_none] at h
      injection h with h
      subst h
      exact hP
    | some cid =>
      cases hfind : findId st.kb cid with
      | none =>
        rw [placeLoop_notfound env pol pk hid fuel st cid hfind] at h
        cases h
      | some n =>
        by_cases hdel : n.deleted = true
        · rw [placeLoop_step_del env pol pk hid fuel st cid n hfind hdel] at h
          exact ih st _ st' h hP
        · have hdelf : n.deleted = false := by
            cases hb : n.deleted
            · rfl
            · exact absurd hb hdel
          cases hproc : processNode env pol pk hid st n with
          | abort =>
            rw [placeLoop_found env pol pk hid fuel st cid n hfind,
              if_neg hdel, hproc] at h
            simp only [] at h
            cases h
          | ok st2 =>
            rw [placeLoop_step_ok env pol pk hid fuel st cid n st2 hfind hdelf hproc] at h
            exact ih st2 _ st' h (hstep st cid n st2 hfind hdelf hproc hP)

theorem isEmpty_append_singleton (l : List Nat) (a : Nat) :
    (l ++ [a]).isEmpty = false := by
  cases l <;> rfl

theorem splice_head (kb : List Node) {t : Node} (j : Nat)
    (x : Node) (hx : kb.head? = some x) (hxt : x.id ≠ t.id) :
    (insertAfterId (eraseId kb t.id) j t).head? = some x := by
  cases kb with
  | nil => cases hx
  | cons y ys =>
    injection hx with hx
    subst hx
    have he : eraseId (y :: ys) t.id = y :: eraseId ys t.id := by
      simp only [eraseId]
      rw [if_neg hxt]
    rw [he]
    unfold insertAfterId
    split <;> rfl

/-- Bookkeeping invariant threaded through the placement pass: the keyblock
stays a permutation of the input with the same head, the modified flag equals
"duplicates were removed or a signature was reordered so far", the
bad-signature and reordered lists name live signatures of the keyblock (in
self-signatures-only mode, only self-signatures), and self-signatures-only
mode never records a missing issuer. -/
def TrackInv (env : Env) (pol : Pol) (pk : PublicKey) (kb0 : List Node)
    (b0 : Bool) (st : PState) : Prop :=
  (st.kb.map Node.id).Nodup ∧
  st.kb.Perm kb0 ∧
  st.kb.head? = kb0.head? ∧
  st.modified = (b0 || !st.reorderedIds.isEmpty) ∧
  (∀ i ∈ st.badIds, ∃ m ∈ st.kb, m.id = i ∧ liveSig m = true ∧
     (pol.only_selfsigs = true → pk.keyid = (sigOf m).keyid)) ∧
  (pol.only_selfsigs = true → st.missingIssuerIds = []) ∧
  (∀ i ∈ st.reorderedIds, ∃ m ∈ st.kb, m.id = i ∧ liveSig m = true ∧
     (pol.only_selfsigs = true → pk.keyid = (sigOf m).keyid))

theorem TrackInv_step (env : Env) (pol : Pol) (pk : PublicKey) (hid : Nat)
    (kb0 : List Node) (b0 : Bool)
    (hhead : ∀ x, kb0.head? = some x → sigNode x = false) :
    ∀ (st : PState) (cid : Nat) (n : Node) (st2 : PState),
      findId st.kb cid = some n → n.deleted = false →
      processNode env pol pk hid st n = .ok st2 →
      TrackInv env pol pk kb0 b0 st → TrackInv env pol pk kb0 b0 st2 := by
  intro st cid n st2 hfind hdel hproc hT
  obtain ⟨hnd, hperm, hhd, hmod, hbad, hmiss, hreord⟩ := hT
  have hnmem : n ∈ st.kb := (findId_some _ _ _ hfind).1
  rcases processNode_cases env pol pk hid st n st2 hproc with
    ⟨e1, e2, e3, e4, e5⟩ | ⟨s, hp, hk, hos, he⟩ | ⟨s, hp, hk, he⟩ |
    ⟨s, n2, hp, hk, hm2, he⟩
  · refine ⟨?_, ?_, ?_, ?_, ?_, ?_, ?_⟩
    · rw [e1]; exact hnd
    · rw [e1]; exact hperm
    · rw [e1]; exact hhd
    · rw [e5, e4]; exact hmod
    · rw [e3, e1]
      exact hbad
    · rw [e2]; exact hmiss
    · rw [e4, e1]
      exact hreord
  · subst he
    refine ⟨hnd, hperm, hhd, hmod, hbad, ?_, hreord⟩
    intro hx
    exact absurd hx (by rw [hos]; simp)
  · subst he
    refine ⟨hnd, hperm, hhd, hmod, ?_, hmiss, hreord⟩
    intro i hi
    rcases List.mem_append.mp hi with h1 | h1
    · exact hbad i h1
    · have hieq : i = n.id := List.mem_singleton.mp h1
      refine ⟨n, hnmem, hieq.symm, ?_, ?_⟩
      · unfold liveSig
        rw [hdel]
        unfold sigNode
        rw [hp]
        rfl
      · intro hx
        have hsn : sigOf n = s := by unfold sigOf; rw [hp]
        rw [hsn]
        exact hk hx
  · subst he
    have hsign : sigNode n = true := by unfold sigNode; rw [hp]
    have hlive : liveSig n = true := by
      unfold liveSig
      rw [hdel, hsign]
      rfl
    have hperm2 : (insertAfterId (eraseId st.kb n.id) n2.id n).Perm st.kb :=
      splice_perm st.kb hnd hnmem n2.id
    refine ⟨?_, ?_, ?_, ?_, ?_, hmiss, ?_⟩
    · exact splice_nodup st.kb hnd hnmem n2.id
    · exact hperm2.trans hperm
    · cases hkb : st.kb with
      | nil =>
        rw [hkb] at hfind
        cases hfind
      | cons x xs =>
        rw [← hkb]
        have hxh : st.kb.head? = some x := by rw [hkb]; rfl
        have hxs : sigNode x = false := hhead x (by rw [← hhd]; exact hxh)
        have hxn : x.id ≠ n.id := by
          intro hcc
          have hxm : x ∈ st.kb := by rw [hkb]; simp
          have : x = n := nodes_eq_of_id st.kb hnd hxm hnmem hcc
          rw [this, hsign] at hxs
          cases hxs
        show (insertAfterId (eraseId st.kb n.id) n2.id n).head? = kb0.head?
        rw [splice_head st.kb n2.id x hxh hxn, ← hhd, hxh]
    · show true = (b0 || !(st.reorderedIds ++ [n.id]).isEmpty)
      rw [isEmpty_append_singleton]
      simp
    · intro i hi
      obtain ⟨m, hmm3, h1, h2, h3⟩ := hbad i hi
      exact ⟨m, hperm2.mem_iff.mpr hmm3, h1, h2, h3⟩
    · intro i hi
      rcases List.mem_append.mp hi with h1 | h1
      · obtain ⟨m, hmm3, ha, hb, hc⟩ := hreord i h1
        exact ⟨m, hperm2.mem_iff.mpr hmm3, ha, hb, hc⟩
      · have hieq : i = n.id := List.mem_singleton.mp h1
        refine ⟨n, hperm2.mem_iff.mpr hnmem, hieq.symm, hlive, ?_⟩
        intro hx
        have hsn : sigOf n = s := by unfold sigOf; rw [hp]
        rw [hsn]
        exact hk hx


/-- On a keyblock whose live signatures are all settled and whose non-deleted
primary-key nodes all carry the head id, the placement loop completes without
abort and changes neither the keyblock nor the reorder list nor the modified
flag. -/
theorem placeLoop_stable (env : Env) (pol : Pol) (pk : PublicKey) (hid : Nat) :
    ∀ (fuel : Nat) (st : PState) (cur : Option Nat),
      LoopInv env pol pk hid st cur →
      (∀ m ∈ st.kb, liveSig m = true → settledB env pol pk st.kb m = true) →
      (∀ m ∈ st.kb, m.deleted = false → pkPacket m.pkt = true → m.id = hid) →
      pMeasure env pol pk st.kb cur < fuel →
      ∃ st', placeLoop env pol pk hid fuel st cur = .ok st' ∧
        st'.kb = st.kb ∧ st'.reorderedIds = st.reorderedIds ∧
        st'.modified = st.modified := by
  intro fuel
  induction fuel with
  | zero =>
    intro st cur _ _ _ hm
    exact absurd hm (Nat.not_lt_zero _)
  | succ fuel ih =>
    intro st cur hinv hst hpkh hm
    cases cur with
    | none =>
      exact ⟨st, placeLoop_none env pol pk hid fuel st, rfl, rfl, rfl⟩
    | some cid =>
      obtain ⟨n, hfind, hnmem, hnid⟩ := findId_of_mem_ids st.kb cid (hinv.curmem cid rfl)
      have hcurok := hinv.curok cid rfl
      by_cases hdel : n.deleted = true
      · have hstep := inv_step_keep env pol pk hid st st cid n hinv hfind rfl rfl
          (by rw [curStep_irrelevant pol _ n (relevantB_deleted n hdel)]; exact hcurok)
          (by intro hl; simp [liveSig, hdel] at hl)
          (by intro hd _; rw [hdel] at hd; cases hd)
        obtain ⟨st', h1, h2, h3, h4⟩ := ih st _ hstep.1 hst hpkh
          (by have := hstep.2; omega)
        exact ⟨st',
          by rw [placeLoop_step_del env pol pk hid fuel st cid n hfind hdel]; exact h1,
          h2, h3, h4⟩
      · have hdelf : n.deleted = false := by
          cases hb : n.deleted
          · rfl
          · exact absurd hb hdel
        cases hp : n.pkt with
        | publicKey q =>
          have hhid : n.id = hid := hpkh n hnmem hdelf (by unfold pkPacket; rw [hp])
          have hproc : processNode env pol pk hid st n = .ok { st with
              cur := if pol.only_selected && !n.selkey then none else some n } := by
            rw [processNode_publicKey env pol pk hid st n q hp, if_neg (by simp [hhid])]
          have hstep := inv_step_keep env pol pk hid st { st with
              cur := if pol.only_selected && !n.selkey then none else some n }
            cid n hinv hfind rfl rfl
            (by
              rw [curStep_relevant pol _ n (relevantB_true_of n hdelf
                (by unfold compPacket; rw [hp]))]
              show (if pol.only_selected && !n.selkey then none else some n :
                Option Node) = selRes pol n
              unfold selRes
              rw [hp])
            (by intro hl; simp [liveSig, sigNode, hp] at hl)
            (fun _ _ => hhid)
          obtain ⟨st', h1, h2, h3, h4⟩ := ih _ _ hstep.1 hst hpkh
            (by have := hstep.2; omega)
          exact ⟨st',
            by rw [placeLoop_step_ok env pol pk hid fuel st cid n _ hfind hdelf hproc]
               exact h1,
            h2, h3, h4⟩
        | publicSubkey q =>
          have hproc : processNode env pol pk hid st n = .ok { st with
              cur := if pol.only_selected && !n.selkey then none else some n } :=
            processNode_publicSubkey env pol pk hid st n q hp
          have hstep := inv_step_keep env pol pk hid st { st with
              cur := if pol.only_selected && !n.selkey then none else some n }
            cid n hinv hfind rfl rfl
            (by
              rw [curStep_relevant pol _ n (relevantB_true_of n hdelf
                (by unfold compPacket; rw [hp]))]
              show (if pol.only_selected && !n.selkey then none else some n :
                Option Node) = selRes pol n
              unfold selRes
              rw [hp])
            (by intro hl; simp [liveSig, sigNode, hp] at hl)
            (by intro _ hpkp; unfold pkPacket at hpkp; rw [hp] at hpkp; cases hpkp)
          obtain ⟨st', h1, h2, h3, h4⟩ := ih _ _ hstep.1 hst hpkh
            (by have := hstep.2; omega)
          exact ⟨st',
            by rw [placeLoop_step_ok env pol pk hid fuel st cid n _ hfind hdelf hproc]
               exact h1,
            h2, h3, h4⟩
        | userId name =>
          have hproc : processNode env pol pk hid st n = .ok { st with
              cur := if pol.only_selected && !n.seluid then none else some n } :=
            processNode_userId env pol pk hid st n name hp
          have hstep := inv_step_keep env pol pk hid st { st with
              cur := if pol.only_selected && !n.seluid then none else some n }
            cid n hinv hfind rfl rfl
            (by
              rw [curStep_relevant pol _ n (relevantB_true_of n hdelf
                (by unfold compPacket; rw [hp]))]
              show (if pol.only_selected && !n.seluid then none else some n :
                Option Node) = selRes pol n
              unfold selRes
              rw [hp])
            (by intro hl; simp [liveSig, sigNode, hp] at hl)
            (by intro _ hpkp; unfold pkPacket at hpkp; rw [hp] at hpkp; cases hpkp)
          obtain ⟨st', h1, h2, h3, h4⟩ := ih _ _ hstep.1 hst hpkh
            (by have := hstep.2; omega)
          exact ⟨st',
            by rw [placeLoop_step_ok env pol pk hid fuel st cid n _ hfind hdelf hproc]
               exact h1,
            h2, h3, h4⟩
        | other tag =>
          have hproc : processNode env pol pk hid st n = .ok st :=
            processNode_other env pol pk hid st n tag hp
          have hrelf : relevantB n = false := by
            unfold relevantB compPacket
            rw [hp]
            simp
          have hstep := inv_step_keep env pol pk hid st st cid n hinv hfind rfl rfl
            (by rw [curStep_irrelevant pol _ n hrelf]; exact hcurok)
            (by intro hl; simp [liveSig, sigNode, hp] at hl)
            (by intro _ hpkp; unfold pkPacket at hpkp; rw [hp] at hpkp; cases hpkp)
          obtain ⟨st', h1, h2, h3, h4⟩ := ih st _ hstep.1 hst hpkh
            (by have := hstep.2; omega)
          exact ⟨st',
            by rw [placeLoop_step_ok env pol pk hid fuel st cid n st hfind hdelf hproc]
               exact h1,
            h2, h3, h4⟩
        | signature s =>
          have hcurn : st.cur = curOf pol st.kb n.id := by rw [hnid]; exact hcurok
          have hsignn : sigNode n = true := by unfold sigNode; rw [hp]
          have hliven : liveSig n = true := by
            unfold liveSig
            rw [hdelf, hsignn]
            rfl
          have hset : settledB env pol pk st.kb n = true := hst n hnmem hliven
          obtain ⟨st2, hps, hk2, hc2, hr2, hmod2⟩ :=
            settled_no_splice env pol pk st n s hp hcurn hset
          have hproc : processNode env pol pk hid st n = .ok st2 := by
            rw [processNode_signature env pol pk hid st n s hp]
            exact hps
          have hstep := inv_step_keep env pol pk hid st st2 cid n hinv hfind hk2 hr2
            (by
              rw [hc2, curStep_irrelevant pol _ n (sig_not_relevant n hsignn)]
              exact hcurok)
            (fun _ => hset)
            (by intro _ hpkp; unfold pkPacket at hpkp; rw [hp] at hpkp; cases hpkp)
          obtain ⟨st', h1, h2, h3, h4⟩ := ih st2 _ hstep.1
            (by
              intro m hm2 hl
              rw [hk2] at hm2 ⊢
              exact hst m hm2 hl)
            (by
              intro m hm2 hd hpp
              rw [hk2] at hm2
              exact hpkh m hm2 hd hpp)
            (by have := hstep.2; omega)
          refine ⟨st', ?_, ?_, ?_, ?_⟩
          · rw [placeLoop_step_ok env pol pk hid fuel st cid n st2 hfind hdelf hproc]
            exact h1
          · rw [h2, hk2]
          · rw [h3, hr2]
          · rw [h4, hmod2]


theorem auditLoop_cons_del (pk : PublicKey) (m : Node) (rest : List Node)
    (cur : Option Node) (has : Bool) (acc : Nat) (h : m.deleted = true) :
    auditLoop pk (m :: rest) cur has acc = auditLoop pk rest cur has acc := by
  simp only [auditLoop]
  rw [if_pos h]

theorem auditLoop_cons_pk (pk : PublicKey) (m : Node) (rest : List Node)
    (cur : Option Node) (has : Bool) (acc : Nat) (q : PublicKey)
    (hdel : m.deleted = false) (hp : m.pkt = .publicKey q) :
    auditLoop pk (m :: rest) cur has acc =
      auditLoop pk rest (some m) false
        (acc + (if cur.isSome && !has then 1 else 0)) := by
  simp only [auditLoop]
  rw [if_neg (by rw [hdel]; simp), hp]

theorem auditLoop_cons_sub (pk : PublicKey) (m : Node) (rest : List Node)
    (cur : Option Node) (has : Bool) (acc : Nat) (q : PublicKey)
    (hdel : m.deleted = false) (hp : m.pkt = .publicSubkey q) :
    auditLoop pk (m :: rest) cur has acc =
      auditLoop pk rest (some m) false
        (acc + (if cur.isSome && !has then 1 else 0)) := by
  simp only [auditLoop]
  rw [if_neg (by rw [hdel]; simp), hp]

theorem auditLoop_cons_uid (pk : PublicKey) (m : Node) (rest : List Node)
    (cur : Option Node) (has : Bool) (acc : Nat) (q : Nat)
    (hdel : m.deleted = false) (hp : m.pkt = .userId q) :
    auditLoop pk (m :: rest) cur has acc =
      auditLoop pk rest (some m) false
        (acc + (if cur.isSome && !has then 1 else 0)) := by
  simp only [auditLoop]
  rw [if_neg (by rw [hdel]; simp), hp]

theorem auditLoop_cons_other (pk : PublicKey) (m : Node) (rest : List Node)
    (cur : Option Node) (has : Bool) (acc : Nat) (t : Nat)
    (hdel : m.deleted = false) (hp : m.pkt = .other t) :
    auditLoop pk (m :: rest) cur has acc =
      auditLoop pk rest none has
        (acc + (if cur.isSome && !has then 1 else 0)) := by
  simp only [auditLoop]
  rw [if_neg (by rw [hdel]; simp), hp]

theorem auditLoop_cons_sig (pk : PublicKey) (m : Node) (rest : List Node)
    (cur : Option Node) (has : Bool) (acc : Nat) (s : Sig)
    (hdel : m.deleted = false) (hp : m.pkt = .signature s) :
    auditLoop pk (m :: rest) cur has acc =
      (match cur with
       | none => auditLoop pk rest cur has acc
       | some c =>
         if has then auditLoop pk rest cur has acc
         else if !(s.checked && s.valid) then auditLoop pk rest cur has acc
         else if pk.keyid ≠ s.keyid then auditLoop pk rest cur has acc
         else auditLoop pk rest cur (selfsigClassOk c.pkt s) acc) := by
  simp only [auditLoop]
  rw [if_neg (by rw [hdel]; simp), hp]

/-- Whether the already-passed component `c` will be charged as missing a
self-signature by the rest of the walk: a further non-deleted component or
unhandled node is reached before any checked-and-valid self-signature of the
class appropriate to `c`.  On an exhausted list the charge never happens (the
C loop performs no final flush). -/
def pendingMiss (pk : PublicKey) (c : Node) : List Node → Bool
  | [] => false
  | m :: rest =>
    if m.deleted then pendingMiss pk c rest
    else
      match m.pkt with
      | .signature s =>
        if s.checked && s.valid && (pk.keyid == s.keyid) && selfsigClassOk c.pkt s
        then false
        else pendingMiss pk c rest
      | _ => true

/-- Specification-side count of components charged as missing a
self-signature: a non-deleted component is charged exactly when
`pendingMiss` holds for the remainder of the keyblock. -/
def specMissing (pk : PublicKey) : List Node → Nat
  | [] => 0
  | m :: rest =>
    (if !m.deleted && compPacket m.pkt && pendingMiss pk m rest then 1 else 0) +
      specMissing pk rest

theorem pendingMiss_del (pk : PublicKey) (c m : Node) (rest : List Node)
    (h : m.deleted = true) :
    pendingMiss pk c (m :: rest) = pendingMiss pk c rest := by
  simp only [pendingMiss]
  rw [if_pos h]

theorem pendingMiss_stop (pk : PublicKey) (c m : Node) (rest : List Node)
    (hdel : m.deleted = false) (hsig : sigNode m = false) :
    pendingMiss pk c (m :: rest) = true := by
  simp only [pendingMiss]
  rw [if_neg (by rw [hdel]; simp)]
  cases hp : m.pkt with
  | signature s =>
    unfold sigNode at hsig
    rw [hp] at hsig
    cases hsig
  | publicKey q => rfl
  | publicSubkey q => rfl
  | userId q => rfl
  | other t => rfl

theorem pendingMiss_sig (pk : PublicKey) (c m : Node) (rest : List Node)
    (s : Sig) (hdel : m.deleted = false) (hp : m.pkt = .signature s) :
    pendingMiss pk c (m :: rest) =
      (if s.checked && s.valid && (pk.keyid == s.keyid) && selfsigClassOk c.pkt s
       then false
       else pendingMiss pk c rest) := by
  simp only [pendingMiss]
  rw [if_neg (by rw [hdel]; simp), hp]

theorem specMissing_cons (pk : PublicKey) (m : Node) (rest : List Node) :
    specMissing pk (m :: rest) =
      (if !m.deleted && compPacket m.pkt && pendingMiss pk m rest then 1 else 0) +
        specMissing pk rest := by
  simp only [specMissing]


/-- Characterization of the audit walk: the final count is the accumulator,
plus one pending charge for the current component, plus the
specification-side count over the remaining nodes. -/
theorem auditLoop_spec (pk : PublicKey) :
    ∀ (l : List Node) (cur : Option Node) (has : Bool) (acc : Nat),
      auditLoop pk l cur has acc =
        acc +
        (match cur with
         | none => 0
         | some c => if !has && pendingMiss pk c l then 1 else 0) +
        specMissing pk l := by
  intro l
  induction l with
  | nil =>
    intro cur has acc
    cases cur with
    | none => simp [auditLoop, specMissing]
    | some c => simp [auditLoop, specMissing, pendingMiss]
  | cons m rest ih =>
    intro cur has acc
    cases cur with
    | none =>
      show auditLoop pk (m :: rest) none has acc =
        acc + 0 + specMissing pk (m :: rest)
      by_cases hdel : m.deleted = true
      · rw [auditLoop_cons_del pk m rest none has acc hdel, ih none has acc,
          specMissing_cons, if_neg (by rw [hdel]; simp)]
        simp only []
        omega
      · have hdelf : m.deleted = false := by
          cases hb : m.deleted
          · rfl
          · exact absurd hb hdel
        cases hp : m.pkt with
        | publicKey q =>
          have hcomp : compPacket m.pkt = true := by unfold compPacket; rw [hp]
          rw [auditLoop_cons_pk pk m rest none has acc q hdelf hp,
            ih (some m) false _, specMissing_cons, hdelf, hcomp]
          simp
          omega
        | publicSubkey q =>
          have hcomp : compPacket m.pkt = true := by unfold compPacket; rw [hp]
          rw [auditLoop_cons_sub pk m rest none has acc q hdelf hp,
            ih (some m) false _, specMissing_cons, hdelf, hcomp]
          simp
          omega
        | userId q =>
          have hcomp : compPacket m.pkt = true := by unfold compPacket; rw [hp]
          rw [auditLoop_cons_uid pk m rest none has acc q hdelf hp,
            ih (some m) false _, specMissing_cons, hdelf, hcomp]
          simp
          omega
        | other t =>
          have hcompf : compPacket m.pkt = false := by unfold compPacket; rw [hp]
          rw [auditLoop_cons_other pk m rest none has acc t hdelf hp,
            ih none has _, specMissing_cons, hcompf]
          simp
        | signature s =>
          have hcompf : compPacket m.pkt = false := by unfold compPacket; rw [hp]
          rw [auditLoop_cons_sig pk m rest none has acc s hdelf hp]
          simp only []
          rw [ih none has acc, specMissing_cons, hcompf]
          simp
    | some c =>
      show auditLoop pk (m :: rest) (some c) has acc =
        acc + (if !has && pendingMiss pk c (m :: rest) then 1 else 0) +
          specMissing pk (m :: rest)
      by_cases hdel : m.deleted = true
      · rw [auditLoop_cons_del pk m rest (some c) has acc hdel, ih (some c) has acc,
          specMissing_cons, pendingMiss_del pk c m rest hdel,
          if_neg (show ¬((!m.deleted && compPacket m.pkt && pendingMiss pk m rest) = true)
            from by rw [hdel]; simp)]
        simp only []
        omega
      · have hdelf : m.deleted = false := by
          cases hb : m.deleted
          · rfl
          · exact absurd hb hdel
        have hsigf : sigNode m = false → pendingMiss pk c (m :: rest) = true :=
          fun hs => pendingMiss_stop pk c m rest hdelf hs
        cases hp : m.pkt with
        | publicKey q =>
          have hcomp : compPacket m.pkt = true := by unfold compPacket; rw [hp]
          have hsn : sigNode m = false := by unfold sigNode; rw [hp]
          rw [auditLoop_cons_pk pk m rest (some c) has acc q hdelf hp,
            ih (some m) false _, specMissing_cons, hdelf, hcomp, hsigf hsn]
          simp
          omega
        | publicSubkey q =>
          have hcomp : compPacket m.pkt = true := by unfold compPacket; rw [hp]
          have hsn : sigNode m = false := by unfold sigNode; rw [hp]
          rw [auditLoop_cons_sub pk m rest (some c) has acc q hdelf hp,
            ih (some m) false _, specMissing_cons, hdelf, hcomp, hsigf hsn]
          simp
          omega
        | userId q =>
          have hcomp : compPacket m.pkt = true := by unfold compPacket; rw [hp]
          have hsn : sigNode m = false := by unfold sigNode; rw [hp]
          rw [auditLoop_cons_uid pk m rest (some c) has acc q hdelf hp,
            ih (some m) false _, specMissing_cons, hdelf, hcomp, hsigf hsn]
          simp
          omega
        | other t =>
          have hcompf : compPacket m.pkt = false := by unfold compPacket; rw [hp]
          have hsn : sigNode m = false := by unfold sigNode; rw [hp]
          rw [auditLoop_cons_other pk m rest (some c) has acc t hdelf hp,
            ih none has _, specMissing_cons, hcompf, hsigf hsn]
          simp
        | signature s =>
          have hcompf : compPacket m.pkt = false := by unfold compPacket; rw [hp]
          rw [auditLoop_cons_sig pk m rest (some c) has acc s hdelf hp]
          simp only []
          rw [specMissing_cons, hcompf, pendingMiss_sig pk c m rest s hdelf hp]
          by_cases hhas : has = true
          · rw [if_pos hhas, ih (some c) has acc]
            simp only []
            rw [hhas]
            simp
          · have hhasf : has = false := by
              cases hb : has
              · rfl
              · exact absurd hb hhas
            rw [if_neg hhas]
            by_cases hcv : (s.checked && s.valid) = true
            · rw [if_neg (by rw [hcv]; simp)]
              by_cases hkid : pk.keyid = s.keyid
              · rw [if_neg (by simp [hkid]), ih (some c) (selfsigClassOk c.pkt s) acc]
                simp only []
                have hkb : (pk.keyid == s.keyid) = true := by simp [hkid]
                rw [hcv, hkb, hhasf]
                cases hcls : selfsigClassOk c.pkt s
                · simp
                · simp
              · rw [if_pos hkid, ih (some c) has acc]
                simp only []
                have hkb : (pk.keyid == s.keyid) = false := by simp [hkid]
                rw [hkb, hhasf]
                simp
            · have hcvf : (s.checked && s.valid) = false := by
                cases hb : (s.checked && s.valid)
                · rfl
                · exact absurd hb hcv
              rw [if_pos (by rw [hcvf]; rfl), ih (some c) has acc]
              simp only []
              rw [hcvf, hhasf]
              simp


theorem auditLoop_eq_specMissing (pk : PublicKey) (kb : List Node) :
    auditLoop pk kb none false 0 = specMissing pk kb := by
  rw [auditLoop_spec pk kb none false 0]
  simp only []
  omega

/-- Unfolding of `keyCheckAllKeysigs` on a non-empty keyblock. -/
theorem keyCheck_cons_eq (env : Env) (pol : Pol) (hk : Node) (K : List Node) :
    keyCheckAllKeysigs env pol (hk :: K) =
      (match hk.pkt with
       | Packet.publicKey pkx =>
         if ((hk :: K).filter liveSig).length = 0 then
           .ok ⟨0, hk :: K, [], [], [], [], 0, false⟩
         else if env.alloc_ok = false then
           .ok ⟨0, hk :: K, [], [], [], [], 0, false⟩
         else
           match placeLoop env pol pkx hk.id (2 * (dupPass env (hk :: K)).1.length + 1)
               ⟨(dupPass env (hk :: K)).1, none, [], [], [],
                 !(dupPass env (hk :: K)).2.isEmpty⟩
               (some hk.id) with
           | .fuelOut => .fuelOut
           | .abort => .abort
           | .ok st => .ok ⟨(if st.modified then 1 else 0), st.kb,
                (dupPass env (hk :: K)).2,
                st.missingIssuerIds, st.badIds, st.reorderedIds,
                auditLoop pkx st.kb none false 0, st.modified⟩
       | _ => .abort) := rfl

theorem keyCheck_zero_branch (env : Env) (pol : Pol) (hk : Node) (K : List Node)
    (pkk : PublicKey) (hpk : hk.pkt = .publicKey pkk)
    (hns : ((hk :: K).filter liveSig).length = 0) :
    keyCheckAllKeysigs env pol (hk :: K) =
      .ok ⟨0, hk :: K, [], [], [], [], 0, false⟩ := by
  rw [keyCheck_cons_eq env pol hk K, hpk]
  simp only []
  rw [if_pos hns]

theorem keyCheck_alloc_branch (env : Env) (pol : Pol) (hk : Node) (K : List Node)
    (pkk : PublicKey) (hpk : hk.pkt = .publicKey pkk)
    (hns : ¬ ((hk :: K).filter liveSig).length = 0) (hal : env.alloc_ok = false) :
    keyCheckAllKeysigs env pol (hk :: K) =
      .ok ⟨0, hk :: K, [], [], [], [], 0, false⟩ := by
  rw [keyCheck_cons_eq env pol hk K, hpk]
  simp only []
  rw [if_neg hns, if_pos hal]

theorem keyCheck_abort_of_not_pk (env : Env) (pol : Pol) (hk : Node)
    (K : List Node) (h : pkPacket hk.pkt = false) :
    keyCheckAllKeysigs env pol (hk :: K) = .abort := by
  rw [keyCheck_cons_eq env pol hk K]
  unfold pkPacket at h
  cases hp : hk.pkt with
  | publicKey q =>
    rw [hp] at h
    cases h
  | publicSubkey q => rfl
  | userId q => rfl
  | signature s => rfl
  | other t => rfl

theorem dupPass_id_of_no_kill (env : Env) (l : List Node)
    (h : killIds env l = []) : (dupPass env l).1 = l := by
  simp only [dupPass, h]
  apply List.filter_eq_self.mpr
  intro a _
  rfl

/-- Facts established by a complete main-branch run of `keyCheckAllKeysigs`:
the placement loop does not run out of fuel, and a normal completion
determines the result record, the final-state facts and the bookkeeping
invariant. -/
theorem keyCheck_run (env : Env) (pol : Pol) (hk : Node) (K : List Node)
    (pkk : PublicKey) (hpk : hk.pkt = .publicKey pkk)
    (hnd : (((hk :: K)).map Node.id).Nodup)
    (hns : ¬ ((hk :: K).filter liveSig).length = 0)
    (hal : env.alloc_ok = true) :
    keyCheckAllKeysigs env pol (hk :: K) ≠ .fuelOut ∧
    (∀ r, keyCheckAllKeysigs env pol (hk :: K) = .ok r →
      ∃ st, r = ⟨(if st.modified then 1 else 0), st.kb, (dupPass env (hk :: K)).2,
             st.missingIssuerIds, st.badIds, st.reorderedIds,
             auditLoop pkk st.kb none false 0, st.modified⟩ ∧
        PlaceFinal env pol pkk hk.id st ∧
        TrackInv env pol pkk (dupPass env (hk :: K)).1
          (!(dupPass env (hk :: K)).2.isEmpty) st) := by
  have hlivehk : liveSig hk = false := by
    unfold liveSig sigNode
    rw [hpk]
    simp
  obtain ⟨T, hT⟩ := dupPass_head env hk K hnd hlivehk
  have hnd1 : (((dupPass env (hk :: K)).1).map Node.id).Nodup :=
    dupPass_nodup env (hk :: K) hnd
  have hinv : LoopInv env pol pkk hk.id
      ⟨(dupPass env (hk :: K)).1, none, [], [], [],
        !(dupPass env (hk :: K)).2.isEmpty⟩ (some hk.id) := by
    rw [hT] at hnd1 ⊢
    exact inv_entry env pol pkk hk T (!(dupPass env (hk :: K)).2.isEmpty) hnd1
  have hmeas : pMeasure env pol pkk (dupPass env (hk :: K)).1 (some hk.id) <
      2 * (dupPass env (hk :: K)).1.length + 1 := by
    have := pMeasure_le env pol pkk (dupPass env (hk :: K)).1 (some hk.id)
    omega
  have hmaster := placeLoop_master env pol pkk hk.id
    (2 * (dupPass env (hk :: K)).1.length + 1)
    ⟨(dupPass env (hk :: K)).1, none, [], [], [],
      !(dupPass env (hk :: K)).2.isEmpty⟩ (some hk.id) hinv hmeas
  have htrack0 : TrackInv env pol pkk (dupPass env (hk :: K)).1
      (!(dupPass env (hk :: K)).2.isEmpty)
      ⟨(dupPass env (hk :: K)).1, none, [], [], [],
        !(dupPass env (hk :: K)).2.isEmpty⟩ := by
    refine ⟨hnd1, List.Perm.refl _, rfl, by simp, ?_, fun _ => rfl, ?_⟩
    · intro i hi
      cases hi
    · intro i hi
      cases hi
  have hhead0 : ∀ x, ((dupPass env (hk :: K)).1).head? = some x →
      sigNode x = false := by
    intro x hx
    rw [hT] at hx
    injection hx with hx
    rw [← hx]
    unfold sigNode
    rw [hpk]
  rw [keyCheck_split env pol hk K pkk hpk hns hal]
  cases hpl : placeLoop env pol pkk hk.id (2 * (dupPass env (hk :: K)).1.length + 1)
      ⟨(dupPass env (hk :: K)).1, none, [], [], [],
        !(dupPass env (hk :: K)).2.isEmpty⟩ (some hk.id) with
  | fuelOut => exact absurd hpl hmaster.1
  | abort =>
    simp only []
    exact ⟨(by intro hc; cases hc), (by intro r hr; cases hr)⟩
  | ok st =>
    simp only []
    refine ⟨(by intro hc; cases hc), ?_⟩
    intro r hr
    injection hr with hr
    refine ⟨st, hr.symm, hmaster.2 st hpl, ?_⟩
    exact placeLoop_pres env pol pkk hk.id _
      (TrackInv_step env pol pkk hk.id _ _ hhead0) _ _ _ st hpl htrack0


/-- A second invocation on the keyblock produced by a completed main-branch
run reports an unmodified keyblock: no duplicate is removed and no signature
is reordered again. -/
theorem keyCheck_second_run (env : Env) (pol : Pol) (hk : Node) (K : List Node)
    (pkk : PublicKey) (hpk : hk.pkt = .publicKey pkk) (st : PState)
    (hnd : (((hk :: K)).map Node.id).Nodup) (hal : env.alloc_ok = true)
    (hfinal : PlaceFinal env pol pkk hk.id st)
    (htrack : TrackInv env pol pkk (dupPass env (hk :: K)).1
      (!(dupPass env (hk :: K)).2.isEmpty) st) :
    ∃ r2, keyCheckAllKeysigs env pol st.kb = .ok r2 ∧
      r2.ret = 0 ∧ r2.modified = false ∧ r2.killed = [] ∧ r2.reorderedIds = [] := by
  have hlivehk : liveSig hk = false := by
    unfold liveSig sigNode
    rw [hpk]
    simp
  obtain ⟨T, hT⟩ := dupPass_head env hk K hnd hlivehk
  obtain ⟨hnd2, hperm, hhd, hmodjunk, hbadjunk, hmissjunk, hreordjunk⟩ := htrack
  obtain ⟨xs, hstkb⟩ : ∃ xs, st.kb = hk :: xs := by
    cases hkb : st.kb with
    | nil =>
      rw [hkb, hT] at hhd
      simp only [List.head?_cons] at hhd
      cases hhd
    | cons x xs =>
      rw [hkb, hT] at hhd
      simp only [List.head?_cons] at hhd
      injection hhd with hhd
      exact ⟨xs, by rw [hhd]⟩
  by_cases hns2 : ((st.kb).filter liveSig).length = 0
  · refine ⟨⟨0, st.kb, [], [], [], [], 0, false⟩, ?_, rfl, rfl, rfl, rfl⟩
    rw [hstkb] at hns2 ⊢
    exact keyCheck_zero_branch env pol hk xs pkk hpk hns2
  · have hpw : ((st.kb).filter liveSig).Pairwise
        (fun a b => sig_comparison env (sigOf a) (sigOf b) ≠ .eq) := by
      have hpw0 := dup_survivors_pairwise env (hk :: K) hnd
      have hfp : ((st.kb).filter liveSig).Perm
          (((dupPass env (hk :: K)).1).filter liveSig) := hperm.filter _
      exact (hfp.pairwise_iff (fun hxy => cmpNe_symmetric env hxy)).mpr hpw0
    have hkill : killIds env st.kb = [] := killIds_nil_of_pairwise env st.kb hpw
    have hdp1 : (dupPass env st.kb).1 = st.kb := dupPass_id_of_no_kill env st.kb hkill
    have hdp2 : (dupPass env st.kb).2 = [] := hkill
    have hinv2 : LoopInv env pol pkk hk.id
        ⟨st.kb, none, [], [], [], false⟩ (some hk.id) := by
      rw [hstkb]
      refine inv_entry env pol pkk hk xs false ?_
      rw [← hstkb]
      exact hnd2
    have hmeas2 : pMeasure env pol pkk st.kb (some hk.id) <
        2 * st.kb.length + 1 := by
      have := pMeasure_le env pol pkk st.kb (some hk.id)
      omega
    obtain ⟨st', hpl', hkb', hreord', hmod'⟩ :=
      placeLoop_stable env pol pkk hk.id (2 * st.kb.length + 1)
        ⟨st.kb, none, [], [], [], false⟩ (some hk.id) hinv2
        hfinal.2.1 hfinal.2.2.2 hmeas2
    have hmf : st'.modified = false := hmod'
    have hre : st'.reorderedIds = [] := hreord'
    rw [hstkb]
    rw [keyCheck_split env pol hk xs pkk hpk (by rw [← hstkb]; exact hns2) hal]
    rw [← hstkb, hdp1, hdp2]
    rw [show (!([] : List Nat).isEmpty) = false from rfl]
    rw [hpl']
    simp only []
    refine ⟨_, rfl, ?_, hmf, rfl, hre⟩
    show (if st'.modified then 1 else 0) = 0
    rw [hmf]
    rfl


theorem findTarget_verify (env : Env) (u : PublicKey) (s : Sig) (kb : List Node)
    (cur : Node) (n2 : Node) (h : findTarget env u s kb cur = some n2) :
    env.verify u s n2.pkt = true := by
  unfold findTarget at h
  by_cases hvc : env.verify u s cur.pkt = true
  · rw [if_pos hvc] at h
    injection h with h
    rw [← h]
    exact hvc
  · rw [if_neg hvc] at h
    have := List.find?_some h
    simp only [Bool.and_eq_true] at this
    exact this.2

/-- Concrete policy: no selection restriction, no self-signature
restriction. -/
def polW : Pol := ⟨false, false⟩

/-- Concrete policy: self-signatures only. -/
def polS : Pol := ⟨false, true⟩

def pkW : PublicKey := ⟨100, 0⟩

def nodePk : Node := ⟨0, false, false, false, .publicKey pkW⟩

def nodeUid : Node := ⟨1, false, false, false, .userId 7⟩

/-- Collaborators that verify nothing; allocation succeeds. -/
def envW : Env := ⟨fun _ => 0, fun _ => none, fun _ => true, fun _ => true,
  fun _ _ _ => false, true⟩

/-- Collaborators that verify everything; allocation succeeds. -/
def envT : Env := ⟨fun _ => 0, fun _ => none, fun _ => true, fun _ => true,
  fun _ _ _ => true, true⟩

/-- Like `envT` but with a failing allocation. -/
def envTF : Env := ⟨fun _ => 0, fun _ => none, fun _ => true, fun _ => true,
  fun _ _ _ => true, false⟩

def sigBad : Sig := ⟨100, 1, 2, 16, 5, [1], false, false⟩

def nodeBad : Node := ⟨2, false, false, false, .signature sigBad⟩

/-- Keyblock with an unverifiable self-signature: both runs report it bad. -/
def kbC4 : List Node := [nodePk, nodeUid, nodeBad]

def rC4 : Result := ⟨0, kbC4, [], [], [2], [], 1, false⟩

def sigSelfPk : Sig := ⟨100, 1, 2, 31, 5, [1], true, true⟩

def nodeSigPk : Node := ⟨1, false, false, false, .signature sigSelfPk⟩

/-- Keyblock that is already clean: primary key with a good direct-key
self-signature. -/
def kbC7 : List Node := [nodePk, nodeSigPk]

/-- Keyblock with a user id and no signature at all. -/
def kbC5 : List Node := [nodePk, nodeUid]

def sigA : Sig := ⟨1, 1, 5, 0, 0, [1, 2], false, false⟩

def sigB : Sig := ⟨2, 9, 5, 3, 7, [], true, true⟩

def nodeA : Node := ⟨1, false, false, false, .signature sigA⟩

def nodeB : Node := ⟨2, false, false, false, .signature sigB⟩

/-- Two signatures that differ in every field except the digest algorithm;
with an mpi count of zero they compare equal. -/
def kbC9 : List Node := [nodeA, nodeB]

/-- Collaborators whose verification primitive accepts exactly the
non-component packets: exhibits the assertion failure of the placement
splice. -/
def envC10 : Env := ⟨fun _ => 0, fun _ => none, fun _ => true, fun _ => true,
  fun _ _ p => !compPacket p, true⟩

def nodeOtherSig : Node := ⟨3, false, false, false,
  .signature ⟨9, 1, 2, 16, 6, [2], false, false⟩⟩

def stC10 : PState := ⟨[nodePk, nodeBad, nodeOtherSig], some nodePk,
  [], [], [], false⟩


/-- C1: `key_check_all_keysigs` returns 1 exactly when a duplicate signature
was removed or a signature was reordered; missing-issuer or bad-signature
events alone never make the return value non-zero. -/
theorem claim_C1 (env : Env) (pol : Pol) (kb : List Node) (r : Result)
    (hnd : (kb.map Node.id).Nodup)
    (h : keyCheckAllKeysigs env pol kb = .ok r) :
    (r.ret = 1 ↔ (r.dups ≠ 0 ∨ r.reordered ≠ 0)) := by
  cases kb with
  | nil =>
    rw [show keyCheckAllKeysigs env pol ([] : List Node) = Outcome.abort from rfl] at h
    cases h
  | cons hk K =>
    cases hpkt : hk.pkt with
    | publicKey pkk =>
      by_cases hns : ((hk :: K).filter liveSig).length = 0
      · rw [keyCheck_zero_branch env pol hk K pkk hpkt hns] at h
        injection h with h
        rw [← h]
        simp [Result.dups, Result.reordered]
      · by_cases hal : env.alloc_ok = true
        · obtain ⟨st, hr, hfin, htr⟩ :=
            (keyCheck_run env pol hk K pkk hpkt hnd hns hal).2 r h
          subst hr
          have hmod := htr.2.2.2.1
          show ((if st.modified then 1 else 0) = 1 ↔
            ((dupPass env (hk :: K)).2.length ≠ 0 ∨ st.reorderedIds.length ≠ 0))
          cases hmodv : st.modified with
          | false =>
            rw [hmodv] at hmod
            have hor := hmod.symm
            have hk0 : (dupPass env (hk :: K)).2 = [] := by
              cases he : (dupPass env (hk :: K)).2.isEmpty
              · rw [he] at hor
                simp at hor
              · exact List.isEmpty_iff.mp he
            have hr0 : st.reorderedIds = [] := by
              cases he : st.reorderedIds.isEmpty
              · rw [he] at hor
                simp at hor
              · exact List.isEmpty_iff.mp he
            rw [hk0, hr0]
            simp
          | true =>
            rw [hmodv] at hmod
            have hor := hmod.symm
            constructor
            · intro _
              rcases Bool.or_eq_true_iff.mp hor with hb | hb
              · left
                intro hlen
                rw [List.length_eq_zero] at hlen
                rw [hlen] at hb
                simp at hb
              · right
                intro hlen
                rw [List.length_eq_zero] at hlen
                rw [hlen] at hb
                simp at hb
            · intro _
              simp
        · have half : env.alloc_ok = false := by
            cases hb : env.alloc_ok
            · rfl
            · exact absurd hb hal
          rw [keyCheck_alloc_branch env pol hk K pkk hpkt hns half] at h
          injection h with h
          rw [← h]
          simp [Result.dups, Result.reordered]
    | publicSubkey q =>
      rw [keyCheck_abort_of_not_pk env pol hk K (by unfold pkPacket; rw [hpkt])] at h
      cases h
    | userId q =>
      rw [keyCheck_abort_of_not_pk env pol hk K (by unfold pkPacket; rw [hpkt])] at h
      cases h
    | signature s =>
      rw [keyCheck_abort_of_not_pk env pol hk K (by unfold pkPacket; rw [hpkt])] at h
      cases h
    | other t =>
      rw [keyCheck_abort_of_not_pk env pol hk K (by unfold pkPacket; rw [hpkt])] at h
      cases h

theorem claim_C1_witness :
    ((⟨0, [nodePk], [], [], [], [], 0, false⟩ : Result).ret = 1 ↔
      ((⟨0, [nodePk], [], [], [], [], 0, false⟩ : Result).dups ≠ 0 ∨
       (⟨0, [nodePk], [], [], [], [], 0, false⟩ : Result).reordered ≠ 0)) :=
  claim_C1 envW polW [nodePk] _ (by decide) rfl

/-- C2: the duplicate comparator reports two signature records equal exactly
when their digest algorithms agree, their mpi counts (as functions of the
public-key algorithm) agree, and all compared mpi values agree; the issuer
key id, timestamp and signature class never influence the result. -/
theorem claim_C2 (env : Env) (a b : Sig) :
    (sig_comparison env a b = .eq ↔
      (a.digest_algo = b.digest_algo ∧
       env.nsig a.pubkey_algo = env.nsig b.pubkey_algo ∧
       ∀ i < env.nsig a.pubkey_algo, a.data.getD i 0 = b.data.getD i 0)) ∧
    (∀ k1 c1 t1 k2 c2 t2,
      sig_comparison env
        ⟨k1, a.pubkey_algo, a.digest_algo, c1, t1, a.data, a.checked, a.valid⟩
        ⟨k2, b.pubkey_algo, b.digest_algo, c2, t2, b.data, b.checked, b.valid⟩ =
      sig_comparison env a b) :=
  ⟨sig_comparison_eq_iff env a b, fun _ _ _ _ _ _ => rfl⟩

/-- C3: the check only removes comparator-equal duplicates; every other
node survives unchanged (up to position), and in particular every signature
recorded as bad is still a live signature of the final keyblock. -/
theorem claim_C3 (env : Env) (pol : Pol) (kb : List Node) (r : Result)
    (hnd : (kb.map Node.id).Nodup)
    (h : keyCheckAllKeysigs env pol kb = .ok r) :
    r.kb.Perm (kb.filter (fun n => !(r.killed.contains n.id))) ∧
    (∀ i ∈ r.killed, ∃ a b, a ∈ kb ∧ b ∈ kb ∧ liveSig a = true ∧
      liveSig b = true ∧ a.id = i ∧ a.id ≠ b.id ∧
      sig_comparison env (sigOf a) (sigOf b) = .eq) ∧
    (∀ i ∈ r.badIds, ∃ m ∈ r.kb, m.id = i ∧ liveSig m = true) := by
  cases kb with
  | nil =>
    rw [show keyCheckAllKeysigs env pol ([] : List Node) = Outcome.abort from rfl] at h
    cases h
  | cons hk K =>
    cases hpkt : hk.pkt with
    | publicKey pkk =>
      by_cases hns : ((hk :: K).filter liveSig).length = 0
      · rw [keyCheck_zero_branch env pol hk K pkk hpkt hns] at h
        injection h with h
        rw [← h]
        refine ⟨?_, ?_, ?_⟩
        · show (hk :: K).Perm
            ((hk :: K).filter (fun n => !(List.contains ([] : List Nat) n.id)))
          have hfe : (hk :: K).filter
              (fun n => !(List.contains ([] : List Nat) n.id)) = hk :: K :=
            List.filter_eq_self.mpr (fun a _ => rfl)
          rw [hfe]
        · intro i hi
          cases hi
        · intro i hi
          cases hi
      · by_cases hal : env.alloc_ok = true
        · obtain ⟨st, hr, hfin, htr⟩ :=
            (keyCheck_run env pol hk K pkk hpkt hnd hns hal).2 r h
          subst hr
          refine ⟨htr.2.1, ?_, ?_⟩
          · intro i hi
            exact killIds_pair env (hk :: K) hnd i hi
          · intro i hi
            obtain ⟨m, hm, h1, h2, _⟩ := htr.2.2.2.2.1 i hi
            exact ⟨m, hm, h1, h2⟩
        · have half : env.alloc_ok = false := by
            cases hb : env.alloc_ok
            · rfl
            · exact absurd hb hal
          rw [keyCheck_alloc_branch env pol hk K pkk hpkt hns half] at h
          injection h with h
          rw [← h]
          refine ⟨?_, ?_, ?_⟩
          · show (hk :: K).Perm
              ((hk :: K).filter (fun n => !(List.contains ([] : List Nat) n.id)))
            have hfe : (hk :: K).filter
                (fun n => !(List.contains ([] : List Nat) n.id)) = hk :: K :=
              List.filter_eq_self.mpr (fun a _ => rfl)
            rw [hfe]
          · intro i hi
            cases hi
          · intro i hi
            cases hi
    | publicSubkey q =>
      rw [keyCheck_abort_of_not_pk env pol hk K (by unfold pkPacket; rw [hpkt])] at h
      cases h
    | userId q =>
      rw [keyCheck_abort_of_not_pk env pol hk K (by unfold pkPacket; rw [hpkt])] at h
      cases h
    | signature s =>
      rw [keyCheck_abort_of_not_pk env pol hk K (by unfold pkPacket; rw [hpkt])] at h
      cases h
    | other t =>
      rw [keyCheck_abort_of_not_pk env pol hk K (by unfold pkPacket; rw [hpkt])] at h
      cases h

theorem claim_C3_witness :
    (([nodePk] : List Node).Perm
      ([nodePk].filter (fun n =>
        !((⟨0, [nodePk], [], [], [], [], 0, false⟩ : Result).killed.contains n.id))) ∧
    (∀ i ∈ (⟨0, [nodePk], [], [], [], [], 0, false⟩ : Result).killed,
      ∃ a b, a ∈ [nodePk] ∧ b ∈ [nodePk] ∧ liveSig a = true ∧
      liveSig b = true ∧ a.id = i ∧ a.id ≠ b.id ∧
      sig_comparison envW (sigOf a) (sigOf b) = .eq) ∧
    (∀ i ∈ (⟨0, [nodePk], [], [], [], [], 0, false⟩ : Result).badIds,
      ∃ m ∈ ([nodePk] : List Node), m.id = i ∧ liveSig m = true)) :=
  claim_C3 envW polW [nodePk] _ (by decide) rfl


/-- C4 (counterexample): the second run is structurally stable but does not
zero all counters: a signature that verifies nowhere is recounted as bad on
every run. -/
theorem claim_C4_counterexample :
    keyCheckAllKeysigs envW polW kbC4 = .ok rC4 ∧
    keyCheckAllKeysigs envW polW rC4.kb = .ok rC4 ∧
    ¬ (rC4.bad_signature = 0) := by
  refine ⟨rfl, rfl, ?_⟩
  decide

/-- C4 (amended): running the checker a second time on the keyblock the
first run produced reports an unmodified keyblock: return value 0,
modified flag false, no duplicate removed, no signature reordered.  (The
verification-related counters — missing issuer, bad signature, missing
self-signature — can repeat on the second run.) -/
theorem claim_C4_amended (env : Env) (pol : Pol) (kb : List Node) (r : Result)
    (hnd : (kb.map Node.id).Nodup)
    (h : keyCheckAllKeysigs env pol kb = .ok r) :
    ∃ r2, keyCheckAllKeysigs env pol r.kb = .ok r2 ∧
      r2.ret = 0 ∧ r2.modified = false ∧ r2.dups = 0 ∧ r2.reordered = 0 := by
  cases kb with
  | nil =>
    rw [show keyCheckAllKeysigs env pol ([] : List Node) = Outcome.abort from rfl] at h
    cases h
  | cons hk K =>
    cases hpkt : hk.pkt with
    | publicKey pkk =>
      by_cases hns : ((hk :: K).filter liveSig).length = 0
      · rw [keyCheck_zero_branch env pol hk K pkk hpkt hns] at h
        injection h with h
        rw [← h]
        exact ⟨⟨0, hk :: K, [], [], [], [], 0, false⟩,
          keyCheck_zero_branch env pol hk K pkk hpkt hns, rfl, rfl, rfl, rfl⟩
      · by_cases hal : env.alloc_ok = true
        · obtain ⟨st, hr, hfin, htr⟩ :=
            (keyCheck_run env pol hk K pkk hpkt hnd hns hal).2 r h
          subst hr
          obtain ⟨r2, h2, hret, hmod, hkil, hreo⟩ :=
            keyCheck_second_run env pol hk K pkk hpkt st hnd hal hfin htr
          refine ⟨r2, h2, hret, hmod, ?_, ?_⟩
          · show r2.killed.length = 0
            rw [hkil]
            rfl
          · show r2.reorderedIds.length = 0
            rw [hreo]
            rfl
        · have half : env.alloc_ok = false := by
            cases hb : env.alloc_ok
            · rfl
            · exact absurd hb hal
          rw [keyCheck_alloc_branch env pol hk K pkk hpkt hns half] at h
          injection h with h
          rw [← h]
          exact ⟨⟨0, hk :: K, [], [], [], [], 0, false⟩,
            keyCheck_alloc_branch env pol hk K pkk hpkt hns half, rfl, rfl, rfl, rfl⟩
    | publicSubkey q =>
      rw [keyCheck_abort_of_not_pk env pol hk K (by unfold pkPacket; rw [hpkt])] at h
      cases h
    | userId q =>
      rw [keyCheck_abort_of_not_pk env pol hk K (by unfold pkPacket; rw [hpkt])] at h
      cases h
    | signature s =>
      rw [keyCheck_abort_of_not_pk env pol hk K (by unfold pkPacket; rw [hpkt])] at h
      cases h
    | other t =>
      rw [keyCheck_abort_of_not_pk env pol hk K (by unfold pkPacket; rw [hpkt])] at h
      cases h

theorem claim_C4_amended_witness :
    ∃ r2, keyCheckAllKeysigs envW polW
        (⟨0, [nodePk], [], [], [], [], 0, false⟩ : Result).kb = .ok r2 ∧
      r2.ret = 0 ∧ r2.modified = false ∧ r2.dups = 0 ∧ r2.reordered = 0 :=
  claim_C4_amended envW polW [nodePk] _ (by decide) rfl

/-- C5 (counterexample): a keyblock whose user id has no certification
signature at all — indeed no signature at all — for which the check reports
zero missing self-signatures (the function returns before the audit when
there is no signature, and the audit never flushes a trailing component). -/
theorem claim_C5_counterexample :
    nodeUid ∈ kbC5 ∧ nodeUid.pkt = Packet.userId 7 ∧
    kbC5.all (fun n => !sigNode n) = true ∧
    keyCheckAllKeysigs envW polW kbC5 = .ok ⟨0, kbC5, [], [], [], [], 0, false⟩ := by
  refine ⟨by decide, rfl, by decide, rfl⟩

/-- C5 (amended): the audit charges one missing self-signature exactly for
every non-deleted component that is followed by a further non-deleted
component or unhandled node with no intervening checked-and-valid
self-signature of the appropriate class; a trailing component is never
charged. -/
theorem claim_C5_amended (pk : PublicKey) (kb : List Node) :
    auditLoop pk kb none false 0 = specMissing pk kb :=
  auditLoop_eq_specMissing pk kb

/-- C6: in self-signatures-only mode no foreign signature is relocated,
counted bad, or counted missing-issuer: the missing-issuer list stays empty
and every bad or reordered signature is a self-signature, while the
duplicate pass is the same scan as in any other mode. -/
theorem claim_C6 (env : Env) (pol : Pol) (hk : Node) (K : List Node)
    (pkk : PublicKey) (r : Result)
    (hnd : (((hk :: K)).map Node.id).Nodup)
    (hpk : hk.pkt = .publicKey pkk)
    (hsel : pol.only_selfsigs = true)
    (hal : env.alloc_ok = true)
    (h : keyCheckAllKeysigs env pol (hk :: K) = .ok r) :
    r.missingIssuerIds = [] ∧
    (∀ i ∈ r.badIds, ∃ m ∈ r.kb, m.id = i ∧ liveSig m = true ∧
      pkk.keyid = (sigOf m).keyid) ∧
    (∀ i ∈ r.reorderedIds, ∃ m ∈ r.kb, m.id = i ∧ liveSig m = true ∧
      pkk.keyid = (sigOf m).keyid) ∧
    r.killed = killIds env (hk :: K) := by
  by_cases hns : ((hk :: K).filter liveSig).length = 0
  · rw [keyCheck_zero_branch env pol hk K pkk hpk hns] at h
    injection h with h
    rw [← h]
    refine ⟨rfl, ?_, ?_, ?_⟩
    · intro i hi
      cases hi
    · intro i hi
      cases hi
    · show ([] : List Nat) = killIds env (hk :: K)
      have hfe : (hk :: K).filter liveSig = [] := List.length_eq_zero.mp hns
      exact (killIds_eq_nil env (hk :: K) (by unfold sortedSigs; rw [hfe]; rfl)).symm
  · obtain ⟨st, hr, hfin, htr⟩ :=
      (keyCheck_run env pol hk K pkk hpk hnd hns hal).2 r h
    subst hr
    refine ⟨htr.2.2.2.2.2.1 hsel, ?_, ?_, rfl⟩
    · intro i hi
      obtain ⟨m, hm, h1, h2, h3⟩ := htr.2.2.2.2.1 i hi
      exact ⟨m, hm, h1, h2, h3 hsel⟩
    · intro i hi
      obtain ⟨m, hm, h1, h2, h3⟩ := htr.2.2.2.2.2.2 i hi
      exact ⟨m, hm, h1, h2, h3 hsel⟩

theorem claim_C6_witness :
    (⟨0, kbC7, [], [], [], [], 0, false⟩ : Result).missingIssuerIds = [] ∧
    (∀ i ∈ (⟨0, kbC7, [], [], [], [], 0, false⟩ : Result).badIds,
      ∃ m ∈ (⟨0, kbC7, [], [], [], [], 0, false⟩ : Result).kb,
        m.id = i ∧ liveSig m = true ∧ pkW.keyid = (sigOf m).keyid) ∧
    (∀ i ∈ (⟨0, kbC7, [], [], [], [], 0, false⟩ : Result).reorderedIds,
      ∃ m ∈ (⟨0, kbC7, [], [], [], [], 0, false⟩ : Result).kb,
        m.id = i ∧ liveSig m = true ∧ pkW.keyid = (sigOf m).keyid) ∧
    (⟨0, kbC7, [], [], [], [], 0, false⟩ : Result).killed =
      killIds envT (nodePk :: [nodeSigPk]) :=
  claim_C6 envT polS nodePk [nodeSigPk] pkW _ (by decide) rfl rfl rfl rfl

/-- C7 (counterexample): the allocation-failure outcome is not surfaced
distinctly: on an already-clean keyblock the failing-allocation run and the
successful run return the very same result. -/
theorem claim_C7_counterexample :
    envTF.alloc_ok = false ∧ envT.alloc_ok = true ∧
    keyCheckAllKeysigs envTF polW kbC7 = keyCheckAllKeysigs envT polW kbC7 :=
  ⟨rfl, rfl, rfl⟩

/-- C7 (amended): when the allocation of the signature array fails the check
gives up without touching the keyblock and returns 0 — the same "keyblock
unmodified" outcome a clean verification run produces, not a distinct
error. -/
theorem claim_C7_amended (env : Env) (pol : Pol) (hk : Node) (K : List Node)
    (pkk : PublicKey) (hpk : hk.pkt = .publicKey pkk)
    (hal : env.alloc_ok = false) :
    keyCheckAllKeysigs env pol (hk :: K) =
      .ok ⟨0, hk :: K, [], [], [], [], 0, false⟩ := by
  by_cases hns : ((hk :: K).filter liveSig).length = 0
  · exact keyCheck_zero_branch env pol hk K pkk hpk hns
  · exact keyCheck_alloc_branch env pol hk K pkk hpk hns hal

theorem claim_C7_amended_witness :
    keyCheckAllKeysigs envTF polW (nodePk :: [nodeSigPk]) =
      .ok ⟨0, nodePk :: [nodeSigPk], [], [], [], [], 0, false⟩ :=
  claim_C7_amended envTF polW nodePk [nodeSigPk] pkW rfl rfl

/-- C8: on every finite keyblock with distinct node identities the placement
pass terminates — the fuel `2 * length + 1` of the model is never
exhausted. -/
theorem claim_C8 (env : Env) (pol : Pol) (kb : List Node)
    (hnd : (kb.map Node.id).Nodup) :
    keyCheckAllKeysigs env pol kb ≠ Outcome.fuelOut := by
  cases kb with
  | nil =>
    rw [show keyCheckAllKeysigs env pol ([] : List Node) = Outcome.abort from rfl]
    intro hc
    cases hc
  | cons hk K =>
    cases hpkt : hk.pkt with
    | publicKey pkk =>
      by_cases hns : ((hk :: K).filter liveSig).length = 0
      · rw [keyCheck_zero_branch env pol hk K pkk hpkt hns]
        intro hc
        cases hc
      · by_cases hal : env.alloc_ok = true
        · exact (keyCheck_run env pol hk K pkk hpkt hnd hns hal).1
        · have half : env.alloc_ok = false := by
            cases hb : env.alloc_ok
            · rfl
            · exact absurd hb hal
          rw [keyCheck_alloc_branch env pol hk K pkk hpkt hns half]
          intro hc
          cases hc
    | publicSubkey q =>
      rw [keyCheck_abort_of_not_pk env pol hk K (by unfold pkPacket; rw [hpkt])]
      intro hc
      cases hc
    | userId q =>
      rw [keyCheck_abort_of_not_pk env pol hk K (by unfold pkPacket; rw [hpkt])]
      intro hc
      cases hc
    | signature s =>
      rw [keyCheck_abort_of_not_pk env pol hk K (by unfold pkPacket; rw [hpkt])]
      intro hc
      cases hc
    | other t =>
      rw [keyCheck_abort_of_not_pk env pol hk K (by unfold pkPacket; rw [hpkt])]
      intro hc
      cases hc

theorem claim_C8_witness :
    keyCheckAllKeysigs envW polW [nodePk] ≠ Outcome.fuelOut :=
  claim_C8 envW polW [nodePk] (by decide)

/-- C9: two signatures with equal digest algorithms whose public-key
algorithms both yield a zero mpi count compare equal, so the duplicate pass
removes one of them whatever their other fields hold. -/
theorem claim_C9 (env : Env) (kb : List Node) (hnd : (kb.map Node.id).Nodup)
    (a b : Node) (ha : a ∈ kb) (hb : b ∈ kb) (hla : liveSig a = true)
    (hlb : liveSig b = true) (hne : a.id ≠ b.id)
    (hd : (sigOf a).digest_algo = (sigOf b).digest_algo)
    (hza : env.nsig (sigOf a).pubkey_algo = 0)
    (hzb : env.nsig (sigOf b).pubkey_algo = 0) :
    sig_comparison env (sigOf a) (sigOf b) = .eq ∧
    (a.id ∈ (dupPass env kb).2 ∨ b.id ∈ (dupPass env kb).2) := by
  have hcmp : sig_comparison env (sigOf a) (sigOf b) = .eq := by
    rw [sig_comparison_eq_iff]
    refine ⟨hd, by rw [hza, hzb], ?_⟩
    intro i hi
    rw [hza] at hi
    exact absurd hi (Nat.not_lt_zero i)
  exact ⟨hcmp, killed_one_of_pair env kb hnd ha hb hla hlb hne hcmp⟩

theorem claim_C9_witness :
    sig_comparison envW (sigOf nodeA) (sigOf nodeB) = .eq ∧
    (nodeA.id ∈ (dupPass envW kbC9).2 ∨ nodeB.id ∈ (dupPass envW kbC9).2) :=
  claim_C9 envW kbC9 (by decide) nodeA nodeB (by decide) (by decide)
    (by decide) (by decide) (by decide) rfl rfl rfl

/-- C10: the placement search tests a signature against every non-deleted
node of the keyblock, of any packet type; the `log_assert` that a found
target is a component cannot fire when the verification primitive accepts
only component packets, and it does fire (aborting) for a primitive that
accepts a non-component packet. -/
theorem claim_C10 :
    (∀ (env : Env) (u : PublicKey) (sg : Sig) (kb : List Node) (cur : Node),
      (∃ m ∈ kb, m.deleted = false ∧ m.id ≠ cur.id ∧
        env.verify u sg m.pkt = true) →
      findTarget env u sg kb cur ≠ none) ∧
    (∀ (env : Env) (st : PState) (n : Node) (s : Sig) (u : PublicKey) (c : Node),
      (∀ p, env.verify u s p = true → compPacket p = true) →
      processSigWith env st n s u c ≠ .abort) ∧
    (compPacket nodePk.pkt = true ∧
      processSigWith envC10 stC10 nodeBad sigBad pkW nodePk = .abort) := by
  refine ⟨?_, ?_, rfl, rfl⟩
  · intro env u sg kb cur hex hcon
    unfold findTarget at hcon
    by_cases hvc : env.verify u sg cur.pkt = true
    · rw [if_pos hvc] at hcon
      cases hcon
    · rw [if_neg hvc] at hcon
      rw [List.find?_eq_none] at hcon
      obtain ⟨m, hm, hdel, hne, hv⟩ := hex
      exact hcon m hm (by simp [hdel, hv, bne_iff_ne, hne])
  · intro env st n s u c hcompHyp hcon
    unfold processSigWith at hcon
    by_cases h1 : env.pk_algo_ok s.pubkey_algo = false
    · rw [if_pos h1] at hcon
      cases hcon
    · rw [if_neg h1] at hcon
      by_cases h2 : env.md_algo_ok s.digest_algo = false
      · rw [if_pos h2] at hcon
        cases hcon
      · rw [if_neg h2] at hcon
        cases hft : findTarget env u s st.kb c with
        | none =>
          rw [hft] at hcon
          simp only [] at hcon
          cases hcon
        | some n2 =>
          rw [hft] at hcon
          simp only [] at hcon
          by_cases h3 : n2.id = c.id
          · rw [if_pos h3] at hcon
            cases hcon
          · rw [if_neg h3] at hcon
            rw [if_pos (hcompHyp n2.pkt
              (findTarget_verify env u s st.kb c n2 hft))] at hcon
            cases hcon

end KeyCheck
